import Mathlib

/-!
Verification of the crawl-orchestration core of the website-bs4-crawler
repository: a shallow embedding, in Lean 4, of the URL frontier and
deduplication logic (src/crawler/url_manager.py), the adaptive per-domain
rate limiter (src/webcrawler/crawler/rate_limiter.py), the proxy rotator
(src/utils/proxy_manager.py) and the fetch/process pipeline
(src/crawler/crawler.py), together with proofs and refutations of the
specification's claims about them.

Python strings are modelled as `List Char` (`Str`).  Calls into Python's
standard library (`urllib.parse`, `hashlib`) are embedded faithfully from
CPython 3.11's `urllib/parse.py`, with the following documented
simplifications, none of which is exercised by any counterexample below:
  * `str.lower` is modelled as ASCII lowercasing (CPython lowercases the
    full Unicode range);
  * `_checknetloc`'s NFKC-stability check never fires (NFKC normalisation
    is modelled as the identity), so it is modelled as always passing;
  * `_check_bracketed_host` (CPython validates bracketed hosts as IP
    addresses) is modelled as always raising, so URLs with a bracketed
    (IPv6) authority take `normalize_url`'s exception path and are
    returned unchanged;
  * MD5 (`hashlib.md5(...).hexdigest()`) is an opaque parameter `md5hex`;
  * floating-point arithmetic in the rate limiter is modelled over `ℚ`.
-/

/-- Python `str`, modelled as a list of Unicode scalar values. -/
abbrev Str := List Char

namespace PyStr

/-- ASCII lowercasing of one character (model of `str.lower` per char). -/
def lowerChar (c : Char) : Char := c.toLower

/-- Model of Python `str.lower` (ASCII range only, see file header). -/
def lower (s : Str) : Str := s.map lowerChar

/-- `c.isascii() and c.isalpha()` for a single character. -/
def isAsciiAlpha (c : Char) : Bool :=
  ('a' ≤ c && c ≤ 'z') || ('A' ≤ c && c ≤ 'Z')

/-- `c.isascii() and c.isdigit()` for a single character. -/
def isAsciiDigit (c : Char) : Bool := '0' ≤ c && c ≤ '9'

/-- Membership of a character in `urllib.parse.scheme_chars`. -/
def isSchemeChar (c : Char) : Bool :=
  isAsciiAlpha c || isAsciiDigit c || c = '+' || c = '-' || c = '.'

/-- Python `sub in s` for strings: contiguous-substring test. -/
def hasSub (sub : Str) : Str → Bool
  | [] => sub.isEmpty
  | c :: t => sub.isPrefixOf (c :: t) || hasSub sub t

/-- Python `c in s` for a single character. -/
def hasChar (c : Char) (s : Str) : Bool := s.contains c

/-- One-pass, leftmost, non-overlapping replacement with explicit fuel
(the fuel keeps the definition kernel-computable). -/
def replaceAllF (pat rep : Str) : Nat → Str → Str
  | 0, s => s
  | _ + 1, [] => []
  | fuel + 1, c :: t =>
    if pat.isPrefixOf (c :: t) then
      rep ++ replaceAllF pat rep fuel ((c :: t).drop pat.length)
    else
      c :: replaceAllF pat rep fuel t

/-- Model of Python `s.replace(pat, rep)` for a nonempty pattern
(every call site below passes a nonempty literal pattern). -/
def replaceAll (pat rep s : Str) : Str :=
  if pat.isEmpty then s else replaceAllF pat rep s.length s

/-- Model of Python `s.replace(c, '')` removing every occurrence of a
single character (used for the tab/CR/LF scrub in `urlsplit`). -/
def removeChar (c : Char) (s : Str) : Str := s.filter (fun a => a ≠ c)

/-- Characters in `urllib.parse._WHATWG_C0_CONTROL_OR_SPACE`. -/
def isC0OrSpace (c : Char) : Bool := c.val ≤ 0x20

/-- Model of `url.lstrip(_WHATWG_C0_CONTROL_OR_SPACE)`. -/
def lstripC0 (s : Str) : Str := s.dropWhile isC0OrSpace

/-- Split at the first occurrence of character `c`:
`some (before, after)` when present (model of `s.split(c, 1)` /
`s.partition(c)` success case). -/
def splitFirst (c : Char) : Str → Option (Str × Str)
  | [] => none
  | a :: t =>
    if a = c then some ([], t)
    else
      match splitFirst c t with
      | none => none
      | some (x, y) => some (a :: x, y)

/-- Model of Python `s.split(sep)` for a one-character separator:
always returns at least one piece. -/
def splitAllChar (c : Char) : Str → List Str
  | [] => [[]]
  | a :: t =>
    if a = c then [] :: splitAllChar c t
    else
      match splitAllChar c t with
      | [] => [[a]]
      | h :: r => (a :: h) :: r

/-- Position of the first occurrence of `c` (model of `s.find(c)` with
`none` for `-1`). -/
def findChar (c : Char) (s : Str) : Option Nat :=
  s.findIdx? (· = c)

/-- Split at the last occurrence of `c`: `some (before, after)` where
`after` contains no `c` (used to model `rfind`/`rpartition`). -/
def splitLast (c : Char) (s : Str) : Option (Str × Str) :=
  match splitFirst c s.reverse with
  | none => none
  | some (x, y) => some (y.reverse, x.reverse)

/-- Python lexicographic string comparison `a < b` (by code point). -/
def ltStr : Str → Str → Bool
  | [], [] => false
  | [], _ :: _ => true
  | _ :: _, [] => false
  | a :: s, b :: t =>
    if a.val < b.val then true
    else if b.val < a.val then false
    else ltStr s t

end PyStr

open PyStr

/-- Result of `urllib.parse.urlsplit` (scheme, netloc, path, query,
fragment). -/
structure SplitRes where
  scheme : Str
  netloc : Str
  path : Str
  query : Str
  fragment : Str
deriving Repr, DecidableEq

/-- Result of `urllib.parse.urlparse` (adds the params component). -/
structure ParseRes where
  scheme : Str
  netloc : Str
  path : Str
  params : Str
  query : Str
  fragment : Str
deriving Repr, DecidableEq

namespace PyUrllib

/-- `urllib.parse.uses_params` (CPython 3.11). -/
def usesParams : List Str :=
  ["".data, "ftp".data, "hdl".data, "prospero".data, "http".data,
   "imap".data, "https".data, "shttp".data, "rtsp".data, "rtsps".data,
   "rtspu".data, "sip".data, "sips".data, "mms".data, "sftp".data,
   "tel".data]

/-- `urllib.parse.uses_netloc` (CPython 3.11). -/
def usesNetloc : List Str :=
  ["".data, "ftp".data, "http".data, "gopher".data, "nntp".data,
   "telnet".data, "imap".data, "wais".data, "file".data, "mms".data,
   "https".data, "shttp".data, "snews".data, "prospero".data,
   "rtsp".data, "rtsps".data, "rtspu".data, "rsync".data, "svn".data,
   "svn+ssh".data, "sftp".data, "nfs".data, "git".data, "git+ssh".data,
   "ws".data, "wss".data]

/-- `urllib.parse.uses_relative` (CPython 3.11). -/
def usesRelative : List Str :=
  ["".data, "ftp".data, "http".data, "gopher".data, "nntp".data,
   "imap".data, "wais".data, "file".data, "https".data, "shttp".data,
   "mms".data, "prospero".data, "rtsp".data, "rtsps".data,
   "rtspu".data, "sftp".data, "svn".data, "svn+ssh".data, "ws".data,
   "wss".data]

/-- The tab/CR/LF scrub from `urlsplit`
(`for b in _UNSAFE_URL_BYTES_TO_REMOVE: url = url.replace(b, "")`). -/
def scrubUnsafe (s : Str) : Str :=
  removeChar '\x0a' (removeChar '\x0d' (removeChar '\x09' s))

/-- `scheme.strip(_WHATWG_C0_CONTROL_OR_SPACE)` (both ends). -/
def stripC0Both (s : Str) : Str :=
  ((lstripC0 s).reverse.dropWhile isC0OrSpace).reverse

/-- The delimiter scan of `urllib.parse._splitnetloc`: the netloc is
everything up to the first of `/`, `?` or `#`. -/
def notNetlocDelim (c : Char) : Bool := c ≠ '/' && c ≠ '?' && c ≠ '#'

/-- Model of CPython 3.11 `urllib.parse.urlsplit(url, scheme)`.
`Except.error` models `ValueError`.  Any `[` or `]` in the netloc is an
error: CPython raises on mismatched brackets, and its
`_check_bracketed_host` validation of matched brackets is modelled as
always raising (file header).  `_checknetloc` is modelled as always
passing. -/
def pyUrlsplit (url0 : Str) (defaultScheme : Str := []) :
    Except Unit SplitRes := do
  let url1 := scrubUnsafe (lstripC0 url0)
  let dflt := scrubUnsafe (stripC0Both defaultScheme)
  let (scheme, url2) :=
    match splitFirst ':' url1 with
    | none => (dflt, url1)
    | some (before, after) =>
      if before ≠ [] && isAsciiAlpha (before.headD ' ') &&
          before.all isSchemeChar then
        (lower before, after)
      else
        (dflt, url1)
  let (netloc, url3) ←
    if url2.take 2 = ['/', '/'] then do
      let nl := (url2.drop 2).takeWhile notNetlocDelim
      let rest := (url2.drop 2).dropWhile notNetlocDelim
      if hasChar '[' nl || hasChar ']' nl then
        Except.error ()
      else
        pure (nl, rest)
    else
      pure (([] : Str), url2)
  let (url4, fragment) :=
    match splitFirst '#' url3 with
    | none => (url3, ([] : Str))
    | some (a, b) => (a, b)
  let (url5, query) :=
    match splitFirst '?' url4 with
    | none => (url4, ([] : Str))
    | some (a, b) => (a, b)
  pure ⟨scheme, netloc, url5, query, fragment⟩

/-- Model of `urllib.parse._splitparams`; only ever called when `;` is
in the path, which makes the fallbacks unreachable. -/
def splitparams (url : Str) : Str × Str :=
  if hasChar '/' url then
    match splitLast '/' url with
    | none => (url, [])
    | some (before, after) =>
      match splitFirst ';' after with
      | none => (url, [])
      | some (a, b) => (before ++ '/' :: a, b)
  else
    match splitFirst ';' url with
    | none => (url, [])
    | some (a, b) => (a, b)

/-- Model of CPython 3.11 `urllib.parse.urlparse(url, scheme)`. -/
def pyUrlparse (url : Str) (defaultScheme : Str := []) :
    Except Unit ParseRes := do
  let s ← pyUrlsplit url defaultScheme
  let (path, params) :=
    if usesParams.contains s.scheme && hasChar ';' s.path then
      splitparams s.path
    else
      (s.path, [])
  pure ⟨s.scheme, s.netloc, path, params, s.query, s.fragment⟩

/-- Decimal value of an all-digit string. -/
def digitsToNat (s : Str) : Nat :=
  s.foldl (fun acc c => 10 * acc + (c.val.toNat - '0'.toNat)) 0

/-- Model of the `SplitResult.port` property (CPython 3.11):
`hostinfo` is the part of the netloc after the last `@`; the port is
the part after the first `:` (brackets cannot occur here because
`pyUrlsplit` rejects them); it must be nonempty ASCII digits and at
most 65535, else `ValueError`. -/
def pyPort (netloc : Str) : Except Unit (Option Nat) :=
  let hostinfo :=
    match splitLast '@' netloc with
    | none => netloc
    | some (_, after) => after
  match splitFirst ':' hostinfo with
  | none => Except.ok none
  | some (_, portStr) =>
    if portStr = [] then Except.ok none
    else if portStr.all isAsciiDigit then
      let v := digitsToNat portStr
      if v ≤ 65535 then Except.ok (some v) else Except.error ()
    else Except.error ()

end PyUrllib

namespace PyUrllib

/-- UTF-8 encoding of one Unicode scalar value (model of `str.encode`;
Lean `Char` cannot hold lone surrogates, which is the only case where
CPython's strict encoder raises). -/
def utf8EncodeChar (c : Char) : List Nat :=
  let v := c.val.toNat
  if v < 0x80 then [v]
  else if v < 0x800 then [0xC0 + v / 64, 0x80 + v % 64]
  else if v < 0x10000 then
    [0xE0 + v / 4096, 0x80 + v / 64 % 64, 0x80 + v % 64]
  else
    [0xF0 + v / 262144, 0x80 + v / 4096 % 64, 0x80 + v / 64 % 64,
     0x80 + v % 64]

/-- UTF-8 encoding of a string as a byte (as `Nat`) sequence. -/
def utf8Encode (s : Str) : List Nat := s.flatMap utf8EncodeChar

/-- Lower bound for the second byte of a UTF-8 sequence starting with
`b` (0xA0 after 0xE0, 0x90 after 0xF0, else 0x80). -/
def cont2lo (b : Nat) : Nat :=
  if b = 0xE0 then 0xA0 else if b = 0xF0 then 0x90 else 0x80

/-- Upper bound for the second byte of a UTF-8 sequence starting with
`b` (0x9F after 0xED, 0x8F after 0xF4, else 0xBF). -/
def cont2hi (b : Nat) : Nat :=
  if b = 0xED then 0x9F else if b = 0xF4 then 0x8F else 0xBF

/-- Is `b` a UTF-8 continuation byte? -/
def isContByte (b : Nat) : Bool := 0x80 ≤ b && b ≤ 0xBF

/-- The U+FFFD replacement character. -/
def replacementChar : Char := '�'

/-- UTF-8 decoding with `errors='replace'` (model of `bytes.decode`):
maximal-subpart policy, one U+FFFD per maximal invalid prefix, as in
CPython.  Fuel-based to stay kernel-computable; one byte at least is
consumed per step, so `bytes.length` fuel suffices. -/
def utf8DecodeReplaceF : Nat → List Nat → Str
  | 0, _ => []
  | _ + 1, [] => []
  | fuel + 1, b :: t =>
    if b ≤ 0x7F then Char.ofNat b :: utf8DecodeReplaceF fuel t
    else if 0xC2 ≤ b && b ≤ 0xDF then
      match t with
      | [] => [replacementChar]
      | b2 :: t2 =>
        if isContByte b2 then
          Char.ofNat ((b - 0xC0) * 64 + (b2 - 0x80)) ::
            utf8DecodeReplaceF fuel t2
        else replacementChar :: utf8DecodeReplaceF fuel t
    else if 0xE0 ≤ b && b ≤ 0xEF then
      match t with
      | [] => [replacementChar]
      | b2 :: t2 =>
        if cont2lo b ≤ b2 && b2 ≤ cont2hi b then
          match t2 with
          | [] => [replacementChar]
          | b3 :: t3 =>
            if isContByte b3 then
              Char.ofNat ((b - 0xE0) * 4096 + (b2 - 0x80) * 64 +
                (b3 - 0x80)) :: utf8DecodeReplaceF fuel t3
            else replacementChar :: utf8DecodeReplaceF fuel t2
        else replacementChar :: utf8DecodeReplaceF fuel t
    else if 0xF0 ≤ b && b ≤ 0xF4 then
      match t with
      | [] => [replacementChar]
      | b2 :: t2 =>
        if cont2lo b ≤ b2 && b2 ≤ cont2hi b then
          match t2 with
          | [] => [replacementChar]
          | b3 :: t3 =>
            if isContByte b3 then
              match t3 with
              | [] => [replacementChar]
              | b4 :: t4 =>
                if isContByte b4 then
                  Char.ofNat ((b - 0xF0) * 262144 + (b2 - 0x80) * 4096 +
                    (b3 - 0x80) * 64 + (b4 - 0x80)) ::
                    utf8DecodeReplaceF fuel t4
                else replacementChar :: utf8DecodeReplaceF fuel t3
            else replacementChar :: utf8DecodeReplaceF fuel t2
        else replacementChar :: utf8DecodeReplaceF fuel t
    else replacementChar :: utf8DecodeReplaceF fuel t

/-- UTF-8 decoding with replacement (wrapper fixing the fuel). -/
def utf8DecodeReplace (bs : List Nat) : Str :=
  utf8DecodeReplaceF bs.length bs

/-- Hex digit value (as in `_hexdig`: both cases accepted). -/
def hexVal (c : Char) : Option Nat :=
  if '0' ≤ c && c ≤ '9' then some (c.val.toNat - '0'.val.toNat)
  else if 'a' ≤ c && c ≤ 'f' then some (c.val.toNat - 'a'.val.toNat + 10)
  else if 'A' ≤ c && c ≤ 'F' then some (c.val.toNat - 'A'.val.toNat + 10)
  else none

/-- Model of `urllib.parse.unquote_to_bytes` on an all-ASCII chunk:
split on `%`; a piece whose first two characters are hex digits
contributes that byte plus its remainder, any other piece keeps a
literal `%`. -/
def unquoteBytesRun (run : Str) : List Nat :=
  match splitAllChar '%' run with
  | [] => []
  | p0 :: rest =>
    p0.map (fun c => c.val.toNat) ++
      rest.flatMap (fun p =>
        match p with
        | c1 :: c2 :: pr =>
          match hexVal c1, hexVal c2 with
          | some h1, some h2 =>
            (h1 * 16 + h2) :: pr.map (fun c => c.val.toNat)
          | _, _ => 0x25 :: p.map (fun c => c.val.toNat)
        | _ => 0x25 :: p.map (fun c => c.val.toNat))

/-- Is `c` an ASCII character (range of `_asciire`)? -/
def isAsciiChar (c : Char) : Bool := c.val ≤ 0x7F

/-- Model of `urllib.parse.unquote(string)` with UTF-8/replace:
the string is split into maximal ASCII runs (the `_asciire` split);
each ASCII run is percent-decoded to bytes and UTF-8-decoded with
replacement; non-ASCII spans pass through unchanged. -/
def pyUnquote (s : Str) : Str :=
  if ¬ hasChar '%' s then s
  else
    (s.splitBy (fun a b => isAsciiChar a = isAsciiChar b)).flatMap
      (fun chunk =>
        if chunk.all isAsciiChar then
          utf8DecodeReplace (unquoteBytesRun chunk)
        else chunk)

/-- Membership in `_ALWAYS_SAFE` (letters, digits, `_.-~`). -/
def isAlwaysSafeByte (b : Nat) : Bool :=
  (0x41 ≤ b && b ≤ 0x5A) || (0x61 ≤ b && b ≤ 0x7A) ||
  (0x30 ≤ b && b ≤ 0x39) || b = 0x5F || b = 0x2E || b = 0x2D ||
  b = 0x7E

/-- Uppercase hex digit character for a value below 16. -/
def hexDigitUpper (n : Nat) : Char :=
  if n < 10 then Char.ofNat ('0'.val.toNat + n)
  else Char.ofNat ('A'.val.toNat + n - 10)

/-- Model of `urllib.parse.quote(string, safe)`: UTF-8 encode, keep
always-safe bytes and bytes in `safe`, percent-encode the rest with
uppercase hex. -/
def pyQuote (safeSpace : Bool) (s : Str) : Str :=
  (utf8Encode s).flatMap (fun b =>
    if isAlwaysSafeByte b || (safeSpace && b = 0x20) then
      [Char.ofNat b]
    else
      ['%', hexDigitUpper (b / 16), hexDigitUpper (b % 16)])

/-- Model of `urllib.parse.quote_plus(string)` with `safe=''`:
if the string has no space it is `quote(string, '')`; otherwise spaces
are kept safe during quoting and then replaced by `+`. -/
def quote_plus (s : Str) : Str :=
  if ¬ hasChar ' ' s then pyQuote false s
  else (pyQuote true s).map (fun c => if c = ' ' then '+' else c)

/-- Model of `urllib.parse.parse_qsl(qs)` with default arguments:
split on `&`, drop empty fields, drop fields without `=` or with an
empty value, `+` to space then percent-decode names and values. -/
def parse_qsl (qs : Str) : List (Str × Str) :=
  if qs = [] then []
  else
    (splitAllChar '&' qs).foldr (fun nameValue acc =>
      if nameValue = [] then acc
      else
        match splitFirst '=' nameValue with
        | none => acc
        | some (n, v) =>
          if v = [] then acc
          else
            (pyUnquote (n.map (fun c => if c = '+' then ' ' else c)),
             pyUnquote (v.map (fun c => if c = '+' then ' ' else c))) ::
              acc) []

/-- Append a value under a key in an insertion-ordered multi-dict
(model of the dict building in `parse_qs`). -/
def qsInsert (k : Str) (v : Str) :
    List (Str × List Str) → List (Str × List Str)
  | [] => [(k, [v])]
  | (k0, vs) :: rest =>
    if k0 = k then (k0, vs ++ [v]) :: rest
    else (k0, vs) :: qsInsert k v rest

/-- Model of `urllib.parse.parse_qs(qs)`: an insertion-ordered
association list from keys to value lists. -/
def parse_qs (qs : Str) : List (Str × List Str) :=
  (parse_qsl qs).foldl (fun d kv => qsInsert kv.1 kv.2 d) []

/-- The comparison used by `sorted(filtered_params.items())`: Python
tuple comparison starts with the keys, and keys of a dict are distinct,
so the list values are never compared. -/
def itemLt (a b : Str × List Str) : Prop := ltStr a.1 b.1 = true

instance : DecidableRel itemLt := fun a b => by
  unfold itemLt; infer_instance

/-- Model of `urlencode(items, doseq=True)` on string-keyed,
list-of-strings-valued items: one `k=v` piece per value, joined by
`&`, each side quoted by `quote_plus`. -/
def urlencode (items : List (Str × List Str)) : Str :=
  List.intercalate ['&']
    (items.flatMap (fun kv =>
      kv.2.map (fun v => quote_plus kv.1 ++ '=' :: quote_plus v)))

/-- `while pat in s: s = s.replace(pat, rep)`, fuel-based.  Each
iteration with the patterns used here strictly shrinks the string, so
`s.length` fuel reaches the loop's fixed point. -/
def whileReplaceF (pat rep : Str) : Nat → Str → Str
  | 0, s => s
  | fuel + 1, s =>
    if hasSub pat s then whileReplaceF pat rep fuel (replaceAll pat rep s)
    else s

/-- The two dot-collapsing `while` loops of `normalize_url`:
first every `/./`, then every `/../`, each replaced by `/` until no
occurrence remains. -/
def collapseDots (p : Str) : Str :=
  let p1 := whileReplaceF "/./".data "/".data p.length p
  whileReplaceF "/../".data "/".data p1.length p1

/-- The path portion of `normalize_url`: dot collapsing, then removal
of one trailing slash unless the path is exactly `/`. -/
def processPath (p : Str) : Str :=
  let p2 := collapseDots p
  if p2 ≠ "/".data ∧ p2.getLast? = some '/' then p2.dropLast else p2

/-- Model of `urllib.parse.urlunsplit` (CPython 3.11). -/
def urlunsplit (scheme netloc url query fragment : Str) : Str :=
  let url1 :=
    if netloc ≠ [] ∨
        (scheme ≠ [] ∧ usesNetloc.contains scheme ∧
          url.take 2 ≠ "//".data) then
      let u := if url ≠ [] ∧ url.take 1 ≠ "/".data then '/' :: url
               else url
      '/' :: '/' :: (netloc ++ u)
    else url
  let url2 := if scheme ≠ [] then scheme ++ ':' :: url1 else url1
  let url3 := if query ≠ [] then url2 ++ '?' :: query else url2
  if fragment ≠ [] then url3 ++ '#' :: fragment else url3

/-- Model of `urllib.parse.urlunparse`. -/
def urlunparse (scheme netloc url params query fragment : Str) : Str :=
  urlunsplit scheme netloc
    (if params ≠ [] then url ++ ';' :: params else url) query fragment

end PyUrllib

open PyUrllib

/-- Default `IMPORTANT_URL_PARAMS` from src/config/settings.py. -/
def IMPORTANT_URL_PARAMS : List Str :=
  ["id".data, "page".data, "category".data]

/-- The body of `URLManager.normalize_url`'s `try` block, with
`Except.error` modelling an escaping exception (which the method's
`except` clause turns into returning the input unchanged). -/
def normalizeE (important : List Str) (url : Str) : Except Unit Str := do
  let parsed ← pyUrlparse url
  let scheme := lower parsed.scheme
  let netloc0 := lower parsed.netloc
  let netloc ←
    if scheme = "http".data then do
      let p ← pyPort parsed.netloc
      if p = some 80 then pure (replaceAll ":80".data [] netloc0)
      else pure netloc0
    else if scheme = "https".data then do
      let p ← pyPort parsed.netloc
      if p = some 443 then pure (replaceAll ":443".data [] netloc0)
      else pure netloc0
    else pure netloc0
  let path := processPath parsed.path
  let filtered := (parse_qs parsed.query).filter
    (fun kv => important.contains kv.1)
  let sortedQuery := urlencode (List.insertionSort itemLt filtered)
  pure (urlunparse scheme netloc path parsed.params sortedQuery [])

/-- Model of `URLManager.normalize_url` (src/crawler/url_manager.py,
lines 32-75): normalisation over `Str`, returning the input unchanged
when the `try` block raises. -/
def normalize_urlL (important : List Str) (url : Str) : Str :=
  match normalizeE important url with
  | Except.ok v => v
  | Except.error _ => url

/-- `normalize_url` on Lean `String`s with the default configured
allow-list of query parameters. -/
def normalize_url (url : String) : String :=
  ⟨normalize_urlL IMPORTANT_URL_PARAMS url.data⟩

/-- State of `URLManager` (src/crawler/url_manager.py).  `base_domain`
is `urlparse(base_url).netloc` computed by `__init__` (a constructor
whose parse raises never yields an instance, so the error case is
mapped to the empty netloc).  The excluded extension set is the literal
from line 30. -/
structure URLManager where
  base_url : Str
  base_domain : Str
  important_params : List Str
  visited_urls : Finset Str
  visited_hashes : Finset Str
deriving DecidableEq

/-- `URLManager.__init__` with the default important-params set. -/
def URLManager.init (base_url : Str) : URLManager :=
  { base_url := base_url
    base_domain :=
      match pyUrlparse base_url with
      | Except.ok p => p.netloc
      | Except.error _ => []
    important_params := IMPORTANT_URL_PARAMS
    visited_urls := ∅
    visited_hashes := ∅ }

/-- `self.excluded_extensions` (src/crawler/url_manager.py line 30). -/
def excludedExtensions : List Str :=
  [".jpg".data, ".jpeg".data, ".png".data, ".gif".data, ".css".data,
   ".js".data, ".ico".data, ".svg".data, ".woff".data, ".woff2".data,
   ".ttf".data, ".eot".data]

namespace URLManager

/-- `URLManager.normalize_url` with this instance's allow-list. -/
def normalize_url (m : URLManager) (url : Str) : Str :=
  normalize_urlL m.important_params url

/-- `URLManager.get_url_hash`: the MD5 hex digest of the normalised
URL.  `md5hex` is the opaque model of `hashlib.md5(...).hexdigest()`
(see the file header). -/
def get_url_hash (md5hex : Str → Str) (m : URLManager) (url : Str) :
    Str :=
  md5hex (m.normalize_url url)

/-- `URLManager.is_valid_url`: the URL parses with nonempty netloc and
scheme; a parse exception yields `False`. -/
def is_valid_url (url : Str) : Bool :=
  match pyUrlparse url with
  | Except.ok p => p.netloc ≠ [] && p.scheme ≠ []
  | Except.error _ => false

/-- `URLManager.is_internal_url`: the URL's netloc equals the base
domain; a parse exception yields `False`. -/
def is_internal_url (m : URLManager) (url : Str) : Bool :=
  match pyUrlparse url with
  | Except.ok p => p.netloc = m.base_domain
  | Except.error _ => false

/-- `URLManager.get_url_extension`: the final path segment and its
trailing `.ext` found by the regex `\.([^./]+)$` (no match when
nothing follows the last dot).  `should_crawl` only calls this after
`is_valid_url` has succeeded, so the parse-error fallback is
unreachable there. -/
def get_url_extension (url : Str) : Str × Str :=
  let path :=
    match pyUrlparse url with
    | Except.ok p => p.path
    | Except.error _ => []
  let filename := (splitAllChar '/' path).getLastD []
  match splitLast '.' filename with
  | none => (filename, [])
  | some (_, after) =>
    if after ≠ [] ∧ after.all (fun c => c ≠ '.' ∧ c ≠ '/') then
      (filename, '.' :: after)
    else (filename, [])

/-- The pseudo-scheme tuple of `should_crawl` (line 133). -/
def pseudoSchemes : List Str :=
  ["mailto:".data, "tel:".data, "sms:".data, "whatsapp:".data,
   "intent:".data, "javascript:".data]

/-- `URLManager.should_crawl` (src/crawler/url_manager.py,
lines 122-158). -/
def should_crawl (md5hex : Str → Str) (m : URLManager) (url : Str) :
    Bool :=
  if pseudoSchemes.any (fun p => p.isPrefixOf url) then false
  else if ¬ is_valid_url url then false
  else if ¬ m.is_internal_url url then false
  else
    let normalized := m.normalize_url url
    if normalized ∈ m.visited_urls then false
    else
      let urlHash := get_url_hash md5hex m url
      if urlHash ∈ m.visited_hashes then false
      else
        let ext := (get_url_extension url).2
        if ext ≠ [] ∧ excludedExtensions.contains (lower ext) then false
        else true

/-- `URLManager.mark_as_visited` (lines 160-171): insert the
normalised form into `visited_urls` and its digest into
`visited_hashes`. -/
def mark_as_visited (md5hex : Str → Str) (m : URLManager) (url : Str) :
    URLManager :=
  { m with
    visited_urls := insert (m.normalize_url url) m.visited_urls
    visited_hashes := insert (get_url_hash md5hex m url)
      m.visited_hashes }

/-- `URLManager.filter_urls`: keep the URLs `should_crawl` accepts. -/
def filter_urls (md5hex : Str → Str) (m : URLManager)
    (urls : List Str) : List Str :=
  urls.filter (should_crawl md5hex m)

/-- A sequence of `mark_as_visited` calls (the only mutating
operation of `URLManager`), applied left to right. -/
def applyMarks (md5hex : Str → Str) (m : URLManager) :
    List Str → URLManager
  | [] => m
  | u :: rest => applyMarks md5hex (mark_as_visited md5hex m u) rest

end URLManager

/-- State of `ProxyManager` (src/utils/proxy_manager.py).
`working_proxies` is the insertion-ordered dict from proxy URL to
success count. -/
structure ProxyManager where
  proxies : List Str
  rotation_limit : Nat
  current_index : Nat
  rotation_count : Nat
  failed_proxies : Finset Str
  working_proxies : List (Str × Nat)
deriving DecidableEq

/-- `ProxyManager.__init__(proxies, rotation_limit)` (defaults:
`PROXY_ROTATION_LIMIT = 50` from src/config/settings.py). -/
def ProxyManager.init (proxies : List Str)
    (rotation_limit : Nat := 50) : ProxyManager :=
  ⟨proxies, rotation_limit, 0, 0, ∅, []⟩

namespace ProxyManager

/-- `ProxyManager.format_proxy_url`: `ip:port` or
`ip:port:username:password` to a URL, `none` for any other shape. -/
def format_proxy_url (proxyString : Str) : Option Str :=
  match splitAllChar ':' proxyString with
  | [ip, port] => some ("http://".data ++ ip ++ ':' :: port)
  | [ip, port, username, password] =>
    some ("http://".data ++ username ++ ':' :: password ++ '@' :: ip ++
      ':' :: port)
  | _ => none

/-- `ProxyManager.check_proxy`, with the network probe supplied as an
environment function: on success the proxy's success count is
bumped. -/
def check_proxy (probe : Str → Bool) (pm : ProxyManager)
    (proxyUrl : Str) : Bool × ProxyManager :=
  if probe proxyUrl then
    let bumped :=
      if (pm.working_proxies.lookup proxyUrl).isSome then
        pm.working_proxies.map (fun kv =>
          if kv.1 = proxyUrl then (kv.1, kv.2 + 1) else kv)
      else pm.working_proxies ++ [(proxyUrl, 1)]
    (true, { pm with working_proxies := bumped })
  else (false, pm)

/-- The best-performing working proxy:
`sorted(working_proxies.items(), key=count, reverse=True)[0][0]` —
a stable descending sort, so the first-inserted proxy among those with
the maximal success count. -/
def bestWorking (working : List (Str × Nat)) : Str :=
  (working.foldl (fun best kv => if kv.2 > best.2 then kv else best)
    (working.headD ([], 0))).1

/-- The `while attempts < max_attempts` loop of `get_next_proxy`
(lines 109-137), with the attempt budget as fuel. -/
def gnpLoop (probe : Option (Str → Bool)) :
    Nat → ProxyManager → Option Str × ProxyManager
  | 0, pm => (none, pm)
  | attempts + 1, pm =>
    let ps := pm.proxies.getD pm.current_index []
    let pm := { pm with
      current_index := (pm.current_index + 1) % pm.proxies.length }
    if ps ∈ pm.failed_proxies then gnpLoop probe attempts pm
    else
      match format_proxy_url ps with
      | none =>
        gnpLoop probe attempts
          { pm with failed_proxies := insert ps pm.failed_proxies }
      | some proxyUrl =>
        match probe with
        | some probeF =>
          if (pm.working_proxies.lookup proxyUrl).isNone then
            match check_proxy probeF pm proxyUrl with
            | (true, pm2) => (some proxyUrl, pm2)
            | (false, pm2) =>
              gnpLoop probe attempts
                { pm2 with failed_proxies := insert ps pm2.failed_proxies }
          else (some proxyUrl, pm)
        | none => (some proxyUrl, pm)

/-- `ProxyManager.get_next_proxy(session)` (lines 82-137).  `probe` is
`some f` when an aiohttp session is passed (with `f` the outcome of
`check_proxy`'s request, which only the environment knows);
`randLt08` models `random.random() < 0.8`. -/
def get_next_proxy (pm : ProxyManager) (probe : Option (Str → Bool))
    (randLt08 : Bool) : Option Str × ProxyManager :=
  if pm.proxies = [] ∨ pm.proxies.length ≤ pm.failed_proxies.card then
    (none, pm)
  else
    let pm := { pm with rotation_count := pm.rotation_count + 1 }
    let pm :=
      if pm.rotation_limit ≤ pm.rotation_count then
        { pm with
          rotation_count := 0
          current_index := (pm.current_index + 1) % pm.proxies.length }
      else pm
    if pm.working_proxies ≠ [] ∧ randLt08 then
      (some (bestWorking pm.working_proxies), pm)
    else
      gnpLoop probe pm.proxies.length pm

/-- `ProxyManager.mark_proxy_failed` (lines 139-151): scan the pool in
order for the first entry whose first colon-field is a suffix of the
given proxy URL; add that entry to the failed set and delete the URL
from the success-count table. -/
def mark_proxy_failed (pm : ProxyManager) (proxyUrl : Str) :
    ProxyManager :=
  match pm.proxies.find?
      (fun ps => ((splitAllChar ':' ps).headD []).isSuffixOf proxyUrl)
    with
  | none => pm
  | some ps =>
    { pm with
      failed_proxies := insert ps pm.failed_proxies
      working_proxies := pm.working_proxies.filter
        (fun kv => kv.1 ≠ proxyUrl) }

/-- `ProxyManager.get_proxy_stats` (lines 153-164). -/
def get_proxy_stats (pm : ProxyManager) : Nat × Nat × Nat :=
  (pm.proxies.length, pm.failed_proxies.card,
   pm.working_proxies.length)

end ProxyManager

/-- State of `RateLimiter`
(src/webcrawler/crawler/rate_limiter.py).  Float arithmetic is
modelled over `ℚ`; the semaphore table and wall-clock fields are not
part of the modelled state (see `wait_min_interval`). -/
structure RateLimiter where
  rate_limit : ℚ
  domain_specific_limits : List (Str × ℚ)
deriving DecidableEq

/-- `RateLimiter.__init__()` with the default `rate_limit=0.5` and no
domain-specific limits (how `WebCrawler.__init__` instantiates it). -/
def RateLimiter.init : RateLimiter := ⟨1 / 2, []⟩

namespace RateLimiter

/-- `self.domain_specific_limits.get(domain, self.rate_limit)`. -/
def getLimit (rl : RateLimiter) (domain : Str) : ℚ :=
  (rl.domain_specific_limits.lookup domain).getD rl.rate_limit

/-- Insertion-ordered dict assignment
`self.domain_specific_limits[domain] = new_limit`. -/
def update_domain_limit (rl : RateLimiter) (domain : Str) (v : ℚ) :
    RateLimiter :=
  { rl with domain_specific_limits :=
      if (rl.domain_specific_limits.lookup domain).isSome then
        rl.domain_specific_limits.map (fun kv =>
          if kv.1 = domain then (kv.1, v) else kv)
      else rl.domain_specific_limits ++ [(domain, v)] }

/-- The body of `RateLimiter.adaptive_wait` (lines 75-99) after the
domain has been extracted from the URL. -/
def adaptive_wait_domain (rl : RateLimiter) (domain : Str)
    (responseTime : ℚ) (statusCode : Nat) : RateLimiter :=
  let current := rl.getLimit domain
  if statusCode = 429 ∨ responseTime > 5 then
    rl.update_domain_limit domain (current * (1 / 2))
  else if statusCode = 200 ∧ responseTime < 1 then
    let newLimit := min (current * (11 / 10)) 1
    if newLimit > current then rl.update_domain_limit domain newLimit
    else rl
  else rl

/-- `RateLimiter.adaptive_wait(url, ...)`: extract
`urlparse(url).netloc` (an escaping parse error propagates) and apply
the adaptive update. -/
def adaptive_wait (rl : RateLimiter) (url : Str) (responseTime : ℚ)
    (statusCode : Nat) : Except Unit RateLimiter := do
  let p ← pyUrlparse url
  pure (rl.adaptive_wait_domain p.netloc responseTime statusCode)

/-- The pacing interval computed by `RateLimiter.wait` (lines 43-46):
`1.0 / domain_rate if domain_rate > 0 else 0`. -/
def wait_min_interval (rl : RateLimiter) (domain : Str) : ℚ :=
  let r := rl.getLimit domain
  if r > 0 then 1 / r else 0

/-- A sequence of domain-level adaptive reports applied in order. -/
def applyReports (rl : RateLimiter) :
    List (Str × ℚ × Nat) → RateLimiter
  | [] => rl
  | (d, rt, sc) :: rest =>
    applyReports (rl.adaptive_wait_domain d rt sc) rest

end RateLimiter

namespace PyUrllib

/-- Model of `urllib.parse.urljoin(base, url)` (CPython 3.11),
propagating `ValueError` from the two parses. -/
def urljoinE (base url : Str) : Except Unit Str :=
  if base = [] then Except.ok url
  else if url = [] then Except.ok base
  else do
    let b ← pyUrlparse base []
    let r ← pyUrlparse url b.scheme
    if r.scheme ≠ b.scheme ∨ ¬ usesRelative.contains r.scheme then
      pure url
    else do
      if usesNetloc.contains r.scheme ∧ r.netloc ≠ [] then
        pure (urlunparse r.scheme r.netloc r.path r.params r.query
          r.fragment)
      else
        let netloc :=
          if usesNetloc.contains r.scheme then b.netloc else r.netloc
        if r.path = [] ∧ r.params = [] then
          let query := if r.query = [] then b.query else r.query
          pure (urlunparse r.scheme netloc b.path b.params query
            r.fragment)
        else
          let baseParts0 := splitAllChar '/' b.path
          let baseParts :=
            if baseParts0.getLastD [] ≠ [] then baseParts0.dropLast
            else baseParts0
          let segments :=
            if r.path.take 1 = "/".data then splitAllChar '/' r.path
            else
              match baseParts ++ splitAllChar '/' r.path with
              | [] => []
              | h :: t =>
                match t with
                | [] => [h]
                | _ :: _ =>
                  h :: (t.dropLast.filter (fun s => s ≠ []) ++
                    [t.getLastD []])
          let resolved := segments.foldl (fun acc seg =>
            if seg = "..".data then acc.dropLast
            else if seg = ".".data then acc
            else acc ++ [seg]) []
          let resolved :=
            if segments.getLastD [] = ".".data ∨
                segments.getLastD [] = "..".data then
              resolved ++ [[]]
            else resolved
          let joined := List.intercalate "/".data resolved
          let path := if joined = [] then "/".data else joined
          pure (urlunparse r.scheme netloc path r.params r.query
            r.fragment)

end PyUrllib

/-- One outbound link as produced by the external extraction
capability (`content['links']` entries): `is_internal` is `some b`
when the dict has the key, `none` when `link.get('is_internal', ...)`
must fall back to `is_internal_url`. -/
structure LinkData where
  url : Str
  is_internal : Option Bool
deriving DecidableEq

/-- The `content` dict attached to a fetch outcome; only its `links`
list is consumed by the orchestrator (the extractors that populate the
other fields are external capabilities, out of the modelled core).
Error outcomes carry no `links` key, so `.get('links', [])` yields
`[]` — modelled by constructing `⟨[]⟩`. -/
structure ContentData where
  links : List LinkData
deriving DecidableEq

/-- A fetch outcome dict as built by `WebCrawler.fetch_url`. -/
structure PageData where
  url : Str
  status_code : Nat
  content_type : Str
  depth : Nat
  response_time : ℚ
  content : ContentData
deriving DecidableEq

/-- The environment's answer to one `session.get` attempt: an HTTP
response (status, `Content-Type` header, `Location` header, extracted
content, elapsed time) or a transport/timeout exception. -/
inductive Resp where
  | response (status : Nat) (contentType : Str) (location : Option Str)
      (extracted : ContentData) (elapsed : ℚ)
  | exc (elapsed : ℚ)
deriving DecidableEq

/-- Result of `WebCrawler.fetch_url`: the returned outcome (or
`None`), the `(url, depth)` pairs put on the frontier queue by the
redirect branch, and the proxy-manager state after the call. -/
structure FetchOut where
  result : Option PageData
  enqueued : List (Str × Nat)
  pm : ProxyManager
deriving DecidableEq

/-- The redirect status set of `fetch_url` (line 351). -/
def redirectCodes : List Nat := [301, 302, 303, 307, 308]

namespace WebCrawler

open URLManager ProxyManager

/-- The proxy-failover step shared by the 403/429 and exception
branches of `fetch_url`: mark the current proxy failed and rotate,
consuming one random draw.  `use_proxies` stands for
`self.proxy_manager` being present. -/
def proxyFailover (use_proxies : Bool) (probe : Option (Str → Bool))
    (proxy : Option Str) (pm : ProxyManager) (rands : List Bool) :
    Option Str × ProxyManager × List Bool :=
  match proxy, use_proxies with
  | some p, true =>
    let pm1 := pm.mark_proxy_failed p
    let (np, pm2) := pm1.get_next_proxy probe (rands.headD true)
    (np, pm2, rands.tail)
  | _, _ => (proxy, pm, rands)

/-- The `for attempt in range(retries)` loop of `WebCrawler.fetch_url`
(lines 318-429).  `attemptsLeft` counts the remaining attempts (so
`attemptsLeft = 0` after consuming a response means the attempt just
consumed was the final one, `attempt == retries - 1`); exhausting the
loop returns `None` (line 429).  An exhausted response environment also
yields `None` (the environment must supply one response per issued
attempt). -/
def fetchGo (um : URLManager) (md5hex : Str → Str) (use_proxies : Bool)
    (probe : Option (Str → Bool)) (url : Str) (depth : Nat) :
    List Resp → Nat → Option Str → ProxyManager → List Bool →
    List (Str × Nat) → FetchOut
  | _, 0, _, pm, _, enq => ⟨none, enq, pm⟩
  | [], _ + 1, _, pm, _, enq => ⟨none, enq, pm⟩
  | r :: rest, n + 1, proxy, pm, rands, enq =>
    match r with
    | Resp.exc elapsed =>
      let (proxy2, pm2, rands2) :=
        proxyFailover use_proxies probe proxy pm rands
      if n ≠ 0 then
        fetchGo um md5hex use_proxies probe url depth rest n proxy2 pm2
          rands2 enq
      else
        ⟨some ⟨url, 0, "error".data, depth, elapsed, ⟨[]⟩⟩, enq, pm2⟩
    | Resp.response st ct loc extracted elapsed =>
      if st = 200 then
        ⟨some ⟨url, st, lower ct, depth, elapsed, extracted⟩, enq, pm⟩
      else if redirectCodes.contains st then
        match loc with
        | none => ⟨none, enq, pm⟩
        | some l =>
          match urljoinE url l with
          | Except.ok newUrl =>
            if um.is_internal_url newUrl ∧
                should_crawl md5hex um newUrl then
              ⟨none, enq ++ [(newUrl, depth)], pm⟩
            else ⟨none, enq, pm⟩
          | Except.error _ =>
            let (proxy2, pm2, rands2) :=
              proxyFailover use_proxies probe proxy pm rands
            if n ≠ 0 then
              fetchGo um md5hex use_proxies probe url depth rest n
                proxy2 pm2 rands2 enq
            else
              ⟨some ⟨url, 0, "error".data, depth, elapsed, ⟨[]⟩⟩, enq,
                pm2⟩
      else if st = 403 ∨ st = 429 then
        let (proxy2, pm2, rands2) :=
          proxyFailover use_proxies probe proxy pm rands
        fetchGo um md5hex use_proxies probe url depth rest n proxy2 pm2
          rands2 enq
      else if 500 ≤ st then
        fetchGo um md5hex use_proxies probe url depth rest n proxy pm
          rands enq
      else
        ⟨some ⟨url, st, "error".data, depth, elapsed,
          ⟨[]⟩⟩, enq, pm⟩

/-- Model of `WebCrawler.fetch_url` (lines 298-429): pick an initial
proxy when proxies are enabled, then run the attempt loop.
`MAX_RETRIES` defaults to 3 (src/config/settings.py). -/
def fetch_url (um : URLManager) (md5hex : Str → Str)
    (use_proxies : Bool) (probe : Option (Str → Bool))
    (rands : List Bool) (pm : ProxyManager) (resps : List Resp)
    (url : Str) (depth : Nat) (retries : Nat := 3) : FetchOut :=
  let (proxy, pm1, rands1) :=
    if use_proxies then
      let (p, pm') := pm.get_next_proxy probe (rands.headD true)
      (p, pm', rands.tail)
    else (none, pm, rands)
  fetchGo um md5hex use_proxies probe url depth resps retries proxy pm1
    rands1 []

/-- In-memory crawl statistics (`self.stats` of `WebCrawler`). -/
structure Stats where
  total_urls : Nat
  successful : Nat
  failed : Nat
  http_errors : List (Nat × Nat)
  content_types : List (Str × Nat)
  avg_response_time : ℚ
  total_response_time : ℚ
deriving DecidableEq

/-- The zeroed statistics dict of `WebCrawler.__init__`. -/
def Stats.init : Stats := ⟨0, 0, 0, [], [], 0, 0⟩

/-- `d[k] = d.get(k, 0) + 1` on an insertion-ordered counter dict. -/
def bumpCount {α : Type} [DecidableEq α] (k : α) :
    List (α × Nat) → List (α × Nat)
  | [] => [(k, 1)]
  | (k0, n) :: rest =>
    if k0 = k then (k0, n + 1) :: rest else (k0, n) :: bumpCount k rest

/-- The orchestrator state touched by `process_url`. -/
structure CrawlerState where
  um : URLManager
  rl : RateLimiter
  pm : ProxyManager
  use_proxies : Bool
  crawled_count : Nat
  stats : Stats
deriving DecidableEq

/-- The environment of one `process_url` call: the per-attempt HTTP
answers, the probe capability and random draws for proxy selection,
the retry budget, and the page id the external persistence capability
returns from `save_page`. -/
structure ProcessEnv where
  resps : List Resp
  probe : Option (Str → Bool)
  rands : List Bool
  retries : Nat
  page_id : Option Nat

/-- Model of `WebCrawler.process_url` (lines 228-296): mark visited,
fetch, update statistics (`None` outcome counts as failed, any dict
outcome as successful), feed the adaptive rate limiter (whose escaping
exception aborts the rest of the method), persist, and enqueue
admissible internal links at `depth + 1`.  Returns the new state and
every `(url, depth)` pair enqueued (redirect re-enqueues from
`fetch_url` first, then discovered links). -/
def process_url (md5hex : Str → Str) (env : ProcessEnv)
    (cs : CrawlerState) (url : Str) (depth : Nat) :
    CrawlerState × List (Str × Nat) :=
  let um1 := mark_as_visited md5hex cs.um url
  let fo := fetch_url um1 md5hex cs.use_proxies env.probe env.rands
    cs.pm env.resps url depth env.retries
  let statsA := { cs.stats with
    total_urls := cs.stats.total_urls + fo.enqueued.length }
  let cs1 := { cs with um := um1, pm := fo.pm, stats := statsA }
  match fo.result with
  | none =>
    ({ cs1 with
        stats := { statsA with failed := statsA.failed + 1 } },
      fo.enqueued)
  | some pd =>
    let st2 := { statsA with
      successful := statsA.successful + 1
      http_errors := bumpCount pd.status_code statsA.http_errors
      content_types := bumpCount pd.content_type statsA.content_types
      total_response_time := statsA.total_response_time +
        pd.response_time }
    let st3 := { st2 with
      avg_response_time := st2.total_response_time /
        (st2.successful : ℚ) }
    let cs2 := { cs1 with
      crawled_count := cs1.crawled_count + 1
      stats := st3 }
    match cs2.rl.adaptive_wait url pd.response_time pd.status_code with
    | Except.error _ => (cs2, fo.enqueued)
    | Except.ok rl2 =>
      let cs3 := { cs2 with rl := rl2 }
      match env.page_id with
      | none => (cs3, fo.enqueued)
      | some _ =>
        let enq2 := pd.content.links.filterMap (fun l =>
          let isInt := l.is_internal.getD (cs3.um.is_internal_url l.url)
          if isInt ∧ should_crawl md5hex cs3.um l.url then
            some (l.url, depth + 1)
          else none)
        ({ cs3 with
            stats := { cs3.stats with
              total_urls := cs3.stats.total_urls + enq2.length } },
          fo.enqueued ++ enq2)

end WebCrawler

/-- An attempt answer on which `fetch_url` retries instead of
returning: a transport exception, 403/429, or a server error
(status at least 500). -/
def RetryableResp : Resp → Prop
  | Resp.exc _ => True
  | Resp.response st _ _ _ _ => st = 403 ∨ st = 429 ∨ 500 ≤ st

instance : DecidablePred RetryableResp := fun r => by
  cases r with
  | exc e => exact isTrue trivial
  | response st ct loc ex e =>
    unfold RetryableResp
    infer_instance

/-- `d.get(k, 0)` on a counter dict (how the status-code histogram is
read). -/
def lookupCount {α : Type} [DecidableEq α] (k : α)
    (d : List (α × Nat)) : Nat :=
  (d.lookup k).getD 0

/-- The netloc computation of `URLManager.normalize_url`'s `try` block
in isolation (src/crawler/url_manager.py lines 44-52): lowercase the
raw netloc and, for an http (https) URL whose parsed port is 80 (443),
strip the literal `:80` (`:443`); `pyPort`'s `ValueError` propagates. -/
def netlocProcessE (scheme rawNetloc : Str) : Except Unit Str :=
  if scheme = "http".data then do
    let p ← pyPort rawNetloc
    if p = some 80 then pure (replaceAll ":80".data [] (lower rawNetloc))
    else pure (lower rawNetloc)
  else if scheme = "https".data then do
    let p ← pyPort rawNetloc
    if p = some 443 then pure (replaceAll ":443".data [] (lower rawNetloc))
    else pure (lower rawNetloc)
  else pure (lower rawNetloc)

/-- The stability conditions under which one pass of
`URLManager.normalize_url` produces a fixed point (the class of the
amended claim C5).  A URL whose first pass raises (so `normalize_url`
returns it unchanged) is trivially stable.  Otherwise, writing
`netloc1` and `path1` for the netloc and path the first pass produces,
the conditions exclude exactly the code-forced non-idempotent
families: a nonempty params component or a `;` in the parsed path
(re-absorbed differently on the second pass), a dot-collapsed path
ending in `//` (the strip of a single trailing slash leaves another
slash for the second pass to strip), an empty processed netloc with a
processed path starting `//` (reparsed as an authority), a `/`-prepend
in `urlunsplit` whose result starts `/./` or `/../` (collapsed only on
the second pass), and a processed netloc from which a second pass
strips another default port (as in `u:80@h:080`). -/
def normalizeStable (u : Str) : Bool :=
  match pyUrlparse u with
  | Except.error _ => true
  | Except.ok pr =>
    match netlocProcessE (lower pr.scheme) pr.netloc with
    | Except.error _ => true
    | Except.ok netloc1 =>
      let path1 := processPath pr.path
      decide (pr.params = []) && !(hasChar ';' pr.path) &&
      !(List.isSuffixOf "//".data (collapseDots pr.path)) &&
      !(decide (netloc1 = []) && decide (path1.take 2 = "//".data)) &&
      (!((decide (netloc1 ≠ []) ||
            (decide (lower pr.scheme ≠ []) &&
             usesNetloc.contains (lower pr.scheme) &&
             decide (path1.take 2 ≠ "//".data))) &&
          decide (path1 ≠ []) && decide (path1.take 1 ≠ "/".data)) ||
        (!(List.isPrefixOf "./".data path1) &&
         !(List.isPrefixOf "../".data path1))) &&
      (match netlocProcessE (lower pr.scheme) netloc1 with
       | Except.error _ => true
       | Except.ok n2 => decide (n2 = netloc1))

/-- Every occurrence of `:` in `p` has a non-scheme character somewhere
before it, so `urlsplit`'s scheme detection rejects any colon split of
`p` (used to show that reparsing a scheme-less normalised URL finds no
scheme). -/
def schemeBlocked (p : Str) : Prop :=
  ∀ x y, p = x ++ ':' :: y → ∃ c ∈ x, isSchemeChar c = false

/-- The scheme-detection step of `pyUrlsplit` in isolation: the
`(scheme, url2)` pair computed from the scrubbed URL. -/
def schemeStep (url1 : Str) : Str × Str :=
  match splitFirst ':' url1 with
  | none => ([], url1)
  | some (before, after) =>
    if before ≠ [] && isAsciiAlpha (before.headD ' ') &&
        before.all isSchemeChar then
      (lower before, after)
    else
      ([], url1)

/-- The tail of `pyUrlsplit` after scheme detection: netloc scan,
fragment split and query split. -/
def splitRest (scheme url2 : Str) : Except Unit SplitRes := do
  let (netloc, url3) ←
    if url2.take 2 = ['/', '/'] then do
      let nl := (url2.drop 2).takeWhile notNetlocDelim
      let rest := (url2.drop 2).dropWhile notNetlocDelim
      if hasChar '[' nl || hasChar ']' nl then
        Except.error ()
      else
        pure (nl, rest)
    else
      pure (([] : Str), url2)
  let (url4, fragment) :=
    match splitFirst '#' url3 with
    | none => (url3, ([] : Str))
    | some (a, b) => (a, b)
  let (url5, query) :=
    match splitFirst '?' url4 with
    | none => (url4, ([] : Str))
    | some (a, b) => (a, b)
  pure ⟨scheme, netloc, url5, query, fragment⟩

/-! ## Supporting lemmas -/

section Lemmas

open URLManager

/-- `applyMarks` never changes the configuration fields of the
manager. -/
theorem applyMarks_config (md5hex : Str → Str) (m : URLManager)
    (ops : List Str) :
    (applyMarks md5hex m ops).important_params = m.important_params ∧
    (applyMarks md5hex m ops).base_domain = m.base_domain := by
  induction ops generalizing m with
  | nil => exact ⟨rfl, rfl⟩
  | cons u rest ih =>
    have h := ih (mark_as_visited md5hex m u)
    simpa [applyMarks, mark_as_visited] using h

/-- The visited-URL set only grows under `applyMarks`. -/
theorem applyMarks_visited_mono (md5hex : Str → Str) (m : URLManager)
    (ops : List Str) {x : Str} (hx : x ∈ m.visited_urls) :
    x ∈ (applyMarks md5hex m ops).visited_urls := by
  induction ops generalizing m with
  | nil => exact hx
  | cons u rest ih =>
    exact ih (mark_as_visited md5hex m u)
      (by simp [mark_as_visited, Finset.mem_insert, hx])

/-- Once the normalised form of a URL is in the visited set,
`should_crawl` rejects it. -/
theorem should_crawl_of_visited (md5hex : Str → Str) (m : URLManager)
    (u : Str) (h : m.normalize_url u ∈ m.visited_urls) :
    should_crawl md5hex m u = false := by
  unfold should_crawl
  split
  · rfl
  · split
    · rfl
    · split
      · rfl
      · simp only [h, if_true]

end Lemmas

/-! ## The claims -/

open URLManager ProxyManager WebCrawler

/-- C1: the code at the claim's failing input.  The spec says
`mark_failed(proxy)` moves the pool entry to the failed set, so that
after failing all three proxies of a 3-entry pool `next_proxy()`
returns none.  In the code, `mark_proxy_failed` matches a pool entry
only when the proxy URL *ends with* the entry's IP
(`proxy_url.endswith(proxy_string.split(':')[0])`), but every URL
`get_next_proxy` hands out ends with the *port* (`http://ip:port`), so
no entry ever matches: after marking all three returned URLs failed,
the failed set is still empty and `get_next_proxy` still returns a
proxy. -/
theorem C1_mark_proxy_failed_never_matches :
    (let s0 := ProxyManager.init
      ["10.0.0.1:8080".data, "10.0.0.2:8080".data, "10.0.0.3:8080".data]
    let r1 := s0.get_next_proxy none true
    let s1 := r1.2.mark_proxy_failed (r1.1.getD [])
    let r2 := s1.get_next_proxy none true
    let s2 := r2.2.mark_proxy_failed (r2.1.getD [])
    let r3 := s2.get_next_proxy none true
    let s3 := r3.2.mark_proxy_failed (r3.1.getD [])
    r1.1 = some "http://10.0.0.1:8080".data ∧
    r2.1 = some "http://10.0.0.2:8080".data ∧
    r3.1 = some "http://10.0.0.3:8080".data ∧
    s3.failed_proxies = ∅ ∧
    (s3.get_next_proxy none true).1 ≠ none) := by
  decide

/-- C3 counterexample: the claim says a `..` segment removes the
preceding path segment, so `http://host/a/../b` normalises to path
`/b`; the code only deletes the `/../` characters, yielding `/a/b`. -/
theorem C3_counterexample :
    normalize_url "http://host/a/../b" = "http://host/a/b" ∧
    normalize_url "http://host/a/../b" ≠ "http://host/b" := by
  constructor
  · rfl
  · decide

/-- C5 counterexample: normalisation is not idempotent.  A path ending
in `//` loses only one slash per pass (`path = path[:-1]`), so
`http://h/x//` normalises to `http://h/x/`, which normalises again to
`http://h/x`. -/
theorem C5_counterexample :
    normalize_url (normalize_url "http://h/x//") ≠
      normalize_url "http://h/x//" ∧
    normalize_url "http://h/x//" = "http://h/x/" ∧
    normalize_url "http://h/x/" = "http://h/x" := by
  refine ⟨by decide, rfl, rfl⟩

/-- C4: dedup soundness.  Once `mark_as_visited(u)` has been called,
`should_crawl` returns `False` for `u` and for every `u'` with the
same normalised form, whatever further `mark_as_visited` calls (the
only mutating operation of `URLManager`) are interleaved. -/
theorem C4_dedup_soundness (md5hex : Str → Str) (m : URLManager)
    (u u' : Str) (ops : List Str)
    (h : m.normalize_url u' = m.normalize_url u) :
    should_crawl md5hex
      (applyMarks md5hex (mark_as_visited md5hex m u) ops) u' = false := by
  have hcfg := applyMarks_config md5hex (mark_as_visited md5hex m u) ops
  apply should_crawl_of_visited
  have hnorm :
      (applyMarks md5hex (mark_as_visited md5hex m u) ops).normalize_url
        u' = m.normalize_url u := by
    unfold URLManager.normalize_url at h ⊢
    rw [hcfg.1]
    simpa [mark_as_visited] using h
  rw [hnorm]
  refine applyMarks_visited_mono md5hex _ ops ?_
  simp [mark_as_visited, Finset.mem_insert]

/-- C4 witness: marking `http://h/a/` rejects `http://h/a` (same
normalised form) after an interleaved mark of another URL. -/
theorem C4_dedup_soundness_witness :
    (URLManager.init "http://h".data).normalize_url "http://h/a".data =
      (URLManager.init "http://h".data).normalize_url "http://h/a/".data ∧
    should_crawl id
      (applyMarks id
        (mark_as_visited id (URLManager.init "http://h".data)
          "http://h/a/".data)
        ["http://h/b".data]) "http://h/a".data = false := by
  refine ⟨by decide, C4_dedup_soundness id (URLManager.init "http://h".data)
    "http://h/a/".data "http://h/a".data ["http://h/b".data] (by decide)⟩

/-- C8: after any sequence of `mark_as_visited` calls from a fresh
manager, the hash set is exactly the image of the visited-string set
under the digest, and therefore (for an injective digest — "absent an
MD5 collision") the hash-membership test of `should_crawl` agrees with
the normalised-string membership test and never changes the
decision. -/
theorem C8_hash_set_image (md5hex : Str → Str) (base : Str)
    (ops : List Str) :
    (applyMarks md5hex (URLManager.init base) ops).visited_hashes =
      (applyMarks md5hex (URLManager.init base) ops).visited_urls.image
        md5hex ∧
    (Function.Injective md5hex → ∀ u : Str,
      (md5hex ((applyMarks md5hex (URLManager.init base)
          ops).normalize_url u) ∈
        (applyMarks md5hex (URLManager.init base) ops).visited_hashes ↔
      (applyMarks md5hex (URLManager.init base) ops).normalize_url u ∈
        (applyMarks md5hex (URLManager.init base) ops).visited_urls)) := by
  have main : ∀ (ops : List Str) (m : URLManager),
      m.visited_hashes = m.visited_urls.image md5hex →
      (applyMarks md5hex m ops).visited_hashes =
        (applyMarks md5hex m ops).visited_urls.image md5hex := by
    intro ops
    induction ops with
    | nil => intro m h; exact h
    | cons v rest ih =>
      intro m h
      refine ih (mark_as_visited md5hex m v) ?_
      simp [mark_as_visited, get_url_hash, h, Finset.image_insert]
  have h1 := main ops (URLManager.init base) (by simp [URLManager.init])
  refine ⟨h1, fun hinj u => ?_⟩
  rw [h1, Finset.mem_image]
  constructor
  · rintro ⟨y, hy, hyeq⟩
    rwa [← hinj hyeq]
  · intro hmem
    exact ⟨_, hmem, rfl⟩

/-- C8 witness: with the injective identity digest and one marked URL,
both parts hold at a concrete input. -/
theorem C8_hash_set_image_witness :
    Function.Injective (id : Str → Str) ∧
    ((applyMarks id (URLManager.init "http://h".data)
        ["http://h/a".data]).visited_hashes =
      (applyMarks id (URLManager.init "http://h".data)
        ["http://h/a".data]).visited_urls.image id) ∧
    (id ((applyMarks id (URLManager.init "http://h".data)
        ["http://h/a".data]).normalize_url "http://h/a".data) ∈
      (applyMarks id (URLManager.init "http://h".data)
        ["http://h/a".data]).visited_hashes ↔
      (applyMarks id (URLManager.init "http://h".data)
        ["http://h/a".data]).normalize_url "http://h/a".data ∈
      (applyMarks id (URLManager.init "http://h".data)
        ["http://h/a".data]).visited_urls) :=
  ⟨Function.injective_id,
    (C8_hash_set_image id "http://h".data ["http://h/a".data]).1,
    (C8_hash_set_image id "http://h".data ["http://h/a".data]).2
      Function.injective_id "http://h/a".data⟩

/-- Lookup after an in-place dict update of key `d`. -/
theorem lookup_map_set {β : Type} (l : List (Str × β)) (d : Str) (v : β)
    (h : (l.lookup d).isSome) :
    (l.map (fun kv => if kv.1 = d then (kv.1, v) else kv)).lookup d =
      some v := by
  induction l with
  | nil => simp [List.lookup] at h
  | cons kv rest ih =>
    obtain ⟨k0, v0⟩ := kv
    by_cases hk : k0 = d
    · subst hk
      simp [List.lookup_cons, beq_self_eq_true]
    · have hb : (d == k0) = false :=
        beq_false_of_ne (fun hcon => hk hcon.symm)
      have h2 : (rest.lookup d).isSome := by
        simp only [List.lookup_cons, hb] at h
        exact h
      simp only [List.map_cons, if_neg hk, List.lookup_cons, hb]
      exact ih h2

/-- Lookup after appending a fresh key `d`. -/
theorem lookup_append_new {β : Type} (l : List (Str × β)) (d : Str)
    (v : β) (h : l.lookup d = none) :
    ((l ++ [(d, v)]).lookup d) = some v := by
  induction l with
  | nil => simp [List.lookup_cons, beq_self_eq_true]
  | cons kv rest ih =>
    obtain ⟨k0, v0⟩ := kv
    by_cases hk : d = k0
    · subst hk
      simp [List.lookup_cons, beq_self_eq_true] at h
    · have hb : (d == k0) = false := beq_false_of_ne hk
      have h2 : rest.lookup d = none := by
        simp only [List.lookup_cons, hb] at h
        exact h
      simp only [List.cons_append, List.lookup_cons, hb]
      exact ih h2

/-- An in-place dict update of key `d` does not change other keys. -/
theorem lookup_map_set_other {β : Type} (l : List (Str × β))
    (d d' : Str) (v : β) (hne : d' ≠ d) :
    (l.map (fun kv => if kv.1 = d then (kv.1, v) else kv)).lookup d' =
      l.lookup d' := by
  induction l with
  | nil => simp
  | cons kv rest ih =>
    obtain ⟨k0, v0⟩ := kv
    by_cases hk : k0 = d
    · subst hk
      have hb : (d' == k0) = false := beq_false_of_ne hne
      simp only [List.map_cons, eq_self_iff_true, ite_true,
        List.lookup_cons, hb]
      exact ih
    · simp only [List.map_cons, if_neg hk, List.lookup_cons]
      by_cases hk2 : d' = k0
      · simp [hk2, beq_self_eq_true]
      · have hb : (d' == k0) = false := beq_false_of_ne hk2
        simp only [hb]
        exact ih

/-- Appending a fresh key `d` does not change other keys. -/
theorem lookup_append_other {β : Type} (l : List (Str × β))
    (d d' : Str) (v : β) (hne : d' ≠ d) :
    (l ++ [(d, v)]).lookup d' = l.lookup d' := by
  induction l with
  | nil =>
    have hb : (d' == d) = false := beq_false_of_ne hne
    simp [List.lookup_cons, hb, List.lookup]
  | cons kv rest ih =>
    obtain ⟨k0, v0⟩ := kv
    by_cases hk : d' = k0
    · simp [List.lookup_cons, hk, beq_self_eq_true]
    · have hb : (d' == k0) = false := beq_false_of_ne hk
      simp only [List.cons_append, List.lookup_cons, hb]
      exact ih

/-- `getLimit` after `update_domain_limit` on the same domain. -/
theorem getLimit_update_same (rl : RateLimiter) (d : Str) (v : ℚ) :
    (rl.update_domain_limit d v).getLimit d = v := by
  unfold RateLimiter.update_domain_limit RateLimiter.getLimit
  split
  · rename_i hsome
    simp [lookup_map_set rl.domain_specific_limits d v hsome]
  · rename_i hnone
    have hn : rl.domain_specific_limits.lookup d = none := by
      cases hl : rl.domain_specific_limits.lookup d with
      | none => rfl
      | some x => exact absurd (by simp [hl]) hnone
    simp [lookup_append_new rl.domain_specific_limits d v hn]

/-- `getLimit` of a different domain is unchanged by
`update_domain_limit`. -/
theorem getLimit_update_other (rl : RateLimiter) (d d' : Str) (v : ℚ)
    (hne : d' ≠ d) :
    (rl.update_domain_limit d v).getLimit d' = rl.getLimit d' := by
  unfold RateLimiter.update_domain_limit RateLimiter.getLimit
  split
  · simp [lookup_map_set_other rl.domain_specific_limits d d' v hne]
  · simp [lookup_append_other rl.domain_specific_limits d d' v hne]

/-- C6: rate-limiter ceiling.  If a domain's current limit is at most
1 request/second, no sequence of fast-success reports (status 200,
response time below 1 s) ever pushes it above 1: each increase is
`min(current * 1.1, 1.0)`. -/
theorem C6_rate_limiter_ceiling (rl : RateLimiter) (d : Str)
    (rts : List ℚ) (h0 : rl.getLimit d ≤ 1)
    (h : ∀ rt ∈ rts, rt < 1) :
    (rl.applyReports (rts.map (fun rt => (d, rt, 200)))).getLimit d
      ≤ 1 := by
  induction rts generalizing rl with
  | nil => exact h0
  | cons rt rest ih =>
    simp only [List.map_cons, RateLimiter.applyReports]
    apply ih
    · have hrt : rt < 1 := h rt (by simp)
      unfold RateLimiter.adaptive_wait_domain
      have hn429 : ¬((200 : Nat) = 429 ∨ rt > 5) := by
        push_neg
        exact ⟨by decide, by linarith⟩
      rw [if_neg hn429]
      have hc : (200 : Nat) = 200 ∧ rt < 1 := ⟨rfl, hrt⟩
      rw [if_pos hc]
      dsimp only
      split
      · rw [getLimit_update_same]
        exact min_le_right _ _
      · exact h0
    · intro x hx
      exact h x (by simp [hx])

/-- C6 witness: from the default limit 0.5 on a fresh limiter, one
fast-success report keeps the limit at most 1. -/
theorem C6_rate_limiter_ceiling_witness :
    RateLimiter.init.getLimit "h".data ≤ 1 ∧
    (∀ rt ∈ [(1 : ℚ) / 2], rt < 1) ∧
    (RateLimiter.init.applyReports
      ([(1 : ℚ) / 2].map (fun rt => ("h".data, rt, 200)))).getLimit
        "h".data ≤ 1 := by
  have h0 : RateLimiter.init.getLimit "h".data ≤ 1 := by
    unfold RateLimiter.init RateLimiter.getLimit
    norm_num [List.lookup]
  have h1 : ∀ rt ∈ [(1 : ℚ) / 2], rt < 1 := by
    intro rt hrt
    simp at hrt
    rw [hrt]
    norm_num
  exact ⟨h0, h1,
    C6_rate_limiter_ceiling RateLimiter.init "h".data [(1 : ℚ) / 2] h0
      h1⟩

/-- C9: starting from the default limit 0.5, every adaptive update
(halving on 429/slow responses, a capped 10% increase on fast
successes) keeps every domain's limit strictly positive, so `wait`'s
guarded pacing computation always takes the `1 / limit` branch and
never divides by zero. -/
theorem C9_limit_positive_division_safe
    (reports : List (Str × ℚ × Nat)) (d : Str) :
    0 < (RateLimiter.init.applyReports reports).getLimit d ∧
    (RateLimiter.init.applyReports reports).wait_min_interval d =
      1 / (RateLimiter.init.applyReports reports).getLimit d := by
  have main : ∀ (reports : List (Str × ℚ × Nat)) (rl : RateLimiter),
      (∀ d1, 0 < rl.getLimit d1) →
      ∀ d1, 0 < (rl.applyReports reports).getLimit d1 := by
    intro reports
    induction reports with
    | nil => intro rl h d1; exact h d1
    | cons r rest ih =>
      intro rl h d1
      obtain ⟨d0, rt, sc⟩ := r
      refine ih _ ?_ d1
      intro d2
      unfold RateLimiter.adaptive_wait_domain
      split
      · by_cases hd : d2 = d0
        · subst hd
          rw [getLimit_update_same]
          have := h d2
          positivity
        · rw [getLimit_update_other _ _ _ _ hd]
          exact h d2
      · split
        · dsimp only
          split
          · by_cases hd : d2 = d0
            · subst hd
              rw [getLimit_update_same]
              have := h d2
              positivity
            · rw [getLimit_update_other _ _ _ _ hd]
              exact h d2
          · exact h d2
        · exact h d2
  have hpos := main reports RateLimiter.init ?_ d
  · refine ⟨hpos, ?_⟩
    unfold RateLimiter.wait_min_interval
    rw [if_pos hpos]
  · intro d1
    unfold RateLimiter.init RateLimiter.getLimit
    norm_num [List.lookup]

/-- A response whose status is below 500, not a redirect and not
403/429 makes the attempt loop return at once: a success outcome for
200, an error outcome carrying the status otherwise. -/
theorem fetchGo_terminal (um : URLManager) (md5hex : Str → Str)
    (up : Bool) (probe : Option (Str → Bool)) (url : Str) (depth : Nat)
    (code : Nat) (ct : Str) (loc : Option Str) (ex : ContentData)
    (e : ℚ) (rest : List Resp) (n : Nat) (proxy : Option Str)
    (pm : ProxyManager) (rands : List Bool) (enq : List (Str × Nat))
    (h1 : code < 500) (h2 : redirectCodes.contains code = false)
    (h3 : code ≠ 403) (h4 : code ≠ 429) :
    fetchGo um md5hex up probe url depth
      (Resp.response code ct loc ex e :: rest) (n + 1) proxy pm rands
      enq =
    (if code = 200 then
      ⟨some ⟨url, code, lower ct, depth, e, ex⟩, enq, pm⟩
    else
      ⟨some ⟨url, code, "error".data, depth, e, ⟨[]⟩⟩, enq, pm⟩) := by
  by_cases hc : code = 200
  · simp [fetchGo, hc]
  · have h500 : ¬(500 ≤ code) := Nat.not_le.mpr h1
    have h34 : ¬(code = 403 ∨ code = 429) := by
      push_neg
      exact ⟨h3, h4⟩
    have h2m : code ∉ redirectCodes := by simpa using h2
    simp [fetchGo, hc, h2, h2m, h34, h500]

/-- When the fetch yields an outcome dict, `process_url` counts it as
successful; when it yields `None`, as failed.  Either way exactly one
of the two counters moves. -/
theorem process_url_stats (md5hex : Str → Str) (env : ProcessEnv)
    (cs : CrawlerState) (url : Str) (depth : Nat) :
    (((fetch_url (mark_as_visited md5hex cs.um url) md5hex
        cs.use_proxies env.probe env.rands cs.pm env.resps url depth
        env.retries).result).isSome →
      (process_url md5hex env cs url depth).1.stats.successful =
          cs.stats.successful + 1 ∧
        (process_url md5hex env cs url depth).1.stats.failed =
          cs.stats.failed) ∧
    (((fetch_url (mark_as_visited md5hex cs.um url) md5hex
        cs.use_proxies env.probe env.rands cs.pm env.resps url depth
        env.retries).result) = none →
      (process_url md5hex env cs url depth).1.stats.successful =
          cs.stats.successful ∧
        (process_url md5hex env cs url depth).1.stats.failed =
          cs.stats.failed + 1) := by
  constructor
  · intro hsome
    obtain ⟨pd, hpd⟩ := Option.isSome_iff_exists.mp hsome
    unfold process_url
    simp only [hpd]
    cases hrl : (RateLimiter.adaptive_wait cs.rl url pd.response_time
        pd.status_code) with
    | error e => simp
    | ok rl2 =>
      cases hpid : env.page_id with
      | none => simp
      | some pid => simp
  · intro hnone
    unfold process_url
    simp only [hnone]
    simp

/-- C2 counterexample: a 404 response (client error, non-redirect, not
403/429).  The claim says the orchestrator records the outcome as a
failure; in the code `process_url` counts every non-`None` outcome as
successful, so `successful` is incremented and `failed` stays 0. -/
theorem C2_counterexample :
    (let env : ProcessEnv :=
      ⟨[Resp.response 404 "text/html".data none ⟨[]⟩ 1], none, [], 3,
        some 1⟩
    let cs : CrawlerState :=
      ⟨URLManager.init "http://h".data, RateLimiter.init,
        ProxyManager.init [], false, 0, Stats.init⟩
    let out := process_url id env cs "http://h/x".data 0
    out.1.stats.successful = 1 ∧ out.1.stats.failed = 0) := by
  constructor
  · rfl
  · rfl

/-- C2 amended: a response with status below 500 that is neither a
redirect nor 403/429 is terminal — the fetch returns at once (the
remaining attempt budget and later responses are never consumed) with
an outcome carrying that status code — and the orchestrator records
that outcome as a *success* in its statistics: `successful`, not
`failed`, is incremented, and `successful + failed` still grows by
exactly one per processed URL. -/
theorem C2_client_error_terminal_counted_successful
    (md5hex : Str → Str) (env : ProcessEnv) (cs : CrawlerState)
    (url : Str) (depth : Nat) (code : Nat) (ct : Str)
    (loc : Option Str) (ex : ContentData) (e : ℚ) (rest : List Resp)
    (h1 : code < 500) (h2 : redirectCodes.contains code = false)
    (h3 : code ≠ 403) (h4 : code ≠ 429)
    (h5 : env.resps = Resp.response code ct loc ex e :: rest)
    (h6 : 0 < env.retries) :
    (∃ pd, (fetch_url (mark_as_visited md5hex cs.um url) md5hex
        cs.use_proxies env.probe env.rands cs.pm env.resps url depth
        env.retries).result = some pd ∧ pd.status_code = code) ∧
    (fetch_url (mark_as_visited md5hex cs.um url) md5hex
        cs.use_proxies env.probe env.rands cs.pm env.resps url depth
        env.retries).result =
      (fetch_url (mark_as_visited md5hex cs.um url) md5hex
        cs.use_proxies env.probe env.rands cs.pm
        [Resp.response code ct loc ex e] url depth
        env.retries).result ∧
    (process_url md5hex env cs url depth).1.stats.successful =
      cs.stats.successful + 1 ∧
    (process_url md5hex env cs url depth).1.stats.failed =
      cs.stats.failed ∧
    (process_url md5hex env cs url depth).1.stats.successful +
        (process_url md5hex env cs url depth).1.stats.failed =
      cs.stats.successful + cs.stats.failed + 1 := by
  obtain ⟨m, hm⟩ : ∃ m, env.retries = m + 1 :=
    ⟨env.retries - 1, (Nat.succ_pred_eq_of_pos h6).symm⟩
  have hterm := fetchGo_terminal (mark_as_visited md5hex cs.um url)
    md5hex cs.use_proxies env.probe url depth code ct loc ex e rest m
  have hterm1 := fetchGo_terminal (mark_as_visited md5hex cs.um url)
    md5hex cs.use_proxies env.probe url depth code ct loc ex e [] m
  have hres : (fetch_url (mark_as_visited md5hex cs.um url) md5hex
      cs.use_proxies env.probe env.rands cs.pm env.resps url depth
      env.retries).result =
      (if code = 200 then
        some ⟨url, code, lower ct, depth, e, ex⟩
      else some ⟨url, code, "error".data, depth, e, ⟨[]⟩⟩) := by
    unfold fetch_url
    rw [h5, hm]
    split <;> (rw [hterm _ _ _ _ h1 h2 h3 h4]; split <;> simp)
  have hres1 : (fetch_url (mark_as_visited md5hex cs.um url) md5hex
      cs.use_proxies env.probe env.rands cs.pm
      [Resp.response code ct loc ex e] url depth
      env.retries).result =
      (if code = 200 then
        some ⟨url, code, lower ct, depth, e, ex⟩
      else some ⟨url, code, "error".data, depth, e, ⟨[]⟩⟩) := by
    unfold fetch_url
    rw [hm]
    split <;> (rw [hterm1 _ _ _ _ h1 h2 h3 h4]; split <;> simp)
  have hsome : (fetch_url (mark_as_visited md5hex cs.um url) md5hex
      cs.use_proxies env.probe env.rands cs.pm env.resps url depth
      env.retries).result.isSome := by
    rw [hres]
    split <;> simp
  have hstats := (process_url_stats md5hex env cs url depth).1 hsome
  refine ⟨?_, by rw [hres, hres1], hstats.1, hstats.2, ?_⟩
  · rw [hres]
    split
    · exact ⟨_, rfl, rfl⟩
    · exact ⟨_, rfl, rfl⟩
  · rw [hstats.1, hstats.2]
    omega

/-- C2 amended witness: the concrete 404 scenario. -/
theorem C2_client_error_witness :
    ((404 : Nat) < 500 ∧ redirectCodes.contains 404 = false ∧
      (404 : Nat) ≠ 403 ∧ (404 : Nat) ≠ 429) ∧
    (let env : ProcessEnv :=
      ⟨[Resp.response 404 "text/html".data none ⟨[]⟩ 1], none, [], 3,
        some 1⟩
    let cs : CrawlerState :=
      ⟨URLManager.init "http://h".data, RateLimiter.init,
        ProxyManager.init [], false, 0, Stats.init⟩
    (process_url id env cs "http://h/x".data 0).1.stats.successful =
        cs.stats.successful + 1 ∧
      (process_url id env cs "http://h/x".data 0).1.stats.failed =
        cs.stats.failed) := by
  refine ⟨⟨by decide, by decide, by decide, by decide⟩, ?_, ?_⟩
  · exact (C2_client_error_terminal_counted_successful id
      ⟨[Resp.response 404 "text/html".data none ⟨[]⟩ 1], none, [], 3,
        some 1⟩
      ⟨URLManager.init "http://h".data, RateLimiter.init,
        ProxyManager.init [], false, 0, Stats.init⟩
      "http://h/x".data 0 404 "text/html".data none ⟨[]⟩ 1 []
      (by decide) (by decide) (by decide) (by decide) rfl
      (by decide)).2.2.1
  · exact (C2_client_error_terminal_counted_successful id
      ⟨[Resp.response 404 "text/html".data none ⟨[]⟩ 1], none, [], 3,
        some 1⟩
      ⟨URLManager.init "http://h".data, RateLimiter.init,
        ProxyManager.init [], false, 0, Stats.init⟩
      "http://h/x".data 0 404 "text/html".data none ⟨[]⟩ 1 []
      (by decide) (by decide) (by decide) (by decide) rfl
      (by decide)).2.2.2.1

/-- Bumping a counter key increments its read count. -/
theorem lookupCount_bumpCount {α : Type} [DecidableEq α] (k : α)
    (d : List (α × Nat)) :
    lookupCount k (bumpCount k d) = lookupCount k d + 1 := by
  induction d with
  | nil => simp [lookupCount, bumpCount, List.lookup_cons,
      beq_self_eq_true]
  | cons kv rest ih =>
    obtain ⟨k0, v0⟩ := kv
    by_cases hk : k0 = k
    · subst hk
      simp [lookupCount, bumpCount, List.lookup_cons, beq_self_eq_true]
    · have hb : (k == k0) = false :=
        beq_false_of_ne (fun hcon => hk hcon.symm)
      simp only [lookupCount, bumpCount, if_neg hk, List.lookup_cons,
        hb]
      exact ih

/-- When the fetch yields an outcome dict, the status-code histogram
key of that outcome is incremented by `process_url`. -/
theorem process_url_histogram (md5hex : Str → Str) (env : ProcessEnv)
    (cs : CrawlerState) (url : Str) (depth : Nat) (pd : PageData)
    (hpd : (fetch_url (mark_as_visited md5hex cs.um url) md5hex
        cs.use_proxies env.probe env.rands cs.pm env.resps url depth
        env.retries).result = some pd) :
    (process_url md5hex env cs url depth).1.stats.http_errors =
      bumpCount pd.status_code cs.stats.http_errors := by
  unfold process_url
  simp only [hpd]
  cases hrl : (RateLimiter.adaptive_wait cs.rl url pd.response_time
      pd.status_code) with
  | error e => simp
  | ok rl2 =>
    cases hpid : env.page_id with
    | none => simp
    | some pid => simp

/-- Consuming one retryable answer (with attempts still remaining)
leaves the loop running on the remaining answers, with some rotated
proxy state. -/
theorem fetchGo_retry_step (um : URLManager) (md5hex : Str → Str)
    (up : Bool) (probe : Option (Str → Bool)) (url : Str) (depth : Nat)
    (r : Resp) (rest : List Resp) (n : Nat) (proxy : Option Str)
    (pm : ProxyManager) (rands : List Bool) (enq : List (Str × Nat))
    (hr : RetryableResp r) (hn : n ≠ 0) :
    ∃ p2 pm2 r2, fetchGo um md5hex up probe url depth (r :: rest)
      (n + 1) proxy pm rands enq =
      fetchGo um md5hex up probe url depth rest n p2 pm2 r2 enq := by
  cases r with
  | exc e0 =>
    refine ⟨(proxyFailover up probe proxy pm rands).1,
      (proxyFailover up probe proxy pm rands).2.1,
      (proxyFailover up probe proxy pm rands).2.2, ?_⟩
    simp only [fetchGo]
    rw [if_pos hn]
  | response st ct loc ex e0 =>
    have hr3 : st = 403 ∨ st = 429 ∨ 500 ≤ st := hr
    have h200 : st ≠ 200 := by
      rcases hr3 with rfl | rfl | h5 <;> omega
    have hmem : st ∉ redirectCodes := by
      rcases hr3 with rfl | rfl | h5
      · decide
      · decide
      · simp only [redirectCodes, List.mem_cons, List.not_mem_nil,
          or_false]
        omega
    have hcontains : redirectCodes.contains st = false := by
      simpa using hmem
    rcases hr3 with rfl | rfl | h5
    · refine ⟨(proxyFailover up probe proxy pm rands).1,
        (proxyFailover up probe proxy pm rands).2.1,
        (proxyFailover up probe proxy pm rands).2.2, ?_⟩
      simp [fetchGo, hcontains, hmem]
    · refine ⟨(proxyFailover up probe proxy pm rands).1,
        (proxyFailover up probe proxy pm rands).2.1,
        (proxyFailover up probe proxy pm rands).2.2, ?_⟩
      simp [fetchGo, hcontains, hmem]
    · have h34 : ¬(st = 403 ∨ st = 429) := by omega
      refine ⟨proxy, pm, rands, ?_⟩
      simp [fetchGo, h200, hcontains, hmem, h34, h5]

/-- A run of retryable answers ending in an exception on the final
attempt makes the attempt loop return the zero outcome
(`status_code = 0`, `content_type = 'error'`), not `None`. -/
theorem fetchGo_exc_final (um : URLManager) (md5hex : Str → Str)
    (up : Bool) (probe : Option (Str → Bool)) (url : Str) (depth : Nat)
    (n : Nat) (resps : List Resp) (e : ℚ) (proxy : Option Str)
    (pm : ProxyManager) (rands : List Bool) (enq : List (Str × Nat))
    (hlen : resps.length = n + 1)
    (hretry : ∀ r ∈ resps.dropLast, RetryableResp r)
    (hlast : resps.getLast? = some (Resp.exc e)) :
    ∃ pm2, fetchGo um md5hex up probe url depth resps (n + 1) proxy pm
      rands enq =
      ⟨some ⟨url, 0, "error".data, depth, e, ⟨[]⟩⟩, enq, pm2⟩ := by
  induction n generalizing resps proxy pm rands with
  | zero =>
    match resps, hlen with
    | [r], _ =>
      have hre : r = Resp.exc e := by simpa [List.getLast?] using hlast
      subst hre
      exact ⟨(proxyFailover up probe proxy pm rands).2.1,
        by simp [fetchGo]⟩
  | succ m ih =>
    match resps, hlen with
    | r :: r2 :: rest, hlen =>
      have hrest : (r2 :: rest).length = m + 1 := by simpa using hlen
      have hr : RetryableResp r := by
        apply hretry
        rw [List.dropLast_cons₂]
        simp
      have hretry2 : ∀ x ∈ (r2 :: rest).dropLast, RetryableResp x := by
        intro x hx
        apply hretry
        rw [List.dropLast_cons₂]
        simp [hx]
      have hlast2 : (r2 :: rest).getLast? = some (Resp.exc e) := by
        rwa [List.getLast?_cons_cons] at hlast
      obtain ⟨p2, pm2, r2s, hstep⟩ := fetchGo_retry_step um md5hex up
        probe url depth r (r2 :: rest) (m + 1) proxy pm rands enq hr
        (Nat.succ_ne_zero m)
      rw [hstep]
      exact ih (r2 :: rest) p2 pm2 r2s hrest hretry2 hlast2

/-- C10: when a transport/timeout exception occurs on the final retry
attempt (after only retryable answers), `fetch_url` does not return
`None` but an outcome with `status_code = 0` and
`content_type = 'error'`; `process_url` then counts that outcome as
*successful* and records the key 0 in the HTTP status-code
histogram. -/
theorem C10_final_exception_zero_outcome (md5hex : Str → Str)
    (env : ProcessEnv) (cs : CrawlerState) (url : Str) (depth : Nat)
    (e : ℚ) (hlen : env.resps.length = env.retries)
    (h0 : 0 < env.retries)
    (hretry : ∀ r ∈ env.resps.dropLast, RetryableResp r)
    (hlast : env.resps.getLast? = some (Resp.exc e)) :
    (fetch_url (mark_as_visited md5hex cs.um url) md5hex
        cs.use_proxies env.probe env.rands cs.pm env.resps url depth
        env.retries).result =
      some ⟨url, 0, "error".data, depth, e, ⟨[]⟩⟩ ∧
    (process_url md5hex env cs url depth).1.stats.successful =
      cs.stats.successful + 1 ∧
    (process_url md5hex env cs url depth).1.stats.failed =
      cs.stats.failed ∧
    lookupCount 0
        (process_url md5hex env cs url depth).1.stats.http_errors =
      lookupCount 0 cs.stats.http_errors + 1 := by
  obtain ⟨m, hm⟩ : ∃ m, env.retries = m + 1 :=
    ⟨env.retries - 1, (Nat.succ_pred_eq_of_pos h0).symm⟩
  rw [hm] at hlen
  have hres : (fetch_url (mark_as_visited md5hex cs.um url) md5hex
      cs.use_proxies env.probe env.rands cs.pm env.resps url depth
      env.retries).result =
      some ⟨url, 0, "error".data, depth, e, ⟨[]⟩⟩ := by
    unfold fetch_url
    rw [hm]
    split
    · rename_i p pm1 rands1 heq
      obtain ⟨pm2, hgo⟩ := fetchGo_exc_final
        (mark_as_visited md5hex cs.um url) md5hex cs.use_proxies
        env.probe url depth m env.resps e p pm1 rands1 [] hlen hretry
        hlast
      rw [hgo]
  have hstats := (process_url_stats md5hex env cs url depth).1
    (by rw [hres]; rfl)
  have hhist := process_url_histogram md5hex env cs url depth _ hres
  refine ⟨hres, hstats.1, hstats.2, ?_⟩
  rw [hhist]
  exact lookupCount_bumpCount 0 cs.stats.http_errors

/-- C10 witness: three attempts, all transport exceptions. -/
theorem C10_final_exception_zero_outcome_witness :
    (let env : ProcessEnv :=
      ⟨[Resp.exc 1, Resp.exc 1, Resp.exc 2], none, [], 3, some 1⟩
    let cs : CrawlerState :=
      ⟨URLManager.init "http://h".data, RateLimiter.init,
        ProxyManager.init [], false, 0, Stats.init⟩
    (fetch_url (mark_as_visited id cs.um "http://h/x".data) id
        cs.use_proxies env.probe env.rands cs.pm env.resps
        "http://h/x".data 0 env.retries).result =
      some ⟨"http://h/x".data, 0, "error".data, 0, 2, ⟨[]⟩⟩ ∧
    (process_url id env cs "http://h/x".data 0).1.stats.successful =
      cs.stats.successful + 1 ∧
    lookupCount 0
        (process_url id env cs "http://h/x".data
          0).1.stats.http_errors =
      lookupCount 0 cs.stats.http_errors + 1) := by
  have h := C10_final_exception_zero_outcome id
    ⟨[Resp.exc 1, Resp.exc 1, Resp.exc 2], none, [], 3, some 1⟩
    ⟨URLManager.init "http://h".data, RateLimiter.init,
      ProxyManager.init [], false, 0, Stats.init⟩
    "http://h/x".data 0 2 (by decide) (by decide)
    (by intro r hr; fin_cases hr <;> trivial) (by decide)
  exact ⟨h.1, h.2.1, h.2.2.2⟩

/-- C7: depth propagation.  A redirect target (3xx with a `Location`)
that is internal and admissible is re-enqueued at the *same* depth by
`fetch_url`, while a link discovered on a fetched page is enqueued at
`depth + 1` by `process_url`. -/
theorem C7_depth_propagation (md5hex : Str → Str) :
    (∀ (um : URLManager) (up : Bool) (probe : Option (Str → Bool))
        (rands : List Bool) (pm : ProxyManager) (url : Str)
        (depth : Nat) (st : Nat) (ct : Str) (l : Str)
        (ex : ContentData) (e : ℚ) (rest : List Resp) (retries : Nat)
        (newUrl : Str),
      st ∈ redirectCodes → 0 < retries →
      urljoinE url l = Except.ok newUrl →
      um.is_internal_url newUrl = true →
      should_crawl md5hex um newUrl = true →
      (fetch_url um md5hex up probe rands pm
          (Resp.response st ct (some l) ex e :: rest) url depth
          retries).result = none ∧
        (fetch_url um md5hex up probe rands pm
          (Resp.response st ct (some l) ex e :: rest) url depth
          retries).enqueued = [(newUrl, depth)]) ∧
    (∀ (env : ProcessEnv) (cs : CrawlerState) (url : Str)
        (depth : Nat) (ct : Str) (ex : ContentData) (e : ℚ)
        (rest : List Resp) (pid : Nat) (rl2 : RateLimiter)
        (l : LinkData),
      env.resps = Resp.response 200 ct none ex e :: rest →
      0 < env.retries →
      env.page_id = some pid →
      cs.rl.adaptive_wait url e 200 = Except.ok rl2 →
      l ∈ ex.links →
      l.is_internal.getD
        ((mark_as_visited md5hex cs.um url).is_internal_url l.url) =
        true →
      should_crawl md5hex (mark_as_visited md5hex cs.um url) l.url =
        true →
      (l.url, depth + 1) ∈ (process_url md5hex env cs url depth).2) := by
  constructor
  · intro um up probe rands pm url depth st ct l ex e rest retries
      newUrl hst hr hjoin hint hadm
    obtain ⟨m, rfl⟩ : ∃ m, retries = m + 1 :=
      ⟨retries - 1, (Nat.succ_pred_eq_of_pos hr).symm⟩
    constructor
    · unfold fetch_url
      split <;>
        (simp only [redirectCodes, List.mem_cons,
          List.not_mem_nil, or_false] at hst
         rcases hst with rfl | rfl | rfl | rfl | rfl <;>
           simp [fetchGo, hjoin, hint, hadm, redirectCodes])
    · unfold fetch_url
      split <;>
        (simp only [redirectCodes, List.mem_cons,
          List.not_mem_nil, or_false] at hst
         rcases hst with rfl | rfl | rfl | rfl | rfl <;>
           simp [fetchGo, hjoin, hint, hadm, redirectCodes])
  · intro env cs url depth ct ex e rest pid rl2 l hresp hr hpid hrl hl
      hint hadm
    obtain ⟨m, hm⟩ : ∃ m, env.retries = m + 1 :=
      ⟨env.retries - 1, (Nat.succ_pred_eq_of_pos hr).symm⟩
    have hfetch : ∃ pm2, fetch_url (mark_as_visited md5hex cs.um url)
        md5hex cs.use_proxies env.probe env.rands cs.pm env.resps url
        depth env.retries =
        ⟨some ⟨url, 200, lower ct, depth, e, ex⟩, [], pm2⟩ := by
      unfold fetch_url
      rw [hresp, hm]
      split
      rename_i p2 pm2x r2x heq
      rw [fetchGo_terminal _ _ _ _ _ _ _ _ _ _ _ _ _ _ _ _ _
        (by decide) (by decide) (by decide) (by decide)]
      exact ⟨pm2x, by simp⟩
    obtain ⟨pm2, hfetch⟩ := hfetch
    simp only [process_url]
    rw [hfetch]
    simp only [hrl, hpid]
    refine List.mem_append.mpr (Or.inr ?_)
    refine List.mem_filterMap.mpr ⟨l, hl, ?_⟩
    simp [hint, hadm]

/-- C7 witness: at depth 2, a redirect target re-enters the frontier
at depth 2 while a discovered page link enters at depth 3. -/
theorem C7_depth_propagation_witness :
    (fetch_url (URLManager.init "http://h".data) id false none []
        (ProxyManager.init [])
        [Resp.response 301 "text/html".data (some "/t".data) ⟨[]⟩ 1]
        "http://h/p".data 2 3).enqueued = [("http://h/t".data, 2)] ∧
    ("http://h/c".data, 3) ∈
      (process_url id
        ⟨[Resp.response 200 "text/html".data none
            ⟨[⟨"http://h/c".data, none⟩]⟩ 2], none, [], 3, some 5⟩
        ⟨URLManager.init "http://h".data, RateLimiter.init,
          ProxyManager.init [], false, 0, Stats.init⟩
        "http://h/p".data 2).2 := by
  constructor
  · exact ((C7_depth_propagation id).1 (URLManager.init "http://h".data)
      false none [] (ProxyManager.init []) "http://h/p".data 2 301
      "text/html".data "/t".data ⟨[]⟩ 1 [] 3 "http://h/t".data
      (by decide) (by decide) rfl (by decide) (by decide)).2
  · exact (C7_depth_propagation id).2
      ⟨[Resp.response 200 "text/html".data none
          ⟨[⟨"http://h/c".data, none⟩]⟩ 2], none, [], 3, some 5⟩
      ⟨URLManager.init "http://h".data, RateLimiter.init,
        ProxyManager.init [], false, 0, Stats.init⟩
      "http://h/p".data 2 "text/html".data
      ⟨[⟨"http://h/c".data, none⟩]⟩ 2 [] 5 RateLimiter.init
      ⟨"http://h/c".data, none⟩ rfl (by decide) rfl rfl
      (by decide) (by decide) (by decide)

/-- An occurrence in the tail is an occurrence. -/
theorem hasSub_cons_of_tail (sub : Str) (c : Char) (t : Str)
    (h : hasSub sub t = true) : hasSub sub (c :: t) = true := by
  simp [hasSub, h]

/-- An occurrence survives appending on the right. -/
theorem hasSub_append_left (sub l r : Str)
    (h : hasSub sub l = true) : hasSub sub (l ++ r) = true := by
  induction l with
  | nil =>
    simp only [hasSub, List.isEmpty_iff] at h
    subst h
    cases r with
    | nil => simp [hasSub]
    | cons a t => simp [hasSub, List.isPrefixOf]
  | cons c t ih =>
    simp only [hasSub, Bool.or_eq_true] at h
    rcases h with h | h
    · have hp : sub <+: (c :: t) := List.isPrefixOf_iff_prefix.mp h
      have hp2 : sub <+: c :: (t ++ r) := by
        have h3 := hp.trans (List.prefix_append (c :: t) r)
        simpa using h3
      simp only [List.cons_append, hasSub, Bool.or_eq_true]
      exact Or.inl (List.isPrefixOf_iff_prefix.mpr hp2)
    · exact hasSub_cons_of_tail sub c (t ++ r) (ih h)

/-- No occurrence in a list means none in its `dropLast`. -/
theorem hasSub_dropLast_eq_false (sub s : Str)
    (h : hasSub sub s = false) : hasSub sub s.dropLast = false := by
  by_contra hcon
  have h2 : hasSub sub s.dropLast = true := by
    cases hx : hasSub sub s.dropLast with
    | true => rfl
    | false => exact absurd hx hcon
  cases hs : s.getLast? with
  | none =>
    have : s = [] := by
      cases s with
      | nil => rfl
      | cons a t => simp [List.getLast?_eq_getLast] at hs
    subst this
    simp at h2
    rw [h2] at h
    simp at h
  | some a =>
    have hsplit : s.dropLast ++ [a] = s := List.dropLast_append_getLast? a hs
    have := hasSub_append_left sub s.dropLast [a] h2
    rw [hsplit] at this
    rw [this] at h
    simp at h

/-- Replacement with a no-longer replacement never grows the string. -/
theorem replaceAllF_length_le (pat rep : Str) (hrep : rep.length ≤ pat.length) :
    ∀ (fuel : Nat) (s : Str), (replaceAllF pat rep fuel s).length ≤ s.length := by
  intro fuel
  induction fuel with
  | zero => intro s; simp [replaceAllF]
  | succ f ih =>
    intro s
    cases s with
    | nil => simp [replaceAllF]
    | cons c t =>
      simp only [replaceAllF]
      split
      · rename_i hpre
        have hp : pat <+: (c :: t) := List.isPrefixOf_iff_prefix.mp hpre
        have hlen : pat.length ≤ (c :: t).length := hp.length_le
        have hrec := ih ((c :: t).drop pat.length)
        simp only [List.length_append, List.length_drop] at *
        omega
      · have hrec := ih t
        simp only [List.length_cons]
        omega

/-- Replacement of an occurring pattern by a strictly shorter string
strictly shrinks the string. -/
theorem replaceAll_length_lt (pat rep : Str) (hpat : pat ≠ [])
    (hrep : rep.length < pat.length) :
    ∀ (fuel : Nat) (s : Str), s.length ≤ fuel →
      hasSub pat s = true → (replaceAllF pat rep fuel s).length < s.length := by
  intro fuel
  induction fuel with
  | zero =>
    intro s hle h
    have : s = [] := List.length_eq_zero.mp (Nat.le_zero.mp hle)
    subst this
    simp [hasSub, List.isEmpty_iff] at h
    exact absurd h hpat
  | succ f ih =>
    intro s hle h
    cases s with
    | nil =>
      simp [hasSub, List.isEmpty_iff] at h
      exact absurd h hpat
    | cons c t =>
      simp only [replaceAllF]
      split
      · rename_i hpre
        have hp : pat <+: (c :: t) := List.isPrefixOf_iff_prefix.mp hpre
        have hlen : pat.length ≤ (c :: t).length := hp.length_le
        have hrec := replaceAllF_length_le pat rep
          (Nat.le_of_lt hrep) f ((c :: t).drop pat.length)
        simp only [List.length_append, List.length_drop] at *
        have hpat1 : 1 ≤ pat.length := by
          cases pat with
          | nil => exact absurd rfl hpat
          | cons a b => simp
        omega
      · rename_i hpre
        have ht : hasSub pat t = true := by
          simp only [hasSub, Bool.or_eq_true] at h
          rcases h with h | h
          · exact absurd h (by simpa using hpre)
          · exact h
        have hlt : t.length ≤ f := by
          simp only [List.length_cons] at hle
          omega
        have hrec := ih t hlt ht
        simp only [List.length_cons]
        omega

/-- The `while pat in s` loop reaches a pattern-free fixed point with
`s.length` fuel. -/
theorem whileReplaceF_no_sub (pat rep : Str) (hpat : pat ≠ [])
    (hrep : rep.length < pat.length) :
    ∀ (fuel : Nat) (s : Str), s.length ≤ fuel →
      hasSub pat (whileReplaceF pat rep fuel s) = false := by
  intro fuel
  induction fuel with
  | zero =>
    intro s hle
    have : s = [] := List.length_eq_zero.mp (Nat.le_zero.mp hle)
    subst this
    simp only [whileReplaceF]
    cases hx : hasSub pat [] with
    | true =>
      simp [hasSub, List.isEmpty_iff] at hx
      exact absurd hx hpat
    | false => simp [hx]
  | succ f ih =>
    intro s hle
    simp only [whileReplaceF]
    cases hx : hasSub pat s with
    | false => exact hx
    | true =>
      simp only [if_pos rfl]
      apply ih
      have hlt : (replaceAll pat rep s).length < s.length := by
        unfold replaceAll
        rw [if_neg (by simpa [List.isEmpty_iff] using hpat)]
        exact replaceAll_length_lt pat rep hpat hrep s.length s
          (Nat.le_refl _) hx
      omega

/-- The head character survives the `/../ → /` replacement. -/
theorem replaceAllF_dotdot_head (fuel : Nat) (s : Str) :
    (replaceAllF ['/', '.', '.', '/'] ['/'] fuel s).head? = s.head? := by
  cases fuel with
  | zero => rfl
  | succ f =>
    cases s with
    | nil => rfl
    | cons c t =>
      simp only [replaceAllF]
      split
      · rename_i hpre
        obtain ⟨u, hu⟩ := List.isPrefixOf_iff_prefix.mp hpre
        rw [show (['/', '.', '.', '/'] : Str) ++ u =
          '/' :: '.' :: '.' :: '/' :: u from rfl] at hu
        injection hu with hc ht
        simp [← hc]
      · simp

/-- If the `/../ → /` replacement result starts with `./`, so did its
input. -/
theorem replaceAllF_dotdot_dotslash (fuel : Nat) (u : Str)
    (h : List.isPrefixOf ['.', '/']
      (replaceAllF ['/', '.', '.', '/'] ['/'] fuel u) = true) :
    ∃ v, u = '.' :: '/' :: v := by
  cases fuel with
  | zero =>
    simp only [replaceAllF] at h
    obtain ⟨v, hv⟩ := List.isPrefixOf_iff_prefix.mp h
    exact ⟨v, hv.symm⟩
  | succ f =>
    cases u with
    | nil => simp [replaceAllF, List.isPrefixOf] at h
    | cons c t =>
      simp only [replaceAllF] at h
      split at h
      · rename_i hpre
        obtain ⟨w, hw⟩ := List.isPrefixOf_iff_prefix.mp hpre
        rw [show (['/', '.', '.', '/'] : Str) ++ w =
          '/' :: '.' :: '.' :: '/' :: w from rfl] at hw
        injection hw with hc ht
        subst ht
        rw [← hc] at h
        rw [show ((['/'] : Str) ++
          replaceAllF ['/', '.', '.', '/'] ['/'] f
            (('/' :: '.' :: '.' :: '/' :: w).drop
              (['/', '.', '.', '/'] : Str).length)) =
          '/' :: replaceAllF ['/', '.', '.', '/'] ['/'] f w
          from rfl] at h
        simp only [List.isPrefixOf] at h
        rw [show (('.' : Char) == '/') = false from by decide] at h
        simp at h
      · simp only [List.isPrefixOf] at h
        obtain ⟨hc, h2⟩ := Bool.and_eq_true_iff.mp h
        have hc2 : c = '.' := (beq_iff_eq.mp hc).symm
        have hhead := replaceAllF_dotdot_head f t
        cases hrt : replaceAllF ['/', '.', '.', '/'] ['/'] f t with
        | nil =>
          rw [hrt] at h2
          simp [List.isPrefixOf] at h2
        | cons a w =>
          rw [hrt] at h2 hhead
          simp only [List.isPrefixOf, Bool.and_eq_true_iff] at h2
          have ha : a = '/' := (beq_iff_eq.mp h2.1).symm
          cases t with
          | nil => simp at hhead
          | cons b t2 =>
            simp only [List.head?] at hhead
            have hb : b = '/' := by
              injection hhead with h3
              rw [← h3]
              exact ha
            exact ⟨t2, by rw [hc2, hb]⟩

/-- The `/../ → /` replacement never creates a `/./` occurrence. -/
theorem replaceAllF_dotdot_no_dotslash :
    ∀ (fuel : Nat) (s : Str), hasSub ['/', '.', '/'] s = false →
      hasSub ['/', '.', '/']
        (replaceAllF ['/', '.', '.', '/'] ['/'] fuel s) = false := by
  intro fuel
  induction fuel with
  | zero =>
    intro s h
    simpa [replaceAllF] using h
  | succ f ih =>
    intro s h
    cases s with
    | nil => simpa [replaceAllF] using h
    | cons c t =>
      simp only [replaceAllF]
      split
      · rename_i hpre
        obtain ⟨w, hw⟩ := List.isPrefixOf_iff_prefix.mp hpre
        rw [show (['/', '.', '.', '/'] : Str) ++ w =
          '/' :: '.' :: '.' :: '/' :: w from rfl] at hw
        injection hw with hc ht
        subst ht
        rw [← hc] at h ⊢
        rw [show ((['/'] : Str) ++
          replaceAllF ['/', '.', '.', '/'] ['/'] f
            (('/' :: '.' :: '.' :: '/' :: w).drop
              (['/', '.', '.', '/'] : Str).length)) =
          '/' :: replaceAllF ['/', '.', '.', '/'] ['/'] f w
          from rfl]
        have hw3 : hasSub ['/', '.', '/'] w = false := by
          simp only [hasSub, Bool.or_eq_false_iff] at h
          exact h.2.2.2.2
        have hrec := ih w hw3
        simp only [hasSub, Bool.or_eq_false_iff]
        refine ⟨?_, hrec⟩
        by_contra hcon
        have htrue : List.isPrefixOf ['/', '.', '/']
            ('/' :: replaceAllF ['/', '.', '.', '/'] ['/'] f w) =
            true := by
          cases hx : List.isPrefixOf ['/', '.', '/']
              ('/' :: replaceAllF ['/', '.', '.', '/'] ['/'] f w) with
          | true => rfl
          | false => exact absurd hx hcon
        simp only [List.isPrefixOf, beq_self_eq_true,
          Bool.true_and] at htrue
        obtain ⟨v, hv⟩ := replaceAllF_dotdot_dotslash f w htrue
        subst hv
        simp only [hasSub, Bool.or_eq_false_iff] at h
        have hd4 := h.2.2.2.1
        simp [List.isPrefixOf] at hd4
      · rename_i hpre
        have h1 : List.isPrefixOf ['/', '.', '/'] (c :: t) = false := by
          simp only [hasSub, Bool.or_eq_false_iff] at h
          exact h.1
        have h2 : hasSub ['/', '.', '/'] t = false := by
          simp only [hasSub, Bool.or_eq_false_iff] at h
          exact h.2
        have hrec := ih t h2
        simp only [hasSub, Bool.or_eq_false_iff]
        refine ⟨?_, hrec⟩
        by_contra hcon
        have htrue : List.isPrefixOf ['/', '.', '/']
            (c :: replaceAllF ['/', '.', '.', '/'] ['/'] f t) =
            true := by
          cases hx : List.isPrefixOf ['/', '.', '/']
              (c :: replaceAllF ['/', '.', '.', '/'] ['/'] f t) with
          | true => rfl
          | false => exact absurd hx hcon
        simp only [List.isPrefixOf, Bool.and_eq_true_iff] at htrue
        obtain ⟨hceq, htrue2⟩ := htrue
        have hc2 : c = '/' := (beq_iff_eq.mp hceq).symm
        obtain ⟨v, hv⟩ := replaceAllF_dotdot_dotslash f t htrue2
        subst hv
        rw [hc2] at h1
        simp [List.isPrefixOf] at h1

/-- The whole `while '/../' in path` loop never creates a `/./`
occurrence. -/
theorem whileReplaceF_dotdot_no_dotslash :
    ∀ (fuel : Nat) (s : Str), hasSub "/./".data s = false →
      hasSub "/./".data
        (whileReplaceF "/../".data "/".data fuel s) = false := by
  intro fuel
  induction fuel with
  | zero => intro s h; exact h
  | succ f ih =>
    intro s h
    simp only [whileReplaceF]
    split
    · refine ih _ ?_
      show hasSub ['/', '.', '/'] (replaceAll "/../".data "/".data s) =
        false
      unfold replaceAll
      rw [if_neg (by decide)]
      exact replaceAllF_dotdot_no_dotslash s.length s h
    · exact h

/-- The processed path of `normalize_url` contains neither `/./` nor
`/../` as a substring. -/
theorem processPath_no_dots (p : Str) :
    hasSub "/./".data (processPath p) = false ∧
    hasSub "/../".data (processPath p) = false := by
  have h1 : hasSub "/./".data
      (whileReplaceF "/./".data "/".data p.length p) = false :=
    whileReplaceF_no_sub "/./".data "/".data (by decide) (by decide)
      p.length p (Nat.le_refl _)
  set p1 := whileReplaceF "/./".data "/".data p.length p with hp1
  have h2 : hasSub "/../".data
      (whileReplaceF "/../".data "/".data p1.length p1) = false :=
    whileReplaceF_no_sub "/../".data "/".data (by decide) (by decide)
      p1.length p1 (Nat.le_refl _)
  have h3 : hasSub "/./".data
      (whileReplaceF "/../".data "/".data p1.length p1) = false :=
    whileReplaceF_dotdot_no_dotslash p1.length p1 h1
  have hcd : collapseDots p =
      whileReplaceF "/../".data "/".data p1.length p1 := rfl
  unfold processPath
  rw [hcd]
  dsimp only
  split
  · exact ⟨hasSub_dropLast_eq_false _ _ h3,
      hasSub_dropLast_eq_false _ _ h2⟩
  · exact ⟨h3, h2⟩

/-- C3 amended: `normalize_url` removes `.` and `..` path segments
only textually — each `/./` and `/../` substring collapses to `/`, so
the processed path contains neither substring, but a `..` does not
drop the preceding segment: `http://host/a/../b` normalises to path
`/a/b`, not `/b`. -/
theorem C3_dot_segments_textual_collapse :
    (∀ p : Str, hasSub "/./".data (processPath p) = false ∧
      hasSub "/../".data (processPath p) = false) ∧
    normalize_url "http://host/a/../b" = "http://host/a/b" := by
  exact ⟨processPath_no_dots, rfl⟩

/-! ## Towards C5: idempotence of `normalize_url` on the stable class -/

/-- `normalizeE` factored through `netlocProcessE`. -/
theorem normalizeE_as_netlocProcess (important : List Str) (url : Str) :
    normalizeE important url =
      match pyUrlparse url with
      | Except.error e => Except.error e
      | Except.ok parsed =>
        match netlocProcessE (lower parsed.scheme) parsed.netloc with
        | Except.error e => Except.error e
        | Except.ok netloc =>
          Except.ok (urlunparse (lower parsed.scheme) netloc
            (processPath parsed.path) parsed.params
            (urlencode (List.insertionSort itemLt
              ((parse_qs parsed.query).filter
                (fun kv => important.contains kv.1)))) []) := by
  unfold normalizeE netlocProcessE
  cases pyUrlparse url with
  | error e => rfl
  | ok parsed =>
    simp only [bind, Except.bind]
    cases pyPort parsed.netloc with
    | error e =>
      split
      · rfl
      · split
        · rfl
        · rfl
    | ok p =>
      split
      · by_cases h2 : p = some 80
        · simp only [h2, if_pos]; rfl
        · simp only [h2, if_neg, ite_false]; rfl
      · split
        · by_cases h3 : p = some 443
          · simp only [h3, if_pos]; rfl
          · simp only [h3, if_neg, ite_false]; rfl
        · rfl

/-- Decomposition given by a successful `splitFirst`. -/
theorem splitFirst_eq_of (c : Char) :
    ∀ s x y, splitFirst c s = some (x, y) → s = x ++ c :: y ∧ c ∉ x := by
  intro s
  induction s with
  | nil => intro x y h; simp [splitFirst] at h
  | cons a t ih =>
    intro x y h
    unfold splitFirst at h
    by_cases hac : a = c
    · rw [if_pos hac] at h
      simp only [Option.some.injEq, Prod.mk.injEq] at h
      obtain ⟨hx, hy⟩ := h
      subst hac
      cases hx
      cases hy
      exact ⟨rfl, by simp⟩
    · rw [if_neg hac] at h
      cases hsp : splitFirst c t with
      | none => rw [hsp] at h; exact absurd h (by simp)
      | some p =>
        rw [hsp] at h
        obtain ⟨x', y'⟩ := p
        simp only [Option.some.injEq, Prod.mk.injEq] at h
        obtain ⟨hx, hy⟩ := h
        obtain ⟨ht, hnx⟩ := ih x' y' hsp
        subst hy
        rw [← hx]
        constructor
        · rw [ht]; rfl
        · intro hmem
          rcases List.mem_cons.mp hmem with h | h
          · exact hac h.symm
          · exact hnx h

/-- `splitFirst` misses exactly when the character is absent. -/
theorem splitFirst_eq_none (c : Char) :
    ∀ s, c ∉ s → splitFirst c s = none := by
  intro s
  induction s with
  | nil => intro _; rfl
  | cons a t ih =>
    intro h
    unfold splitFirst
    rw [if_neg (fun hac => h (by rw [← hac]; exact List.mem_cons_self a t)),
      ih (fun hm => h (List.mem_cons_of_mem a hm))]

/-- `splitFirst` at an explicit first occurrence. -/
theorem splitFirst_append_cons (c : Char) :
    ∀ x y, c ∉ x → splitFirst c (x ++ c :: y) = some (x, y) := by
  intro x
  induction x with
  | nil => intro y _; simp [splitFirst]
  | cons a t ih =>
    intro y h
    have hac : ¬ a = c :=
      fun hac => h (by rw [← hac]; exact List.mem_cons_self a t)
    simp only [List.cons_append]
    unfold splitFirst
    rw [if_neg hac, ih y (fun hm => h (List.mem_cons_of_mem a hm))]

/-- A `splitFirst` hit extends over an appended tail. -/
theorem splitFirst_append_of_some (c : Char) (s t x y : Str)
    (h : splitFirst c s = some (x, y)) :
    splitFirst c (s ++ t) = some (x, y ++ t) := by
  obtain ⟨hs, hnx⟩ := splitFirst_eq_of c s x y h
  rw [hs, List.append_assoc, List.cons_append]
  exact splitFirst_append_cons c x (y ++ t) hnx

/-- `hasChar` is membership. -/
theorem hasChar_iff (c : Char) (s : Str) : hasChar c s = true ↔ c ∈ s := by
  unfold hasChar
  exact List.elem_iff

/-- `hasChar` is membership, negative form. -/
theorem hasChar_eq_false_iff (c : Char) (s : Str) :
    hasChar c s = false ↔ c ∉ s := by
  rw [← Bool.not_eq_true, not_iff_not]
  exact hasChar_iff c s

/-- Character equality seen on code points. -/
theorem charEq_iff (a b : Char) : a = b ↔ a.val.toNat = b.val.toNat := by
  rw [Char.ext_iff, UInt32.ext_iff]

/-- Character order seen on code points. -/
theorem charLe_iff (a b : Char) : a ≤ b ↔ a.val.toNat ≤ b.val.toNat := by
  rw [Char.le_def, UInt32.le_def, BitVec.le_def]
  rfl

/-- `Char.ofNat` below the surrogate range keeps its code point. -/
theorem charOfNat_toNat {n : Nat} (h : n < 55296) :
    (Char.ofNat n).val.toNat = n := by
  unfold Char.ofNat
  rw [dif_pos (Or.inl h)]
  rfl

/-- `lowerChar` either fixes the character or shifts an ASCII capital
down by 32. -/
theorem lowerChar_spec (c : Char) :
    (¬ (65 ≤ c.val.toNat ∧ c.val.toNat ≤ 90) ∧ lowerChar c = c) ∨
    (65 ≤ c.val.toNat ∧ c.val.toNat ≤ 90 ∧
      (lowerChar c).val.toNat = c.val.toNat + 32) := by
  have hct : c.toNat = c.val.toNat := rfl
  unfold lowerChar Char.toLower
  dsimp only
  by_cases h : c.toNat ≥ 65 ∧ c.toNat ≤ 90
  · have h' : 65 ≤ c.val.toNat ∧ c.val.toNat ≤ 90 := h
    right
    refine ⟨h'.1, h'.2, ?_⟩
    rw [if_pos h]
    have hv := charOfNat_toNat (n := c.toNat + 32) (by omega)
    omega
  · left
    exact ⟨fun hc => h ⟨hc.1, hc.2⟩, by rw [if_neg h]⟩

/-- ASCII lowercasing is idempotent per character. -/
theorem lowerChar_idem (c : Char) : lowerChar (lowerChar c) = lowerChar c := by
  rcases lowerChar_spec c with ⟨_, h⟩ | ⟨h1, h2, h3⟩
  · rw [h, h]
  · rcases lowerChar_spec (lowerChar c) with ⟨_, h'⟩ | ⟨h1', h2', _⟩
    · exact h'
    · omega

/-- ASCII lowercasing is idempotent. -/
theorem lower_idem (s : Str) : lower (lower s) = lower s := by
  unfold lower
  rw [List.map_map]
  exact List.map_congr_left (fun c _ => lowerChar_idem c)

/-- `lowerChar` preserves ASCII-alphabetic-ness. -/
theorem isAsciiAlpha_lowerChar (c : Char) :
    isAsciiAlpha (lowerChar c) = isAsciiAlpha c := by
  rcases lowerChar_spec c with ⟨_, h⟩ | ⟨h1, h2, h3⟩
  · rw [h]
  · apply Bool.eq_iff_iff.mpr
    unfold isAsciiAlpha
    simp only [Bool.or_eq_true, Bool.and_eq_true, decide_eq_true_eq,
      charLe_iff]
    have ha : ('a' : Char).val.toNat = 97 := rfl
    have hz : ('z' : Char).val.toNat = 122 := rfl
    have hA : ('A' : Char).val.toNat = 65 := rfl
    have hZ : ('Z' : Char).val.toNat = 90 := rfl
    rw [ha, hA, hz, hZ, h3]
    omega

/-- `lowerChar` preserves membership in `scheme_chars`. -/
theorem isSchemeChar_lowerChar (c : Char) :
    isSchemeChar (lowerChar c) = isSchemeChar c := by
  rcases lowerChar_spec c with ⟨_, h⟩ | ⟨h1, h2, h3⟩
  · rw [h]
  · apply Bool.eq_iff_iff.mpr
    unfold isSchemeChar isAsciiAlpha isAsciiDigit
    simp only [Bool.or_eq_true, Bool.and_eq_true, decide_eq_true_eq,
      charLe_iff, charEq_iff]
    have ha : ('a' : Char).val.toNat = 97 := rfl
    have hz : ('z' : Char).val.toNat = 122 := rfl
    have hA : ('A' : Char).val.toNat = 65 := rfl
    have hZ : ('Z' : Char).val.toNat = 90 := rfl
    have h0 : ('0' : Char).val.toNat = 48 := rfl
    have h9 : ('9' : Char).val.toNat = 57 := rfl
    have hp : ('+' : Char).val.toNat = 43 := rfl
    have hm : ('-' : Char).val.toNat = 45 := rfl
    have hd : ('.' : Char).val.toNat = 46 := rfl
    rw [ha, hA, hz, hZ, h0, h9, hp, hm, hd, h3]
    omega

/-- For a target below code point 65, `lowerChar c` hits it exactly
when `c` does. -/
theorem lowerChar_eq_low {d : Char} (hd : d.val.toNat < 65) (c : Char) :
    (lowerChar c = d) ↔ c = d := by
  rcases lowerChar_spec c with ⟨_, h⟩ | ⟨h1, h2, h3⟩
  · rw [h]
  · rw [charEq_iff, charEq_iff]
    omega

/-- Characters of a `replaceAllF` image come from the string or the
replacement. -/
theorem mem_replaceAllF (pat rep : Str) :
    ∀ fuel s c, c ∈ replaceAllF pat rep fuel s → c ∈ s ∨ c ∈ rep := by
  intro fuel
  induction fuel with
  | zero => intro s c h; exact Or.inl h
  | succ n ih =>
    intro s c h
    cases s with
    | nil => exact absurd h (by simp [replaceAllF])
    | cons a t =>
      unfold replaceAllF at h
      by_cases hpre : pat.isPrefixOf (a :: t)
      · rw [if_pos hpre] at h
        rcases List.mem_append.mp h with h1 | h1
        · exact Or.inr h1
        · rcases ih _ c h1 with h2 | h2
          · exact Or.inl (List.mem_of_mem_drop h2)
          · exact Or.inr h2
      · rw [if_neg hpre] at h
        rcases List.mem_cons.mp h with h1 | h1
        · exact Or.inl (h1 ▸ List.mem_cons_self a t)
        · rcases ih t c h1 with h2 | h2
          · exact Or.inl (List.mem_cons_of_mem a h2)
          · exact Or.inr h2

/-- Characters of a `replaceAll` image come from the string or the
replacement. -/
theorem mem_replaceAll (pat rep s : Str) (c : Char)
    (h : c ∈ replaceAll pat rep s) : c ∈ s ∨ c ∈ rep := by
  unfold replaceAll at h
  by_cases hp : pat.isEmpty
  · rw [if_pos hp] at h; exact Or.inl h
  · rw [if_neg hp] at h; exact mem_replaceAllF pat rep s.length s c h

/-- Characters of a `whileReplaceF` image come from the string or the
replacement. -/
theorem mem_whileReplaceF (pat rep : Str) :
    ∀ fuel s c, c ∈ whileReplaceF pat rep fuel s → c ∈ s ∨ c ∈ rep := by
  intro fuel
  induction fuel with
  | zero => intro s c h; exact Or.inl h
  | succ n ih =>
    intro s c h
    unfold whileReplaceF at h
    by_cases hs : hasSub pat s = true
    · rw [if_pos hs] at h
      rcases ih _ c h with h1 | h1
      · rcases mem_replaceAll pat rep s c h1 with h2 | h2
        · exact Or.inl h2
        · exact Or.inr h2
      · exact Or.inr h1
    · rw [if_neg hs] at h; exact Or.inl h

/-- Characters of the dot-collapsed path come from the path or are a
slash. -/
theorem mem_collapseDots (p : Str) (c : Char)
    (h : c ∈ collapseDots p) : c ∈ p ∨ c = '/' := by
  unfold collapseDots at h
  dsimp only at h
  rcases mem_whileReplaceF _ _ _ _ c h with h1 | h1
  · rcases mem_whileReplaceF _ _ _ _ c h1 with h2 | h2
    · exact Or.inl h2
    · exact Or.inr (List.mem_singleton.mp h2)
  · exact Or.inr (List.mem_singleton.mp h1)

/-- Characters of the processed path come from the path or are a
slash. -/
theorem mem_processPath (p : Str) (c : Char)
    (h : c ∈ processPath p) : c ∈ p ∨ c = '/' := by
  unfold processPath at h
  dsimp only at h
  split at h
  · exact mem_collapseDots p c (List.mem_of_mem_dropLast h)
  · exact mem_collapseDots p c h

/-- `removeChar` is the identity when the character is absent. -/
theorem removeChar_eq_self (c : Char) (s : Str) (h : c ∉ s) :
    removeChar c s = s := by
  unfold removeChar
  apply List.filter_eq_self.mpr
  intro a ha
  simp only [ne_eq, decide_eq_true_eq]
  exact fun hac => h (hac ▸ ha)

/-- The tab/CR/LF scrub is the identity on strings without them. -/
theorem scrubUnsafe_eq_self (s : Str) (h1 : '\x09' ∉ s) (h2 : '\x0d' ∉ s)
    (h3 : '\x0a' ∉ s) : scrubUnsafe s = s := by
  unfold scrubUnsafe
  rw [removeChar_eq_self _ _ h1, removeChar_eq_self _ _ h2,
    removeChar_eq_self _ _ h3]

/-- Characters survive `removeChar` only if present before. -/
theorem mem_removeChar (c a : Char) (s : Str)
    (h : a ∈ removeChar c s) : a ∈ s := List.mem_of_mem_filter h

/-- `lstripC0` is the identity when the head is not strippable. -/
theorem lstripC0_eq_self (s : Str)
    (h : s = [] ∨ isC0OrSpace (s.headD '?') = false) : lstripC0 s = s := by
  unfold lstripC0
  rcases h with h | h
  · rw [h]; rfl
  · cases s with
    | nil => rfl
    | cons a t =>
      rw [List.dropWhile_cons, if_neg (by simp_all)]

/-- `takeWhile`/`dropWhile` on a concatenation that switches exactly at
the boundary. -/
theorem takeWhile_dropWhile_append (p : Char → Bool) :
    ∀ x y, x.all p → (y = [] ∨ p (y.headD '?') = false) →
      (x ++ y).takeWhile p = x ∧ (x ++ y).dropWhile p = y := by
  intro x
  induction x with
  | nil =>
    intro y _ hy
    rcases hy with hy | hy
    · rw [hy]; exact ⟨rfl, rfl⟩
    · cases y with
      | nil => exact ⟨rfl, rfl⟩
      | cons b u =>
        simp only [List.headD_cons] at hy
        constructor
        · rw [List.nil_append, List.takeWhile_cons, if_neg (by simp [hy])]
        · rw [List.nil_append, List.dropWhile_cons, if_neg (by simp [hy])]
  | cons a t ih =>
    intro y hx hy
    simp only [List.all_cons, Bool.and_eq_true] at hx
    obtain ⟨ha, ht⟩ := hx
    obtain ⟨ih1, ih2⟩ := ih y ht hy
    constructor
    · rw [List.cons_append, List.takeWhile_cons, if_pos ha, ih1]
    · rw [List.cons_append, List.dropWhile_cons, if_pos ha, ih2]

/-- Head preservation for one `replaceAll` pass with a slash-headed
pattern and replacement `/`. -/
theorem replaceAllF_head_slash (pat : Str) (pt : Str)
    (hpat : pat = '/' :: pt) (fuel : Nat) (s : Str) :
    (replaceAllF pat ['/'] fuel s).head? = s.head? := by
  cases fuel with
  | zero => rfl
  | succ f =>
    cases s with
    | nil => rfl
    | cons c t =>
      simp only [replaceAllF]
      split
      · rename_i hpre
        have hpre' := List.isPrefixOf_iff_prefix.mp hpre
        obtain ⟨u, hu⟩ := hpre'
        rw [hpat] at hu
        simp only [List.cons_append] at hu
        have hc : c = '/' := by
          have := congrArg List.head? hu
          simpa using this.symm
        simp [hc]
      · rfl

/-- Head preservation for the replace loop with a slash-headed
pattern. -/
theorem whileReplaceF_head_slash (pat : Str) (pt : Str)
    (hpat : pat = '/' :: pt) :
    ∀ (fuel : Nat) (s : Str),
      (whileReplaceF pat ['/'] fuel s).head? = s.head? := by
  intro fuel
  induction fuel with
  | zero => intro s; rfl
  | succ f ih =>
    intro s
    unfold whileReplaceF
    split
    · rw [ih]
      unfold replaceAll
      rw [if_neg (by simp [hpat])]
      exact replaceAllF_head_slash pat pt hpat s.length s
    · rfl

/-- Dot collapsing preserves the head of the path. -/
theorem collapseDots_head (p : Str) : (collapseDots p).head? = p.head? := by
  unfold collapseDots
  dsimp only
  rw [whileReplaceF_head_slash "/../".data "../".data rfl,
    whileReplaceF_head_slash "/./".data "./".data rfl]

/-- A list of length at least two keeps its head under `dropLast`. -/
theorem dropLast_head_of_two {l : Str} (h : 2 ≤ l.length) :
    l.dropLast.head? = l.head? := by
  match l, h with
  | a :: b :: t, _ => rw [List.dropLast_cons₂]; rfl

/-- Path processing preserves the head of the path. -/
theorem processPath_head (p : Str) : (processPath p).head? = p.head? := by
  unfold processPath
  dsimp only
  split
  · rename_i hc
    obtain ⟨hne, hlast⟩ := hc
    rw [← collapseDots_head p]
    apply dropLast_head_of_two
    obtain ⟨ys, hys⟩ := List.getLast?_eq_some_iff.mp hlast
    cases ys with
    | nil => exact absurd hys hne
    | cons a u => rw [hys]; simp
  · exact collapseDots_head p

/-- Path processing sends only the empty path to the empty path. -/
theorem processPath_eq_nil_iff (p : Str) : processPath p = [] ↔ p = [] := by
  constructor
  · intro h
    have := processPath_head p
    rw [h] at this
    cases p with
    | nil => rfl
    | cons a t => simp at this
  · intro h
    subst h
    rfl

/-- A colon split of a `replaceAll` image (slash replacement) is still
scheme-blocked. -/
theorem schemeBlocked_replaceAllF (pat : Str) :
    ∀ (fuel : Nat) (s : Str), schemeBlocked s →
      schemeBlocked (replaceAllF pat ['/'] fuel s) := by
  intro fuel
  induction fuel with
  | zero => intro s h; exact h
  | succ f ih =>
    intro s hs x y hxy
    cases s with
    | nil =>
      rw [show replaceAllF pat ['/'] (f + 1) [] = [] from rfl] at hxy
      exact absurd (congrArg List.length hxy) (by simp; omega)
    | cons a t =>
      unfold replaceAllF at hxy
      split at hxy
      · cases x with
        | nil =>
          exfalso
          have := congrArg List.head? hxy
          simp at this
        | cons x0 x' =>
          have hx0 : x0 = '/' := by
            have := congrArg List.head? hxy
            simpa using this.symm
          exact ⟨'/', by rw [hx0] at *; exact List.mem_cons_self .., by decide⟩
      · cases x with
        | nil =>
          exfalso
          have ha : a = ':' := by
            have := congrArg List.head? hxy
            simpa using this
          obtain ⟨c, hc, _⟩ := hs [] t (by rw [ha]; rfl)
          exact absurd hc (List.not_mem_nil c)
        | cons x0 x' =>
          have hx0 : x0 = a := by
            have := congrArg List.head? hxy
            simpa using this.symm
          subst hx0
          have hxy' : replaceAllF pat ['/'] f t = x' ++ ':' :: y := by
            have := congrArg List.tail hxy
            simpa using this
          by_cases hsc : isSchemeChar x0 = false
          · exact ⟨x0, List.mem_cons_self .., hsc⟩
          · have htg : schemeBlocked t := by
              intro x2 y2 ht
              obtain ⟨c, hc, hcs⟩ := hs (x0 :: x2) y2 (by rw [ht]; rfl)
              rcases List.mem_cons.mp hc with h1 | h1
              · exact absurd (h1 ▸ hcs) (by simpa using hsc)
              · exact ⟨c, h1, hcs⟩
            obtain ⟨c, hc, hcs⟩ := ih t htg x' y hxy'
            exact ⟨c, List.mem_cons_of_mem x0 hc, hcs⟩

/-- `schemeBlocked` transfers to prefixes. -/
theorem schemeBlocked_of_isPrefix {s s' : Str} (hp : s' <+: s)
    (h : schemeBlocked s) : schemeBlocked s' := by
  intro x y hxy
  obtain ⟨rest, hr⟩ := hp
  exact h x (y ++ rest) (by rw [← hr, hxy, List.append_assoc]; rfl)

/-- `schemeBlocked` survives `replaceAll` with replacement `/`. -/
theorem schemeBlocked_replaceAll (pat : Str) (s : Str)
    (h : schemeBlocked s) : schemeBlocked (replaceAll pat ['/'] s) := by
  unfold replaceAll
  split
  · exact h
  · exact schemeBlocked_replaceAllF pat s.length s h

/-- `schemeBlocked` survives the replace loop with replacement `/`. -/
theorem schemeBlocked_whileReplaceF (pat : Str) :
    ∀ (fuel : Nat) (s : Str), schemeBlocked s →
      schemeBlocked (whileReplaceF pat ['/'] fuel s) := by
  intro fuel
  induction fuel with
  | zero => intro s h; exact h
  | succ f ih =>
    intro s h
    unfold whileReplaceF
    split
    · exact ih _ (schemeBlocked_replaceAll pat s h)
    · exact h

/-- `schemeBlocked` survives path processing. -/
theorem schemeBlocked_processPath (p : Str) (h : schemeBlocked p) :
    schemeBlocked (processPath p) := by
  have h1 : schemeBlocked (collapseDots p) := by
    unfold collapseDots
    dsimp only
    exact schemeBlocked_whileReplaceF _ _ _
      (schemeBlocked_whileReplaceF _ _ _ h)
  unfold processPath
  dsimp only
  split
  · exact schemeBlocked_of_isPrefix (List.dropLast_prefix _) h1
  · exact h1

/-- A first-colon split whose scheme candidate contains a non-scheme
character blocks every colon split. -/
theorem schemeBlocked_of_splitFirst :
    ∀ (p b r : Str), splitFirst ':' p = some (b, r) →
      (∃ c ∈ b, isSchemeChar c = false) → schemeBlocked p := by
  intro p
  induction p with
  | nil => intro b r h; simp [splitFirst] at h
  | cons a t ih =>
    intro b r hsp hb x y hxy
    unfold splitFirst at hsp
    by_cases hac : a = ':'
    · rw [if_pos hac] at hsp
      simp only [Option.some.injEq, Prod.mk.injEq] at hsp
      obtain ⟨hb', _⟩ := hsp
      rw [← hb'] at hb
      exact absurd hb (by simp)
    · rw [if_neg hac] at hsp
      cases hsp' : splitFirst ':' t with
      | none => rw [hsp'] at hsp; exact absurd hsp (by simp)
      | some pr =>
        obtain ⟨b', r'⟩ := pr
        rw [hsp'] at hsp
        simp only [Option.some.injEq, Prod.mk.injEq] at hsp
        obtain ⟨hbb, hrr⟩ := hsp
        cases x with
        | nil =>
          exfalso
          exact hac (by have := congrArg List.head? hxy; simpa using this)
        | cons x0 x' =>
          have hx0 : x0 = a := by
            have := congrArg List.head? hxy
            simpa using this.symm
          subst hx0
          have hxy' : t = x' ++ ':' :: y := by
            have := congrArg List.tail hxy
            simpa using this
          rw [← hbb] at hb
          rcases hb with ⟨c, hc, hcs⟩
          rcases List.mem_cons.mp hc with h1 | h1
          · exact ⟨x0, List.mem_cons_self .., h1 ▸ hcs⟩
          · obtain ⟨c2, hc2, hcs2⟩ :=
              ih b' r' hsp' ⟨c, h1, hcs⟩ x' y hxy'
            exact ⟨c2, List.mem_cons_of_mem x0 hc2, hcs2⟩

/-- Unless the dot-collapsed path ends in `//`, the processed path is
`/` or does not end in a slash. -/
theorem processPath_getLast (p : Str)
    (h : List.isSuffixOf "//".data (collapseDots p) = false) :
    processPath p = "/".data ∨ (processPath p).getLast? ≠ some '/' := by
  unfold processPath
  dsimp only
  split
  · rename_i hc
    obtain ⟨hne, hlast⟩ := hc
    right
    intro hdl
    obtain ⟨ys, hys⟩ := List.getLast?_eq_some_iff.mp hlast
    obtain ⟨zs, hzs⟩ := List.getLast?_eq_some_iff.mp hdl
    rw [hys, List.dropLast_append_of_ne_nil, List.dropLast_single,
      List.append_nil] at hzs
    · rw [hzs, List.append_assoc] at hys
      have : List.isSuffixOf "//".data (collapseDots p) = true :=
        List.isSuffixOf_iff_suffix.mpr ⟨zs, hys.symm⟩
      rw [this] at h
      exact absurd h (by simp)
    · simp
  · rename_i hc
    by_cases hone : collapseDots p = "/".data
    · exact Or.inl hone
    · right
      intro hlast
      exact hc ⟨hone, hlast⟩

/-- The replace loop is the identity when the pattern is absent. -/
theorem whileReplaceF_noop (pat rep : Str) (fuel : Nat) (s : Str)
    (h : hasSub pat s = false) : whileReplaceF pat rep fuel s = s := by
  cases fuel with
  | zero => rfl
  | succ f =>
    unfold whileReplaceF
    rw [if_neg (by rw [h]; exact Bool.false_ne_true)]

/-- Dot collapsing is the identity on dot-free paths. -/
theorem collapseDots_noop (p : Str) (h1 : hasSub "/./".data p = false)
    (h2 : hasSub "/../".data p = false) : collapseDots p = p := by
  unfold collapseDots
  dsimp only
  rw [whileReplaceF_noop _ _ _ _ h1, whileReplaceF_noop _ _ _ _ h2]

/-- Path processing is the identity on dot-free paths that are `/` or
do not end in a slash. -/
theorem processPath_fix (p : Str) (h1 : hasSub "/./".data p = false)
    (h2 : hasSub "/../".data p = false)
    (h3 : p = "/".data ∨ p.getLast? ≠ some '/') : processPath p = p := by
  unfold processPath
  dsimp only
  rw [collapseDots_noop p h1 h2]
  rcases h3 with h3 | h3
  · rw [if_neg (fun hc => hc.1 h3)]
  · rw [if_neg (fun hc => h3 hc.2)]

/-- A pattern occurs in `'/' :: p` only as a prefix or inside `p`. -/
theorem hasSub_slash_cons (pat : Str) (p : Str)
    (h1 : hasSub pat p = false)
    (h2 : List.isPrefixOf pat ('/' :: p) = false) :
    hasSub pat ('/' :: p) = false := by
  unfold hasSub
  rw [h1, h2]
  rfl

/-- A character's code point is a valid scalar value. -/
theorem charValid_toNat (c : Char) :
    c.val.toNat < 55296 ∨ (57343 < c.val.toNat ∧ c.val.toNat < 1114112) := by
  rcases c.valid with h | ⟨h1, h2⟩
  · exact Or.inl h
  · exact Or.inr ⟨h1, h2⟩

/-- `Char.ofNat` on any valid scalar value keeps its code point. -/
theorem charOfNat_toNat_valid {n : Nat} (h : n.isValidChar) :
    (Char.ofNat n).val.toNat = n := by
  unfold Char.ofNat
  rw [dif_pos h]
  rfl

/-- `Char.ofNat` inverts `Char.val`. -/
theorem charOfNat_self (c : Char) : Char.ofNat c.val.toNat = c := by
  apply (charEq_iff ..).mpr
  apply charOfNat_toNat_valid
  rcases charValid_toNat c with h | ⟨h1, h2⟩
  · exact Or.inl h
  · exact Or.inr ⟨h1, h2⟩

/-- Decoder step: ASCII byte. -/
theorem decodeF_step_ascii (f b : Nat) (t : List Nat) (h : b ≤ 0x7F) :
    utf8DecodeReplaceF (f + 1) (b :: t) =
      Char.ofNat b :: utf8DecodeReplaceF f t := by
  conv_lhs => unfold utf8DecodeReplaceF
  rw [if_pos h]

/-- Decoder step: two-byte sequence. -/
theorem decodeF_step_two (f b b2 : Nat) (t : List Nat)
    (h1 : 0xC2 ≤ b) (h2 : b ≤ 0xDF) (h3 : isContByte b2 = true) :
    utf8DecodeReplaceF (f + 1) (b :: b2 :: t) =
      Char.ofNat ((b - 0xC0) * 64 + (b2 - 0x80)) ::
        utf8DecodeReplaceF f t := by
  conv_lhs => unfold utf8DecodeReplaceF
  rw [if_neg (by omega)]
  rw [if_pos (by simp only [Bool.and_eq_true, decide_eq_true_eq]
                 exact ⟨h1, h2⟩)]
  dsimp only
  rw [if_pos h3]

/-- Decoder step: three-byte sequence. -/
theorem decodeF_step_three (f b b2 b3 : Nat) (t : List Nat)
    (h1 : 0xE0 ≤ b) (h2 : b ≤ 0xEF) (h3 : cont2lo b ≤ b2)
    (h4 : b2 ≤ cont2hi b) (h5 : isContByte b3 = true) :
    utf8DecodeReplaceF (f + 1) (b :: b2 :: b3 :: t) =
      Char.ofNat ((b - 0xE0) * 4096 + (b2 - 0x80) * 64 + (b3 - 0x80)) ::
        utf8DecodeReplaceF f t := by
  conv_lhs => unfold utf8DecodeReplaceF
  rw [if_neg (by omega)]
  rw [if_neg (by simp only [Bool.and_eq_true, decide_eq_true_eq]
                 exact fun hc => by omega)]
  rw [if_pos (by simp only [Bool.and_eq_true, decide_eq_true_eq]
                 exact ⟨h1, h2⟩)]
  dsimp only
  rw [if_pos (by simp only [Bool.and_eq_true, decide_eq_true_eq]
                 exact ⟨h3, h4⟩)]
  rw [if_pos h5]

/-- Decoder step: four-byte sequence. -/
theorem decodeF_step_four (f b b2 b3 b4 : Nat) (t : List Nat)
    (h1 : 0xF0 ≤ b) (h2 : b ≤ 0xF4) (h3 : cont2lo b ≤ b2)
    (h4 : b2 ≤ cont2hi b) (h5 : isContByte b3 = true)
    (h6 : isContByte b4 = true) :
    utf8DecodeReplaceF (f + 1) (b :: b2 :: b3 :: b4 :: t) =
      Char.ofNat ((b - 0xF0) * 262144 + (b2 - 0x80) * 4096 +
        (b3 - 0x80) * 64 + (b4 - 0x80)) :: utf8DecodeReplaceF f t := by
  conv_lhs => unfold utf8DecodeReplaceF
  rw [if_neg (by omega)]
  rw [if_neg (by simp only [Bool.and_eq_true, decide_eq_true_eq]
                 exact fun hc => by omega)]
  rw [if_neg (by simp only [Bool.and_eq_true, decide_eq_true_eq]
                 exact fun hc => by omega)]
  rw [if_pos (by simp only [Bool.and_eq_true, decide_eq_true_eq]
                 exact ⟨h1, h2⟩)]
  dsimp only
  rw [if_pos (by simp only [Bool.and_eq_true, decide_eq_true_eq]
                 exact ⟨h3, h4⟩)]
  rw [if_pos h5]
  try dsimp only
  rw [if_pos h6]

/-- Decoding one encoded character off the front of a byte stream. -/
theorem utf8DecodeReplaceF_encodeChar (c : Char) (B : List Nat) (f : Nat) :
    utf8DecodeReplaceF (f + 1) (utf8EncodeChar c ++ B) =
      c :: utf8DecodeReplaceF f B := by
  have hvalid := charValid_toNat c
  unfold utf8EncodeChar
  dsimp only
  by_cases h1 : c.val.toNat < 0x80
  · rw [if_pos h1]
    simp only [List.cons_append, List.nil_append]
    rw [decodeF_step_ascii f _ B (by omega)]
    rw [show Char.ofNat c.val.toNat = c from charOfNat_self c]
  · rw [if_neg h1]
    by_cases h2 : c.val.toNat < 0x800
    · rw [if_pos h2]
      simp only [List.cons_append, List.nil_append]
      rw [decodeF_step_two f _ _ B (by omega) (by omega)
        (by simp only [isContByte, Bool.and_eq_true, decide_eq_true_eq]
            omega)]
      have harg : (0xC0 + c.val.toNat / 64 - 0xC0) * 64 +
          (0x80 + c.val.toNat % 64 - 0x80) = c.val.toNat := by omega
      rw [harg, show Char.ofNat c.val.toNat = c from charOfNat_self c]
    · rw [if_neg h2]
      by_cases h3 : c.val.toNat < 0x10000
      · rw [if_pos h3]
        simp only [List.cons_append, List.nil_append]
        rw [decodeF_step_three f _ _ _ B (by omega) (by omega)
          (by unfold cont2lo
              split
              · rename_i hb; omega
              · split
                · rename_i hb; omega
                · omega)
          (by unfold cont2hi
              split
              · rename_i hb; omega
              · split
                · rename_i hb; omega
                · omega)
          (by simp only [isContByte, Bool.and_eq_true, decide_eq_true_eq]
              omega)]
        have harg : (0xE0 + c.val.toNat / 4096 - 0xE0) * 4096 +
            (0x80 + c.val.toNat / 64 % 64 - 0x80) * 64 +
            (0x80 + c.val.toNat % 64 - 0x80) = c.val.toNat := by omega
        rw [harg, show Char.ofNat c.val.toNat = c from charOfNat_self c]
      · rw [if_neg h3]
        simp only [List.cons_append, List.nil_append]
        rw [decodeF_step_four f _ _ _ _ B (by omega) (by omega)
          (by unfold cont2lo
              split
              · rename_i hb; omega
              · split
                · rename_i hb; omega
                · omega)
          (by unfold cont2hi
              split
              · rename_i hb; omega
              · split
                · rename_i hb; omega
                · omega)
          (by simp only [isContByte, Bool.and_eq_true, decide_eq_true_eq]
              omega)
          (by simp only [isContByte, Bool.and_eq_true, decide_eq_true_eq]
              omega)]
        have harg : (0xF0 + c.val.toNat / 262144 - 0xF0) * 262144 +
            (0x80 + c.val.toNat / 4096 % 64 - 0x80) * 4096 +
            (0x80 + c.val.toNat / 64 % 64 - 0x80) * 64 +
            (0x80 + c.val.toNat % 64 - 0x80) = c.val.toNat := by omega
        rw [harg, show Char.ofNat c.val.toNat = c from charOfNat_self c]

/-- UTF-8 decoding with replacement inverts encoding, given enough
fuel. -/
theorem utf8DecodeReplaceF_encode :
    ∀ (s : Str) (f : Nat), s.length ≤ f →
      utf8DecodeReplaceF f (utf8Encode s) = s := by
  intro s
  induction s with
  | nil =>
    intro f _
    cases f with
    | zero => rfl
    | succ f => rfl
  | cons c t ih =>
    intro f hf
    obtain ⟨f', rfl⟩ : ∃ f', f = f' + 1 :=
      ⟨f - 1, by simp at hf; omega⟩
    have henc : utf8Encode (c :: t) = utf8EncodeChar c ++ utf8Encode t := by
      unfold utf8Encode
      rfl
    rw [henc, utf8DecodeReplaceF_encodeChar c (utf8Encode t) f']
    rw [ih f' (by simp at hf; omega)]

/-- Each character encodes to at least one byte. -/
theorem utf8EncodeChar_length_pos (c : Char) :
    1 ≤ (utf8EncodeChar c).length := by
  unfold utf8EncodeChar
  dsimp only
  split
  · simp
  · split
    · simp
    · split
      · simp
      · simp

/-- The byte string is at least as long as the character string. -/
theorem length_le_utf8Encode (s : Str) : s.length ≤ (utf8Encode s).length := by
  induction s with
  | nil => simp [utf8Encode]
  | cons c t ih =>
    have henc : utf8Encode (c :: t) = utf8EncodeChar c ++ utf8Encode t := rfl
    rw [henc, List.length_append, List.length_cons]
    have := utf8EncodeChar_length_pos c
    omega

/-- UTF-8 decoding with replacement inverts encoding. -/
theorem utf8DecodeReplace_encode (s : Str) :
    utf8DecodeReplace (utf8Encode s) = s := by
  unfold utf8DecodeReplace
  exact utf8DecodeReplaceF_encode s _ (length_le_utf8Encode s)

/-- `hexVal` inverts `hexDigitUpper` below 16. -/
theorem hexVal_hexDigitUpper (n : Nat) (h : n < 16) :
    hexVal (hexDigitUpper n) = some n := by
  interval_cases n <;> rfl

/-- Upper hex digits are not `%`. -/
theorem hexDigitUpper_ne_pct (n : Nat) (h : n < 16) :
    hexDigitUpper n ≠ '%' := by
  interval_cases n <;> decide

/-- Upper hex digits are always-safe bytes (digits and capitals). -/
theorem hexDigitUpper_safe (n : Nat) (h : n < 16) :
    isAlwaysSafeByte (hexDigitUpper n).val.toNat = true := by
  interval_cases n <;> decide

/-- `splitAllChar` always yields at least one piece. -/
theorem splitAllChar_ne_nil (c : Char) : ∀ s, splitAllChar c s ≠ [] := by
  intro s
  induction s with
  | nil => simp [splitAllChar]
  | cons a t ih =>
    unfold splitAllChar
    split
    · simp
    · split
      · simp
      · simp

/-- `unquoteBytesRun` on a leading literal character. -/
theorem unquoteBytesRun_cons_char (c : Char) (R : Str) (hc : ¬ c = '%') :
    unquoteBytesRun (c :: R) = c.val.toNat :: unquoteBytesRun R := by
  obtain ⟨h0, r0, hsp⟩ : ∃ h0 r0, splitAllChar '%' R = h0 :: r0 := by
    cases hx : splitAllChar '%' R with
    | nil => exact absurd hx (splitAllChar_ne_nil '%' R)
    | cons h0 r0 => exact ⟨h0, r0, rfl⟩
  conv_lhs => unfold unquoteBytesRun splitAllChar
  conv_rhs => rw [show unquoteBytesRun R = unquoteBytesRun R from rfl]
  conv_rhs => unfold unquoteBytesRun
  rw [if_neg hc, hsp]
  dsimp only
  simp

/-- `unquoteBytesRun` on a leading percent escape. -/
theorem unquoteBytesRun_cons_pct (c1 c2 : Char) (R : Str) (v1 v2 : Nat)
    (h1 : hexVal c1 = some v1) (h2 : hexVal c2 = some v2)
    (hc1 : ¬ c1 = '%') (hc2 : ¬ c2 = '%') :
    unquoteBytesRun ('%' :: c1 :: c2 :: R) =
      (v1 * 16 + v2) :: unquoteBytesRun R := by
  obtain ⟨h0, r0, hsp⟩ : ∃ h0 r0, splitAllChar '%' R = h0 :: r0 := by
    cases hx : splitAllChar '%' R with
    | nil => exact absurd hx (splitAllChar_ne_nil '%' R)
    | cons h0 r0 => exact ⟨h0, r0, rfl⟩
  conv_lhs => unfold unquoteBytesRun splitAllChar
  conv_lhs => rw [if_pos rfl]
  conv_lhs => unfold splitAllChar
  conv_lhs => rw [if_neg hc1]
  conv_lhs => unfold splitAllChar
  conv_rhs => unfold unquoteBytesRun
  rw [if_neg hc2, hsp]
  dsimp only
  rw [List.flatMap_cons]
  dsimp only
  rw [h1, h2]
  simp

/-- Bytes of one encoded character are below 256. -/
theorem utf8EncodeChar_lt (c : Char) : ∀ b ∈ utf8EncodeChar c, b < 256 := by
  intro b hb
  have hv := charValid_toNat c
  unfold utf8EncodeChar at hb
  dsimp only at hb
  split at hb
  · simp only [List.mem_singleton] at hb
    omega
  · split at hb
    · simp only [List.mem_cons, List.not_mem_nil, or_false] at hb
      rcases hb with rfl | rfl <;> omega
    · split at hb
      · simp only [List.mem_cons, List.not_mem_nil, or_false] at hb
        rcases hb with rfl | rfl | rfl <;> omega
      · simp only [List.mem_cons, List.not_mem_nil, or_false] at hb
        rcases hb with rfl | rfl | rfl | rfl <;> omega

/-- Bytes of an encoded string are below 256. -/
theorem utf8Encode_lt (s : Str) : ∀ b ∈ utf8Encode s, b < 256 := by
  intro b hb
  obtain ⟨c, _, hc⟩ := List.mem_flatMap.mp hb
  exact utf8EncodeChar_lt c b hc

/-- Pointwise-fixed maps are the identity. -/
theorem map_eq_self_of {α : Type} (l : List α) (f : α → α)
    (h : ∀ a ∈ l, f a = a) : l.map f = l := by
  induction l with
  | nil => rfl
  | cons a t ih =>
    rw [List.map_cons, h a (List.mem_cons_self ..),
      ih (fun b hb => h b (List.mem_cons_of_mem a hb))]

/-- Always-safe bytes are ASCII printable (at most 126). -/
theorem isAlwaysSafeByte_le (b : Nat) (h : isAlwaysSafeByte b = true) :
    b ≤ 126 := by
  unfold isAlwaysSafeByte at h
  simp only [Bool.or_eq_true, Bool.and_eq_true, decide_eq_true_eq] at h
  rcases h with ((((((h | h) | h) | h) | h) | h) | h) <;> omega

/-- `unquoteBytesRun` inverts the per-byte quoting of `pyQuote`. -/
theorem unquoteBytesRun_quoteBytes (ss : Bool) :
    ∀ bs : List Nat, (∀ b ∈ bs, b < 256) →
      unquoteBytesRun (bs.flatMap (fun b =>
        if isAlwaysSafeByte b || (ss && b = 0x20) then [Char.ofNat b]
        else ['%', hexDigitUpper (b / 16), hexDigitUpper (b % 16)])) =
        bs := by
  intro bs
  induction bs with
  | nil => intro _; rfl
  | cons b t ih =>
    intro hlt
    have hb : b < 256 := hlt b (List.mem_cons_self ..)
    have ht : ∀ x ∈ t, x < 256 :=
      fun x hx => hlt x (List.mem_cons_of_mem b hx)
    rw [List.flatMap_cons]
    split
    · rename_i hsafe
      rw [List.singleton_append, unquoteBytesRun_cons_char _ _ ?hne,
        charOfNat_toNat (by omega), ih ht]
      case hne =>
        intro he
        have hbv : b = 37 := by
          have hv := congrArg (fun c => c.val.toNat) he
          dsimp only at hv
          rw [charOfNat_toNat (by omega)] at hv
          simpa using hv
        subst hbv
        simp only [Bool.or_eq_true, Bool.and_eq_true,
          decide_eq_true_eq] at hsafe
        rcases hsafe with h | ⟨_, h⟩
        · exact absurd h (by decide)
        · omega
    · simp only [List.cons_append, List.nil_append]
      rw [unquoteBytesRun_cons_pct _ _ _ (b / 16) (b % 16)
        (hexVal_hexDigitUpper _ (by omega))
        (hexVal_hexDigitUpper _ (by omega))
        (hexDigitUpper_ne_pct _ (by omega))
        (hexDigitUpper_ne_pct _ (by omega))]
      have hv : b / 16 * 16 + b % 16 = b := by omega
      rw [hv, ih ht]

/-- Percent-decoding the quoted bytes of a string recovers its UTF-8
bytes. -/
theorem unquoteBytesRun_pyQuote (ss : Bool) (s : Str) :
    unquoteBytesRun (pyQuote ss s) = utf8Encode s := by
  unfold pyQuote
  exact unquoteBytesRun_quoteBytes ss (utf8Encode s) (utf8Encode_lt s)

/-- Character classes of `pyQuote` output: always-safe, `%`, or a kept
space. -/
theorem pyQuote_chars (ss : Bool) (s : Str) :
    ∀ c ∈ pyQuote ss s,
      isAlwaysSafeByte c.val.toNat = true ∨ c = '%' ∨
        (ss = true ∧ c = ' ') := by
  intro c hc
  unfold pyQuote at hc
  obtain ⟨b, hb, hcb⟩ := List.mem_flatMap.mp hc
  have hblt : b < 256 := utf8Encode_lt s b hb
  split at hcb
  · rename_i hsafe
    simp only [List.mem_singleton] at hcb
    subst hcb
    simp only [Bool.or_eq_true, Bool.and_eq_true, decide_eq_true_eq]
      at hsafe
    rcases hsafe with h | ⟨hss, hb32⟩
    · left
      rw [charOfNat_toNat (by omega)]
      exact h
    · right; right
      subst hb32
      exact ⟨hss, by decide⟩
  · simp only [List.mem_cons, List.not_mem_nil, or_false] at hcb
    rcases hcb with rfl | rfl | rfl
    · right; left; rfl
    · left; exact hexDigitUpper_safe _ (by omega)
    · left; exact hexDigitUpper_safe _ (by omega)

/-- Character classes of `quote_plus` output: always-safe, `%`, or
`+`. -/
theorem quote_plus_chars (s : Str) :
    ∀ c ∈ quote_plus s,
      isAlwaysSafeByte c.val.toNat = true ∨ c = '%' ∨ c = '+' := by
  intro c hc
  unfold quote_plus at hc
  split at hc
  · rcases pyQuote_chars false s c hc with h | h | ⟨h1, _⟩
    · exact Or.inl h
    · exact Or.inr (Or.inl h)
    · exact absurd h1 (by simp)
  · obtain ⟨c0, hc0, hcc⟩ := List.mem_map.mp hc
    rcases pyQuote_chars true s c0 hc0 with h | h | ⟨_, h⟩
    · left
      have hne : ¬ c0 = ' ' := by
        intro he
        rw [he] at h
        exact absurd h (by decide)
      rw [← hcc, if_neg hne]
      exact h
    · right; left
      rw [← hcc, h, if_neg (by decide)]
    · right; right
      rw [← hcc, h, if_pos rfl]

/-- `isAsciiChar` on code points. -/
theorem isAsciiChar_iff (c : Char) :
    isAsciiChar c = true ↔ c.val.toNat ≤ 127 := by
  unfold isAsciiChar
  rw [decide_eq_true_eq, UInt32.le_def, BitVec.le_def]
  rfl

/-- The `+`-to-space preprocessing of `parse_qsl` undoes the space
handling of `quote_plus`. -/
theorem plusMap_quote_plus (s : Str) :
    (quote_plus s).map (fun c => if c = '+' then ' ' else c) =
      pyQuote (hasChar ' ' s) s := by
  unfold quote_plus
  split
  · rename_i hns
    have hf : hasChar ' ' s = false := by
      cases hx : hasChar ' ' s with
      | false => rfl
      | true => exact absurd hx hns
    rw [hf]
    apply map_eq_self_of
    intro c hc
    rw [if_neg ?_]
    intro he
    rcases pyQuote_chars false s c hc with h | h | ⟨h1, _⟩
    · rw [he] at h
      exact absurd h (by decide)
    · rw [he] at h
      exact absurd h (by decide)
    · exact absurd h1 (by simp)
  · rename_i hsp
    have ht : hasChar ' ' s = true := by
      cases hx : hasChar ' ' s with
      | true => rfl
      | false => exact absurd (by rw [hx]; exact fun h => by cases h) hsp
    rw [ht, List.map_map]
    apply map_eq_self_of
    intro c hc
    by_cases hce : c = ' '
    · subst hce
      rfl
    · have hne2 : ¬ c = '+' := by
        intro he
        rcases pyQuote_chars true s c hc with h | h | ⟨_, h⟩
        · rw [he] at h
          exact absurd h (by decide)
        · rw [he] at h
          exact absurd h (by decide)
        · exact hce h
      simp only [Function.comp_apply, if_neg hce, if_neg hne2]

/-- If quoting produced no percent sign, it was the identity. -/
theorem pyQuote_no_pct (ss : Bool) :
    ∀ s : Str, hasChar '%' (pyQuote ss s) = false → pyQuote ss s = s := by
  intro s
  induction s with
  | nil => intro _; rfl
  | cons c t ih =>
    intro h
    have hsplit : pyQuote ss (c :: t) =
        (utf8EncodeChar c).flatMap (fun b =>
          if isAlwaysSafeByte b || (ss && b = 0x20) then [Char.ofNat b]
          else ['%', hexDigitUpper (b / 16), hexDigitUpper (b % 16)]) ++
        pyQuote ss t := by
      unfold pyQuote utf8Encode
      rw [List.flatMap_cons, List.flatMap_append]
    rw [hsplit] at h ⊢
    have hnp := (hasChar_eq_false_iff ..).mp h
    have hl : '%' ∉ (utf8EncodeChar c).flatMap (fun b =>
        if isAlwaysSafeByte b || (ss && b = 0x20) then [Char.ofNat b]
        else ['%', hexDigitUpper (b / 16), hexDigitUpper (b % 16)]) :=
      fun hm => hnp (List.mem_append.mpr (Or.inl hm))
    have hr : hasChar '%' (pyQuote ss t) = false :=
      (hasChar_eq_false_iff ..).mpr
        (fun hm => hnp (List.mem_append.mpr (Or.inr hm)))
    rw [ih hr]
    by_cases hac : c.val.toNat < 0x80
    · have henc : utf8EncodeChar c = [c.val.toNat] := by
        unfold utf8EncodeChar
        dsimp only
        rw [if_pos hac]
      rw [henc] at hl ⊢
      rw [List.flatMap_cons, List.flatMap_nil, List.append_nil] at hl ⊢
      split
      · rw [show Char.ofNat c.val.toNat = c from charOfNat_self c]
        rfl
      · rename_i hnsafe
        exfalso
        apply hl
        rw [if_neg hnsafe]
        exact List.mem_cons_self ..
    · exfalso
      obtain ⟨b0, rest, henc, hb0⟩ :
          ∃ b0 rest, utf8EncodeChar c = b0 :: rest ∧ 127 < b0 := by
        unfold utf8EncodeChar
        dsimp only
        rw [if_neg hac]
        split
        · exact ⟨_, _, rfl, by omega⟩
        · split
          · exact ⟨_, _, rfl, by omega⟩
          · exact ⟨_, _, rfl, by omega⟩
      apply hl
      rw [henc, List.flatMap_cons]
      apply List.mem_append.mpr
      left
      rw [if_neg ?_]
      · exact List.mem_cons_self ..
      · simp only [Bool.or_eq_true, Bool.and_eq_true, decide_eq_true_eq,
          not_or, not_and]
        constructor
        · intro hs
          have := isAlwaysSafeByte_le b0 hs
          omega
        · intro _ hb32
          omega

/-- The `splitBy` loop keeps one group while the relation holds along
the list. -/
theorem splitBy_loop_chain (R : Char → Char → Bool) :
    ∀ (as : List Char) (ag : Char) (g : List Char)
      (gs : List (List Char)),
      List.Chain (fun a b => R a b = true) ag as →
      List.splitBy.loop R as ag g gs =
        gs.reverse ++ [g.reverse ++ ag :: as] := by
  intro as
  induction as with
  | nil =>
    intro ag g gs _
    unfold List.splitBy.loop
    simp
  | cons a as' ih =>
    intro ag g gs hch
    cases hch with
    | cons hR hch' =>
      unfold List.splitBy.loop
      rw [hR]
      dsimp only
      rw [ih a (ag :: g) gs hch']
      simp

/-- `splitBy` of a chained list is a single group. -/
theorem splitBy_chain (R : Char → Char → Bool) (l : Str)
    (hc : l.Chain' (fun a b => R a b = true)) (hl : l ≠ []) :
    l.splitBy R = [l] := by
  cases l with
  | nil => exact absurd rfl hl
  | cons a as =>
    unfold List.splitBy
    dsimp only
    rw [splitBy_loop_chain R as a [] [] hc]
    rfl

/-- A list whose elements all satisfy `p` is chained under any relation
that holds between `p`-elements. -/
theorem chain'_of_all {l : Str} {p : Char → Bool}
    (h : ∀ c ∈ l, p c = true) {R : Char → Char → Bool}
    (hR : ∀ a b, p a = true → p b = true → R a b = true) :
    l.Chain' (fun a b => R a b = true) := by
  induction l with
  | nil => exact List.chain'_nil
  | cons a t ih =>
    cases t with
    | nil => exact List.chain'_singleton a
    | cons b u =>
      refine List.Chain'.cons ?_ ?_
      · exact hR a b (h a (by simp)) (h b (by simp))
      · exact ih (fun c hc => h c (List.mem_cons_of_mem a hc))

/-- Unquoting inverts quoting. -/
theorem pyUnquote_pyQuote (ss : Bool) (s : Str) :
    pyUnquote (pyQuote ss s) = s := by
  unfold pyUnquote
  by_cases hpct : hasChar '%' (pyQuote ss s) = true
  · rw [if_neg (by simp [hpct])]
    have hascii : ∀ c ∈ pyQuote ss s, isAsciiChar c = true := by
      intro c hc
      rcases pyQuote_chars ss s c hc with h | h | ⟨_, h⟩
      · exact (isAsciiChar_iff c).mpr (by have := isAlwaysSafeByte_le _ h; omega)
      · rw [h]; decide
      · rw [h]; decide
    have hne : pyQuote ss s ≠ [] := by
      intro he
      rw [he] at hpct
      exact absurd hpct (by decide)
    rw [splitBy_chain _ _ (chain'_of_all hascii
      (fun a b ha hb => by rw [ha, hb]; simp)) hne]
    rw [List.flatMap_cons, List.flatMap_nil, List.append_nil]
    rw [if_pos (List.all_eq_true.mpr hascii)]
    rw [unquoteBytesRun_pyQuote ss s]
    exact utf8DecodeReplace_encode s
  · rw [if_pos (by simpa using hpct)]
    exact pyQuote_no_pct ss s (by simpa using hpct)

/-- Full value round trip: `parse_qsl`'s `+`-then-unquote decoding
inverts `quote_plus`. -/
theorem unquote_plusMap_quote_plus (s : Str) :
    pyUnquote ((quote_plus s).map
      (fun c => if c = '+' then ' ' else c)) = s := by
  rw [plusMap_quote_plus s]
  exact pyUnquote_pyQuote _ s

/-- `splitAllChar` without the separator is one piece. -/
theorem splitAllChar_no_sep (c : Char) :
    ∀ s, c ∉ s → splitAllChar c s = [s] := by
  intro s
  induction s with
  | nil => intro _; rfl
  | cons a t ih =>
    intro h
    unfold splitAllChar
    rw [if_neg (fun hac => h (by rw [← hac]; exact List.mem_cons_self a t)),
      ih (fun hm => h (List.mem_cons_of_mem a hm))]

/-- `splitAllChar` peels a separator-free piece at an explicit
separator. -/
theorem splitAllChar_append_sep (c : Char) :
    ∀ (x r : Str), c ∉ x →
      splitAllChar c (x ++ c :: r) = x :: splitAllChar c r := by
  intro x
  induction x with
  | nil => intro r _; simp [splitAllChar]
  | cons a t ih =>
    intro r h
    have hac : ¬ a = c :=
      fun hac => h (by rw [← hac]; exact List.mem_cons_self a t)
    have hrec := ih r (fun hm => h (List.mem_cons_of_mem a hm))
    obtain ⟨h0, r0, hsp⟩ : ∃ h0 r0, splitAllChar c r = h0 :: r0 := by
      cases hx : splitAllChar c r with
      | nil => exact absurd hx (splitAllChar_ne_nil c r)
      | cons h0 r0 => exact ⟨h0, r0, rfl⟩
    rw [hsp] at hrec ⊢
    simp only [List.cons_append]
    unfold splitAllChar
    rw [if_neg hac, hrec]

/-- Splitting on the separator inverts `intercalate`. -/
theorem splitAllChar_intercalate (c : Char) :
    ∀ pieces : List Str, pieces ≠ [] → (∀ p ∈ pieces, c ∉ p) →
      splitAllChar c (List.intercalate [c] pieces) = pieces := by
  intro pieces
  induction pieces with
  | nil => intro h _; exact absurd rfl h
  | cons p rest ih =>
    intro _ hfree
    cases rest with
    | nil =>
      have : List.intercalate [c] [p] = p := by
        simp [List.intercalate, List.intersperse]
      rw [this]
      exact splitAllChar_no_sep c p (hfree p (List.mem_cons_self ..))
    | cons p2 rest2 =>
      have hstep : List.intercalate [c] (p :: p2 :: rest2) =
          p ++ [c] ++ List.intercalate [c] (p2 :: rest2) := by
        simp [List.intercalate, List.intersperse]
      rw [hstep, List.append_assoc, List.singleton_append,
        splitAllChar_append_sep c p _ (hfree p (List.mem_cons_self ..)),
        ih (by simp) (fun q hq => hfree q (List.mem_cons_of_mem p hq))]

/-- A nonempty flatMap with nonempty images is nonempty. -/
theorem flatMap_ne_nil {α β : Type} (f : α → List β) (l : List α)
    (hl : l ≠ []) (hf : ∀ a ∈ l, f a ≠ []) : l.flatMap f ≠ [] := by
  cases l with
  | nil => exact absurd rfl hl
  | cons a t =>
    rw [List.flatMap_cons]
    intro he
    exact hf a (List.mem_cons_self ..) (List.append_eq_nil.mp he).1

/-- `quote_plus` of a nonempty string is nonempty. -/
theorem quote_plus_ne_nil (s : Str) (h : s ≠ []) : quote_plus s ≠ [] := by
  have hq : ∀ ss, pyQuote ss s ≠ [] := by
    intro ss
    unfold pyQuote
    apply flatMap_ne_nil
    · intro he
      have := length_le_utf8Encode s
      rw [he] at this
      simp at this
      exact h this
    · intro b _
      split
      · simp
      · simp
  unfold quote_plus
  split
  · exact hq false
  · simpa using hq true

/-- `unquoteBytesRun` of a nonempty run is nonempty. -/
theorem unquoteBytesRun_ne_nil (s : Str) (h : s ≠ []) :
    unquoteBytesRun s ≠ [] := by
  cases s with
  | nil => exact absurd rfl h
  | cons c R =>
    by_cases hc : c = '%'
    · subst hc
      unfold unquoteBytesRun
      unfold splitAllChar
      rw [if_pos rfl]
      dsimp only
      obtain ⟨h0, r0, hsp⟩ : ∃ h0 r0, splitAllChar '%' R = h0 :: r0 := by
        cases hx : splitAllChar '%' R with
        | nil => exact absurd hx (splitAllChar_ne_nil '%' R)
        | cons h0 r0 => exact ⟨h0, r0, rfl⟩
      rw [hsp, List.flatMap_cons]
      simp only [List.map_nil, List.nil_append]
      intro he
      have h1 := (List.append_eq_nil.mp he).1
      revert h1
      split
      · split
        · simp
        · simp
      · simp
    · rw [unquoteBytesRun_cons_char c R hc]
      simp

/-- The decoder returns at least one character on nonempty input. -/
theorem utf8DecodeReplaceF_cons_ne (f : Nat) (b : Nat) (t : List Nat) :
    utf8DecodeReplaceF (f + 1) (b :: t) ≠ [] := by
  unfold utf8DecodeReplaceF
  split
  · simp
  · split
    · split
      · simp
      · split
        · simp
        · simp
    · split
      · split
        · simp
        · split
          · split
            · simp
            · split
              · simp
              · simp
          · simp
      · split
        · split
          · simp
          · split
            · split
              · simp
              · split
                · split
                  · simp
                  · split
                    · simp
                    · simp
                · simp
            · simp
        · simp

/-- The `splitBy` loop never returns an empty list of groups. -/
theorem splitBy_loop_ne (R : Char → Char → Bool) :
    ∀ (as : List Char) (ag : Char) (g : List Char)
      (gs : List (List Char)), List.splitBy.loop R as ag g gs ≠ [] := by
  intro as
  induction as with
  | nil =>
    intro ag g gs
    unfold List.splitBy.loop
    simp
  | cons a as' ih =>
    intro ag g gs
    unfold List.splitBy.loop
    cases R ag a with
    | true => exact ih a (ag :: g) gs
    | false => exact ih a [] ((ag :: g).reverse :: gs)

/-- Every group the `splitBy` loop emits is nonempty. -/
theorem splitBy_loop_chunk_ne (R : Char → Char → Bool) :
    ∀ (as : List Char) (ag : Char) (g : List Char)
      (gs : List (List Char)), (∀ x ∈ gs, x ≠ []) →
      ∀ chunk ∈ List.splitBy.loop R as ag g gs, chunk ≠ [] := by
  intro as
  induction as with
  | nil =>
    intro ag g gs hgs chunk hchunk
    unfold List.splitBy.loop at hchunk
    rw [List.mem_reverse] at hchunk
    rcases List.mem_cons.mp hchunk with h | h
    · subst h
      simp
    · exact hgs chunk h
  | cons a as' ih =>
    intro ag g gs hgs chunk hchunk
    unfold List.splitBy.loop at hchunk
    revert hchunk
    cases R ag a with
    | true => exact fun hchunk => ih a (ag :: g) gs hgs chunk hchunk
    | false =>
      intro hchunk
      refine ih a [] ((ag :: g).reverse :: gs) ?_ chunk hchunk
      intro x hx
      rcases List.mem_cons.mp hx with h | h
      · subst h
        simp
      · exact hgs x h

/-- Every group of `splitBy` is nonempty. -/
theorem splitBy_chunk_ne (R : Char → Char → Bool) (l : Str) :
    ∀ chunk ∈ l.splitBy R, chunk ≠ [] := by
  intro chunk hchunk
  cases l with
  | nil => simp [List.splitBy] at hchunk
  | cons a as =>
    unfold List.splitBy at hchunk
    exact splitBy_loop_chunk_ne R as a [] [] (by simp) chunk hchunk

/-- `pyUnquote` of a nonempty string is nonempty. -/
theorem pyUnquote_ne_nil (s : Str) (h : s ≠ []) : pyUnquote s ≠ [] := by
  unfold pyUnquote
  split
  · exact h
  · apply flatMap_ne_nil
    · intro he
      cases s with
      | nil => exact absurd rfl h
      | cons a t =>
        unfold List.splitBy at he
        revert he
        dsimp only
        intro he
        exact splitBy_loop_ne _ t a [] [] he
    · intro chunk hchunk
      have hcne : chunk ≠ [] := splitBy_chunk_ne _ s chunk hchunk
      split
      · cases hck : unquoteBytesRun chunk with
        | nil => exact absurd hck (unquoteBytesRun_ne_nil chunk hcne)
        | cons b bs =>
          have hres := utf8DecodeReplaceF_cons_ne bs.length b bs
          simp only [utf8DecodeReplace, hck]
          exact hres
      · exact hcne

/-- Characters outside the always-safe set (other than `%` and `+`) do
not occur in `quote_plus` output. -/
theorem quote_plus_not_mem (s : Str) (d : Char)
    (hd : isAlwaysSafeByte d.val.toNat = false) (h1 : d ≠ '%')
    (h2 : d ≠ '+') : d ∉ quote_plus s := by
  intro hm
  rcases quote_plus_chars s d hm with h | h | h
  · rw [hd] at h
    exact absurd h (by simp)
  · exact h1 h
  · exact h2 h

/-- Decoding the encoded pieces recovers the pairs. -/
theorem foldr_qsl_decode :
    ∀ P : List (Str × Str), (∀ kv ∈ P, kv.2 ≠ []) →
      (P.map (fun kv =>
        quote_plus kv.1 ++ '=' :: quote_plus kv.2)).foldr
        (fun nameValue acc =>
          if nameValue = [] then acc
          else
            match splitFirst '=' nameValue with
            | none => acc
            | some (n, v) =>
              if v = [] then acc
              else
                (pyUnquote (n.map (fun c => if c = '+' then ' ' else c)),
                 pyUnquote (v.map (fun c => if c = '+' then ' ' else c))) ::
                  acc) [] = P := by
  intro P
  induction P with
  | nil => intro _; rfl
  | cons kv P' ih =>
    intro hval
    rw [List.map_cons, List.foldr_cons]
    rw [ih (fun x hx => hval x (List.mem_cons_of_mem kv hx))]
    rw [if_neg (by simp)]
    rw [splitFirst_append_cons '=' (quote_plus kv.1) (quote_plus kv.2)
      (quote_plus_not_mem kv.1 '=' (by decide) (by decide) (by decide))]
    dsimp only
    rw [if_neg (quote_plus_ne_nil kv.2 (hval kv (List.mem_cons_self ..)))]
    rw [unquote_plusMap_quote_plus kv.1, unquote_plusMap_quote_plus kv.2]

/-- `parse_qsl` of an `urlencode` output recovers the flattened
key/value pairs. -/
theorem parse_qsl_urlencode (items : List (Str × List Str))
    (hval : ∀ kv ∈ items, ∀ v ∈ kv.2, v ≠ []) :
    parse_qsl (urlencode items) =
      items.flatMap (fun kv => kv.2.map (fun v => (kv.1, v))) := by
  have hmap : (items.flatMap
        (fun kv => kv.2.map (fun v => (kv.1, v)))).map
      (fun kv => quote_plus kv.1 ++ '=' :: quote_plus kv.2) =
      items.flatMap (fun kv => kv.2.map
        (fun v => quote_plus kv.1 ++ '=' :: quote_plus v)) := by
    rw [List.map_flatMap]
    simp only [List.map_map]
    rfl
  have hurl : urlencode items = List.intercalate ['&']
      ((items.flatMap (fun kv => kv.2.map (fun v => (kv.1, v)))).map
        (fun kv => quote_plus kv.1 ++ '=' :: quote_plus kv.2)) := by
    rw [hmap]
    rfl
  have hPval : ∀ kv ∈ items.flatMap
      (fun kv => kv.2.map (fun v => (kv.1, v))), kv.2 ≠ [] := by
    intro kv hkv
    obtain ⟨kv0, hkv0, hm⟩ := List.mem_flatMap.mp hkv
    obtain ⟨v, hv, hveq⟩ := List.mem_map.mp hm
    have : kv.2 = v := by rw [← hveq]
    rw [this]
    exact hval kv0 hkv0 v hv
  cases hP : items.flatMap (fun kv => kv.2.map (fun v => (kv.1, v))) with
  | nil =>
    rw [hurl, hP]
    rfl
  | cons kv0 P' =>
    rw [hurl, hP]
    rw [hP] at hPval
    have hne0 : quote_plus kv0.1 ++ '=' :: quote_plus kv0.2 ≠ [] := by simp
    have hqne : List.intercalate ['&']
        ((kv0 :: P').map
          (fun kv => quote_plus kv.1 ++ '=' :: quote_plus kv.2)) ≠ [] := by
      cases P' with
      | nil =>
        simp only [List.map_cons, List.map_nil]
        rw [show List.intercalate ['&']
          [quote_plus kv0.1 ++ '=' :: quote_plus kv0.2] =
          quote_plus kv0.1 ++ '=' :: quote_plus kv0.2 from by
            simp [List.intercalate, List.intersperse]]
        exact hne0
      | cons kv1 P'' =>
        simp only [List.map_cons]
        rw [show List.intercalate ['&']
            ((quote_plus kv0.1 ++ '=' :: quote_plus kv0.2) ::
              (quote_plus kv1.1 ++ '=' :: quote_plus kv1.2) ::
                P''.map (fun kv =>
                  quote_plus kv.1 ++ '=' :: quote_plus kv.2)) =
            (quote_plus kv0.1 ++ '=' :: quote_plus kv0.2) ++ ['&'] ++
              List.intercalate ['&']
                ((quote_plus kv1.1 ++ '=' :: quote_plus kv1.2) ::
                  P''.map (fun kv =>
                    quote_plus kv.1 ++ '=' :: quote_plus kv.2)) from by
          simp [List.intercalate, List.intersperse]]
        simp
    unfold parse_qsl
    rw [if_neg hqne]
    rw [splitAllChar_intercalate '&' _ (by simp) ?hfree]
    case hfree =>
      intro p hp
      obtain ⟨kv, _, hpe⟩ := List.mem_map.mp hp
      rw [← hpe]
      intro hmem
      rcases List.mem_append.mp hmem with h | h
      · exact quote_plus_not_mem kv.1 '&' (by decide) (by decide)
          (by decide) h
      · rcases List.mem_cons.mp h with h | h
        · exact absurd h (by decide)
        · exact quote_plus_not_mem kv.2 '&' (by decide) (by decide)
            (by decide) h
    exact foldr_qsl_decode (kv0 :: P') hPval

/-- `qsInsert` of a fresh key appends a new entry. -/
theorem qsInsert_new (k : Str) (v : Str) :
    ∀ d : List (Str × List Str), (∀ kv ∈ d, kv.1 ≠ k) →
      qsInsert k v d = d ++ [(k, [v])] := by
  intro d
  induction d with
  | nil => intro _; rfl
  | cons kv0 rest ih =>
    intro h
    obtain ⟨k0, vs⟩ := kv0
    unfold qsInsert
    rw [if_neg (by
      have := h (k0, vs) (List.mem_cons_self ..)
      simpa using this)]
    rw [ih (fun x hx => h x (List.mem_cons_of_mem _ hx))]
    rfl

/-- `qsInsert` of the last entry's key appends to its values. -/
theorem qsInsert_last (k : Str) (v : Str) (us : List Str) :
    ∀ d : List (Str × List Str), (∀ kv ∈ d, kv.1 ≠ k) →
      qsInsert k v (d ++ [(k, us)]) = d ++ [(k, us ++ [v])] := by
  intro d
  induction d with
  | nil =>
    intro _
    simp only [List.nil_append]
    unfold qsInsert
    rw [if_pos rfl]
  | cons kv0 rest ih =>
    intro h
    obtain ⟨k0, vs⟩ := kv0
    simp only [List.cons_append]
    unfold qsInsert
    rw [if_neg (by
      have := h (k0, vs) (List.mem_cons_self ..)
      simpa using this)]
    rw [ih (fun x hx => h x (List.mem_cons_of_mem _ hx))]

/-- Folding one key's value group into the dict. -/
theorem foldl_qsInsert_group (k : Str) :
    ∀ (vs us : List Str) (d : List (Str × List Str)),
      (∀ kv ∈ d, kv.1 ≠ k) →
      List.foldl (fun d kv => qsInsert kv.1 kv.2 d) (d ++ [(k, us)])
        (vs.map (fun v => (k, v))) = d ++ [(k, us ++ vs)] := by
  intro vs
  induction vs with
  | nil =>
    intro us d _
    simp
  | cons v vs' ih =>
    intro us d hd
    rw [List.map_cons, List.foldl_cons]
    have hstep : qsInsert k v (d ++ [(k, us)]) = d ++ [(k, us ++ [v])] :=
      qsInsert_last k v us d hd
    rw [hstep, ih (us ++ [v]) d hd, List.append_assoc]
    rfl

/-- Folding flattened grouped pairs rebuilds the grouped dict. -/
theorem foldl_qsInsert_flat :
    ∀ (P : List (Str × List Str)) (d : List (Str × List Str)),
      (∀ kv ∈ P, kv.2 ≠ []) →
      P.Pairwise (fun x y => x.1 ≠ y.1) →
      (∀ kv ∈ d, ∀ kv' ∈ P, kv.1 ≠ kv'.1) →
      List.foldl (fun d kv => qsInsert kv.1 kv.2 d) d
        (P.flatMap (fun kv => kv.2.map (fun v => (kv.1, v)))) = d ++ P := by
  intro P
  induction P with
  | nil => intro d _ _ _; simp
  | cons kv0 P' ih =>
    intro d hval hpair hdis
    obtain ⟨k, vs⟩ := kv0
    rw [List.flatMap_cons, List.foldl_append]
    cases vs with
    | nil =>
      exact absurd rfl (hval (k, []) (List.mem_cons_self ..))
    | cons u us =>
      have hdk : ∀ kv ∈ d, kv.1 ≠ k := by
        intro kv hkv
        exact hdis kv hkv (k, u :: us) (List.mem_cons_self ..)
      rw [List.map_cons, List.foldl_cons]
      have h1 : qsInsert k u d = d ++ [(k, [u])] := qsInsert_new k u d hdk
      rw [h1, foldl_qsInsert_group k us [u] d hdk]
      have hgoal := ih (d ++ [(k, [u] ++ us)])
        (fun x hx => hval x (List.mem_cons_of_mem _ hx))
        (List.Pairwise.sublist (List.sublist_cons_self _ _) hpair)
        ?_
      · rw [hgoal, List.append_assoc]
        rfl
      · intro kv hkv kv' hkv'
        rcases List.mem_append.mp hkv with h | h
        · exact hdis kv h kv' (List.mem_cons_of_mem _ hkv')
        · rcases List.mem_singleton.mp h with rfl
          have := List.pairwise_cons.mp hpair
          exact this.1 kv' hkv'

/-- Code-point order underlying `ltStr`. -/
theorem valLt_iff (a b : Char) :
    (a.val < b.val) ↔ a.val.toNat < b.val.toNat := by
  rw [UInt32.lt_def, BitVec.lt_def]
  rfl

/-- `ltStr` is total on distinct strings. -/
theorem ltStr_total : ∀ a b : Str, a ≠ b →
    ltStr a b = true ∨ ltStr b a = true := by
  intro a
  induction a with
  | nil =>
    intro b hb
    cases b with
    | nil => exact absurd rfl hb
    | cons y t => left; rfl
  | cons x s ih =>
    intro b hb
    cases b with
    | nil => right; rfl
    | cons y t =>
      by_cases hxy : x.val < y.val
      · left
        unfold ltStr
        rw [if_pos hxy]
      · by_cases hyx : y.val < x.val
        · right
          unfold ltStr
          rw [if_pos hyx]
        · have hxyv : x = y := by
            rw [charEq_iff]
            have m1 : ¬ x.val.toNat < y.val.toNat :=
              fun hn => hxy ((valLt_iff x y).mpr hn)
            have m2 : ¬ y.val.toNat < x.val.toNat :=
              fun hn => hyx ((valLt_iff y x).mpr hn)
            omega
          subst hxyv
          have hst : s ≠ t := fun he => hb (by rw [he])
          rcases ih t hst with h | h
          · left
            unfold ltStr
            rw [if_neg hxy, if_neg hyx]
            exact h
          · right
            unfold ltStr
            rw [if_neg hxy, if_neg hyx]
            exact h

/-- `ltStr` is transitive. -/
theorem ltStr_trans : ∀ a b c : Str, ltStr a b = true →
    ltStr b c = true → ltStr a c = true := by
  intro a
  induction a with
  | nil =>
    intro b c hab hbc
    cases b with
    | nil => exact absurd hab (by simp [ltStr])
    | cons y t =>
      cases c with
      | nil => exact absurd hbc (by simp [ltStr])
      | cons z u => rfl
  | cons x s ih =>
    intro b c hab hbc
    cases b with
    | nil => exact absurd hab (by simp [ltStr])
    | cons y t =>
      cases c with
      | nil => exact absurd hbc (by simp [ltStr])
      | cons z u =>
        unfold ltStr at hab hbc ⊢
        by_cases h1 : x.val < y.val
        · have m1 := (valLt_iff x y).mp h1
          by_cases h2 : y.val < z.val
          · have m2 := (valLt_iff y z).mp h2
            rw [if_pos ((valLt_iff x z).mpr (by omega))]
          · have m2 : ¬ y.val.toNat < z.val.toNat :=
              fun hn => h2 ((valLt_iff y z).mpr hn)
            rw [if_neg h2] at hbc
            by_cases h3 : z.val < y.val
            · rw [if_pos h3] at hbc
              exact absurd hbc (by simp)
            · have m3 : ¬ z.val.toNat < y.val.toNat :=
                fun hn => h3 ((valLt_iff z y).mpr hn)
              rw [if_pos ((valLt_iff x z).mpr (by omega))]
        · have m1 : ¬ x.val.toNat < y.val.toNat :=
            fun hn => h1 ((valLt_iff x y).mpr hn)
          rw [if_neg h1] at hab
          by_cases h1' : y.val < x.val
          · rw [if_pos h1'] at hab
            exact absurd hab (by simp)
          · have m1' : ¬ y.val.toNat < x.val.toNat :=
              fun hn => h1' ((valLt_iff y x).mpr hn)
            rw [if_neg h1'] at hab
            by_cases h2 : y.val < z.val
            · have m2 := (valLt_iff y z).mp h2
              rw [if_pos ((valLt_iff x z).mpr (by omega))]
            · have m2 : ¬ y.val.toNat < z.val.toNat :=
                fun hn => h2 ((valLt_iff y z).mpr hn)
              rw [if_neg h2] at hbc
              by_cases h3 : z.val < y.val
              · rw [if_pos h3] at hbc
                exact absurd hbc (by simp)
              · have m3 : ¬ z.val.toNat < y.val.toNat :=
                  fun hn => h3 ((valLt_iff z y).mpr hn)
                rw [if_neg h3] at hbc
                rw [if_neg (fun hn => absurd ((valLt_iff x z).mp hn)
                      (by omega)),
                  if_neg (fun hn => absurd ((valLt_iff z x).mp hn)
                      (by omega))]
                exact ih t u hab hbc

/-- `itemLt` is transitive. -/
theorem itemLt_trans (a b c : Str × List Str) (h1 : itemLt a b)
    (h2 : itemLt b c) : itemLt a c :=
  ltStr_trans a.1 b.1 c.1 h1 h2

/-- `itemLt` is total on items with distinct keys. -/
theorem itemLt_total (a b : Str × List Str) (h : a.1 ≠ b.1) :
    itemLt a b ∨ itemLt b a :=
  ltStr_total a.1 b.1 h

/-- Ordered insertion preserves sortedness for fresh keys. -/
theorem orderedInsert_sorted (a : Str × List Str) :
    ∀ l : List (Str × List Str), l.Sorted itemLt →
      (∀ b ∈ l, a.1 ≠ b.1) →
      (List.orderedInsert itemLt a l).Sorted itemLt := by
  intro l
  induction l with
  | nil => intro _ _; simp
  | cons b t ih =>
    intro hs hd
    unfold List.orderedInsert
    split
    · rename_i hab
      rw [List.sorted_cons]
      refine ⟨?_, hs⟩
      intro x hx
      rcases List.mem_cons.mp hx with rfl | hx
      · exact hab
      · exact itemLt_trans a b x hab ((List.sorted_cons.mp hs).1 x hx)
    · rename_i hab
      obtain ⟨hbt, hts⟩ := List.sorted_cons.mp hs
      rw [List.sorted_cons]
      constructor
      · intro x hx
        rcases (List.mem_orderedInsert ..).mp hx with hxa | hx
        · subst hxa
          rcases itemLt_total x b (hd b (List.mem_cons_self ..)) with h | h
          · exact absurd h hab
          · exact h
        · exact hbt x hx
      · exact ih hts (fun x hx => hd x (List.mem_cons_of_mem _ hx))

/-- `insertionSort` sorts a distinct-key item list. -/
theorem insertionSort_sorted :
    ∀ l : List (Str × List Str),
      l.Pairwise (fun x y => x.1 ≠ y.1) →
      (List.insertionSort itemLt l).Sorted itemLt := by
  intro l
  induction l with
  | nil => simp
  | cons a t ih =>
    intro hp
    have hstep : List.insertionSort itemLt (a :: t) =
        List.orderedInsert itemLt a (List.insertionSort itemLt t) := rfl
    rw [hstep]
    apply orderedInsert_sorted
    · exact ih (List.pairwise_cons.mp hp).2
    · intro b hb
      exact (List.pairwise_cons.mp hp).1 b
        ((List.perm_insertionSort itemLt t).mem_iff.mp hb)

/-- Keys after `qsInsert` are the new key or existing keys. -/
theorem qsInsert_keys (k : Str) (v : Str) :
    ∀ d : List (Str × List Str), ∀ kv ∈ qsInsert k v d,
      kv.1 = k ∨ ∃ kv0 ∈ d, kv.1 = kv0.1 := by
  intro d
  induction d with
  | nil =>
    intro kv hkv
    rcases List.mem_singleton.mp hkv with rfl
    exact Or.inl rfl
  | cons kv0 rest ih =>
    intro kv hkv
    obtain ⟨k0, vs⟩ := kv0
    unfold qsInsert at hkv
    split at hkv
    · rename_i hk0
      rcases List.mem_cons.mp hkv with heq | hkv
      · exact Or.inl (by rw [heq]; exact hk0)
      · exact Or.inr ⟨kv, List.mem_cons_of_mem _ hkv, rfl⟩
    · rcases List.mem_cons.mp hkv with heq | hkv
      · exact Or.inr ⟨(k0, vs), List.mem_cons_self .., by rw [heq]⟩
      · rcases ih kv hkv with h | ⟨kv1, hkv1, he⟩
        · exact Or.inl h
        · exact Or.inr ⟨kv1, List.mem_cons_of_mem _ hkv1, he⟩

/-- `qsInsert` preserves key distinctness. -/
theorem qsInsert_pairwise (k : Str) (v : Str) :
    ∀ d : List (Str × List Str),
      d.Pairwise (fun x y => x.1 ≠ y.1) →
      (qsInsert k v d).Pairwise (fun x y => x.1 ≠ y.1) := by
  intro d
  induction d with
  | nil => intro _; simp [qsInsert]
  | cons kv0 rest ih =>
    intro hp
    obtain ⟨k0, vs⟩ := kv0
    obtain ⟨hhead, htail⟩ := List.pairwise_cons.mp hp
    unfold qsInsert
    split
    · rename_i hk0
      exact List.pairwise_cons.mpr ⟨fun y hy => hhead y hy, htail⟩
    · rename_i hk0
      refine List.pairwise_cons.mpr ⟨?_, ih htail⟩
      intro y hy
      rcases qsInsert_keys k v rest y hy with h | ⟨kv1, hkv1, he⟩
      · rw [h]
        exact fun he0 => hk0 he0
      · rw [he]
        exact hhead kv1 hkv1

/-- `qsInsert` preserves value nonemptiness. -/
theorem qsInsert_values (k : Str) (v : Str) (hv : v ≠ []) :
    ∀ d : List (Str × List Str),
      (∀ kv ∈ d, kv.2 ≠ [] ∧ ∀ u ∈ kv.2, u ≠ []) →
      ∀ kv ∈ qsInsert k v d, kv.2 ≠ [] ∧ ∀ u ∈ kv.2, u ≠ [] := by
  intro d
  induction d with
  | nil =>
    intro _ kv hkv
    rcases List.mem_singleton.mp hkv with rfl
    exact ⟨by simp, fun u hu => by
      rcases List.mem_singleton.mp hu with rfl
      exact hv⟩
  | cons kv0 rest ih =>
    intro hall kv hkv
    obtain ⟨k0, vs⟩ := kv0
    unfold qsInsert at hkv
    split at hkv
    · rcases List.mem_cons.mp hkv with heq | hkv
      · obtain ⟨h1, h2⟩ := hall (k0, vs) (List.mem_cons_self ..)
        rw [heq]
        refine ⟨by simp, ?_⟩
        intro u hu
        rcases List.mem_append.mp hu with h | h
        · exact h2 u h
        · rcases List.mem_singleton.mp h with rfl
          exact hv
      · exact hall kv (List.mem_cons_of_mem _ hkv)
    · rcases List.mem_cons.mp hkv with heq | hkv
      · rw [heq]
        exact hall (k0, vs) (List.mem_cons_self ..)
      · exact ih (fun x hx => hall x (List.mem_cons_of_mem _ hx)) kv hkv

/-- The `parse_qs` fold keeps the dict invariants. -/
theorem foldl_qsInsert_inv :
    ∀ (pairs : List (Str × Str)) (d : List (Str × List Str)),
      (∀ kv ∈ pairs, kv.2 ≠ []) →
      d.Pairwise (fun x y => x.1 ≠ y.1) →
      (∀ kv ∈ d, kv.2 ≠ [] ∧ ∀ u ∈ kv.2, u ≠ []) →
      (List.foldl (fun d kv => qsInsert kv.1 kv.2 d) d pairs).Pairwise
          (fun x y => x.1 ≠ y.1) ∧
        ∀ kv ∈ List.foldl (fun d kv => qsInsert kv.1 kv.2 d) d pairs,
          kv.2 ≠ [] ∧ ∀ u ∈ kv.2, u ≠ [] := by
  intro pairs
  induction pairs with
  | nil => intro d _ h1 h2; exact ⟨h1, h2⟩
  | cons p rest ih =>
    intro d hval h1 h2
    rw [List.foldl_cons]
    exact ih (qsInsert p.1 p.2 d)
      (fun kv hkv => hval kv (List.mem_cons_of_mem _ hkv))
      (qsInsert_pairwise p.1 p.2 d h1)
      (qsInsert_values p.1 p.2 (hval p (List.mem_cons_self ..)) d h2)

/-- Values produced by `parse_qsl` are nonempty. -/
theorem parse_qsl_values (q : Str) :
    ∀ kv ∈ parse_qsl q, kv.2 ≠ [] := by
  unfold parse_qsl
  split
  · simp
  · generalize splitAllChar '&' q = pieces
    have hgen : ∀ (pieces : List Str) (acc : List (Str × Str)),
        (∀ kv ∈ acc, kv.2 ≠ []) →
        ∀ kv ∈ pieces.foldr (fun nameValue acc =>
          if nameValue = [] then acc
          else
            match splitFirst '=' nameValue with
            | none => acc
            | some (n, v) =>
              if v = [] then acc
              else
                (pyUnquote (n.map (fun c => if c = '+' then ' ' else c)),
                 pyUnquote (v.map (fun c => if c = '+' then ' ' else c))) ::
                  acc) acc, kv.2 ≠ [] := by
      intro pieces
      induction pieces with
      | nil => intro acc hacc kv hkv; exact hacc kv hkv
      | cons p rest ih =>
        intro acc hacc kv hkv
        rw [List.foldr_cons] at hkv
        revert hkv
        split
        · exact ih acc hacc kv
        · split
          · exact ih acc hacc kv
          · rename_i n v hnv
            split
            · exact ih acc hacc kv
            · rename_i hvne
              intro hkv
              rcases List.mem_cons.mp hkv with rfl | hkv
              · exact pyUnquote_ne_nil _ (by
                  intro he
                  exact hvne (List.map_eq_nil_iff.mp he))
              · exact ih acc hacc kv hkv
    exact hgen _ [] (by simp)

/-- `parse_qs` yields distinct keys and nonempty value lists of
nonempty values. -/
theorem parse_qs_inv (q : Str) :
    (parse_qs q).Pairwise (fun x y => x.1 ≠ y.1) ∧
      ∀ kv ∈ parse_qs q, kv.2 ≠ [] ∧ ∀ u ∈ kv.2, u ≠ [] := by
  unfold parse_qs
  exact foldl_qsInsert_inv (parse_qsl q) [] (parse_qsl_values q)
    (by simp) (by simp)

/-- `parse_qs` inverts `urlencode` on a distinct-key dict with
nonempty value lists of nonempty values. -/
theorem parse_qs_urlencode (L : List (Str × List Str))
    (hpair : L.Pairwise (fun x y => x.1 ≠ y.1))
    (hlists : ∀ kv ∈ L, kv.2 ≠ [])
    (hvals : ∀ kv ∈ L, ∀ v ∈ kv.2, v ≠ []) :
    parse_qs (urlencode L) = L := by
  unfold parse_qs
  rw [parse_qsl_urlencode L hvals]
  exact foldl_qsInsert_flat L [] hlists hpair (by simp)

/-- The query pipeline of `normalize_url` (parse, filter, sort,
re-encode) is idempotent. -/
theorem queryPipe_stable (important : List Str) (q : Str) :
    urlencode (List.insertionSort itemLt
      ((parse_qs (urlencode (List.insertionSort itemLt
        ((parse_qs q).filter
          (fun kv => important.contains kv.1))))).filter
        (fun kv => important.contains kv.1))) =
      urlencode (List.insertionSort itemLt
        ((parse_qs q).filter (fun kv => important.contains kv.1))) := by
  obtain ⟨hpair, hvals⟩ := parse_qs_inv q
  have hFsub := List.filter_sublist
    (p := fun kv => important.contains kv.1) (parse_qs q)
  have hFpair : ((parse_qs q).filter
      (fun kv => important.contains kv.1)).Pairwise
      (fun x y => x.1 ≠ y.1) := hpair.sublist hFsub
  have hperm := List.perm_insertionSort itemLt
    ((parse_qs q).filter (fun kv => important.contains kv.1))
  have hLpair : (List.insertionSort itemLt
      ((parse_qs q).filter (fun kv => important.contains kv.1))).Pairwise
      (fun x y => x.1 ≠ y.1) :=
    (hperm.pairwise_iff (fun h he => h he.symm)).mpr hFpair
  have hLsorted := insertionSort_sorted _ hFpair
  have hLmem : ∀ kv ∈ List.insertionSort itemLt
      ((parse_qs q).filter (fun kv => important.contains kv.1)),
      kv ∈ parse_qs q ∧ important.contains kv.1 = true := by
    intro kv hkv
    have := hperm.mem_iff.mp hkv
    exact ⟨(List.mem_filter.mp this).1, (List.mem_filter.mp this).2⟩
  rw [parse_qs_urlencode _ hLpair
    (fun kv hkv => (hvals kv (hLmem kv hkv).1).1)
    (fun kv hkv v hv => (hvals kv (hLmem kv hkv).1).2 v hv)]
  rw [List.filter_eq_self.mpr (fun kv hkv => (hLmem kv hkv).2)]
  rw [List.Sorted.insertionSort_eq hLsorted]

/-- The scrub removes every tab, CR and LF. -/
theorem scrubUnsafe_not_mem (s : Str) :
    '\x09' ∉ scrubUnsafe s ∧ '\x0d' ∉ scrubUnsafe s ∧
      '\x0a' ∉ scrubUnsafe s := by
  unfold scrubUnsafe
  refine ⟨?_, ?_, ?_⟩
  · intro h
    have h1 := mem_removeChar _ _ _ h
    have h2 := mem_removeChar _ _ _ h1
    have := List.mem_filter.mp h2
    simp at this
  · intro h
    have h1 := mem_removeChar _ _ _ h
    have := List.mem_filter.mp h1
    simp at this
  · intro h
    have := List.mem_filter.mp h
    simp at this

/-- The scrub keeps a non-whitespace head in place. -/
theorem scrubUnsafe_cons_keep (a : Char) (t : Str)
    (h : isC0OrSpace a = false) :
    scrubUnsafe (a :: t) = a :: scrubUnsafe t := by
  have hv : 32 < a.val.toNat := by
    unfold isC0OrSpace at h
    simp only [decide_eq_false_iff_not] at h
    have : ¬ a.val.toNat ≤ 32 := by
      intro hle
      exact h (by
        rw [UInt32.le_def, BitVec.le_def]
        exact hle)
    omega
  have hne : ∀ d : Char, d.val.toNat ≤ 32 → a ≠ d := by
    intro d hd he
    rw [charEq_iff] at he
    omega
  unfold scrubUnsafe removeChar
  rw [List.filter_cons_of_pos (by simp [hne '\x09' (by decide)]),
    List.filter_cons_of_pos (by simp [hne '\x0d' (by decide)]),
    List.filter_cons_of_pos (by simp [hne '\x0a' (by decide)])]

/-- The head after `dropWhile` fails the predicate. -/
theorem dropWhile_head (p : Char → Bool) :
    ∀ l : Str, l.dropWhile p = [] ∨
      p ((l.dropWhile p).headD '?') = false := by
  intro l
  induction l with
  | nil => exact Or.inl rfl
  | cons a t ih =>
    rw [List.dropWhile_cons]
    split
    · exact ih
    · rename_i hpa
      right
      simp only [List.headD_cons]
      cases hx : p a with
      | false => rfl
      | true => exact absurd hx hpa

/-- `splitFirst` returns `none` only when the character is absent. -/
theorem splitFirst_none_not_mem (c : Char) :
    ∀ s, splitFirst c s = none → c ∉ s := by
  intro s
  induction s with
  | nil => intro _; simp
  | cons a t ih =>
    intro h hm
    unfold splitFirst at h
    by_cases hac : a = c
    · rw [if_pos hac] at h
      exact absurd h (by simp)
    · rw [if_neg hac] at h
      rcases List.mem_cons.mp hm with he | hm
      · exact hac he.symm
      · revert h
        cases hsp : splitFirst c t with
        | none => exact fun _ => absurd hm (ih hsp)
        | some p => simp

/-- The fragment and query splits take a prefix of the pre-split
string free of `#` and `?`. -/
theorem splitTwo (url3 url4 u5 : Str)
    (h1 : (splitFirst '#' url3 = none ∧ url4 = url3) ∨
      ∃ b, splitFirst '#' url3 = some (url4, b))
    (h2 : (splitFirst '?' url4 = none ∧ u5 = url4) ∨
      ∃ w, splitFirst '?' url4 = some (u5, w)) :
    (∃ tail, url3 = u5 ++ tail) ∧ '#' ∉ u5 ∧ '?' ∉ u5 := by
  have h4 : (∃ t4, url3 = url4 ++ t4) ∧ '#' ∉ url4 := by
    rcases h1 with ⟨hn, he⟩ | ⟨b, hs⟩
    · exact ⟨⟨[], by rw [he, List.append_nil]⟩,
        he ▸ splitFirst_none_not_mem '#' url3 hn⟩
    · obtain ⟨hdec, hfree⟩ := splitFirst_eq_of '#' url3 url4 b hs
      exact ⟨⟨'#' :: b, hdec⟩, hfree⟩
  have h5 : (∃ t5, url4 = u5 ++ t5) ∧ '?' ∉ u5 := by
    rcases h2 with ⟨hn, he⟩ | ⟨w, hs⟩
    · exact ⟨⟨[], by rw [he, List.append_nil]⟩,
        he ▸ splitFirst_none_not_mem '?' url4 hn⟩
    · obtain ⟨hdec, hfree⟩ := splitFirst_eq_of '?' url4 u5 w hs
      exact ⟨⟨'?' :: w, hdec⟩, hfree⟩
  obtain ⟨⟨t4, hd4⟩, hf4⟩ := h4
  obtain ⟨⟨t5, hd5⟩, hf5⟩ := h5
  refine ⟨⟨t5 ++ t4, by rw [hd4, hd5, List.append_assoc]⟩, ?_, hf5⟩
  intro hm
  exact hf4 (hd5 ▸ List.mem_append.mpr (Or.inl hm))

/-- Packaging of the `pyUrlsplit` invariants from branch-level
facts. -/
theorem srFacts_close (scheme netloc url3 path : Str)
    (hσ : scheme = [] ∨ (scheme ≠ [] ∧
      isAsciiAlpha (scheme.headD ' ') = true ∧
      scheme.all isSchemeChar = true ∧ lower scheme = scheme))
    (hnl1 : netloc.all notNetlocDelim = true)
    (hnl2 : hasChar '[' netloc = false)
    (hnl3 : hasChar ']' netloc = false)
    (hnl4 : '\x09' ∉ netloc ∧ '\x0d' ∉ netloc ∧ '\x0a' ∉ netloc)
    (hu3 : '\x09' ∉ url3 ∧ '\x0d' ∉ url3 ∧ '\x0a' ∉ url3)
    (hdec : ∃ tail, url3 = path ++ tail)
    (hph : '#' ∉ path) (hpq : '?' ∉ path)
    (hhead : scheme = [] → netloc = [] →
      (url3 = [] ∨ isC0OrSpace (url3.headD '?') = false))
    (hguard : scheme = [] → netloc = [] →
      (hasChar ':' url3 = false ∨
        isAsciiAlpha (url3.headD ' ') = false ∨ schemeBlocked url3)) :
    (scheme = [] ∨ (scheme ≠ [] ∧
        isAsciiAlpha (scheme.headD ' ') = true ∧
        scheme.all isSchemeChar = true ∧ lower scheme = scheme)) ∧
    netloc.all notNetlocDelim = true ∧
    hasChar '[' netloc = false ∧ hasChar ']' netloc = false ∧
    '\x09' ∉ netloc ∧ '\x0d' ∉ netloc ∧ '\x0a' ∉ netloc ∧
    hasChar '#' path = false ∧ hasChar '?' path = false ∧
    '\x09' ∉ path ∧ '\x0d' ∉ path ∧ '\x0a' ∉ path ∧
    (scheme = [] → netloc = [] →
      (path = [] ∨ isC0OrSpace (path.headD '?') = false)) ∧
    (scheme = [] → netloc = [] →
      (hasChar ':' path = false ∨
        isAsciiAlpha (path.headD ' ') = false ∨ schemeBlocked path)) := by
  obtain ⟨tail, htail⟩ := hdec
  have hsub : ∀ c : Char, c ∈ path → c ∈ url3 := by
    intro c hc
    rw [htail]
    exact List.mem_append.mpr (Or.inl hc)
  have hheadeq : path ≠ [] → path.headD '?' = url3.headD '?' := by
    intro hne
    cases path with
    | nil => exact absurd rfl hne
    | cons a t => rw [htail]; rfl
  have hheadeq' : path ≠ [] → path.headD ' ' = url3.headD ' ' := by
    intro hne
    cases path with
    | nil => exact absurd rfl hne
    | cons a t => rw [htail]; rfl
  refine ⟨hσ, hnl1, hnl2, hnl3, hnl4.1, hnl4.2.1, hnl4.2.2,
    (hasChar_eq_false_iff ..).mpr hph, (hasChar_eq_false_iff ..).mpr hpq,
    fun hm => hu3.1 (hsub _ hm), fun hm => hu3.2.1 (hsub _ hm),
    fun hm => hu3.2.2 (hsub _ hm), ?_, ?_⟩
  · intro hs hn
    by_cases hne : path = []
    · exact Or.inl hne
    · rcases hhead hs hn with h | h
      · exfalso
        rw [htail] at h
        exact hne (List.append_eq_nil.mp h).1
      · right
        rw [hheadeq hne]
        exact h
  · intro hs hn
    by_cases hne : path = []
    · left
      rw [hne]
      rfl
    · rcases hguard hs hn with h | h | h
      · left
        apply (hasChar_eq_false_iff ..).mpr
        intro hm
        exact absurd ((hasChar_iff ..).mpr (hsub _ hm)) (by rw [h]; simp)
      · right; left
        rw [hheadeq' hne]
        exact h
      · right; right
        exact schemeBlocked_of_isPrefix ⟨tail, htail.symm⟩ h

/-- A lowercased valid scheme candidate is a valid, lowercase-stable
scheme. -/
theorem lower_scheme_class (before : Str) (h1 : before ≠ [])
    (h2 : isAsciiAlpha (before.headD ' ') = true)
    (h3 : before.all isSchemeChar = true) :
    lower before ≠ [] ∧
      isAsciiAlpha ((lower before).headD ' ') = true ∧
      (lower before).all isSchemeChar = true ∧
      lower (lower before) = lower before := by
  refine ⟨?_, ?_, ?_, lower_idem before⟩
  · intro he
    exact h1 (List.map_eq_nil_iff.mp he)
  · cases before with
    | nil => exact absurd rfl h1
    | cons b0 bt =>
      show isAsciiAlpha (lowerChar b0) = true
      rw [isAsciiAlpha_lowerChar]
      exact h2
  · apply List.all_eq_true.mpr
    intro x hx
    obtain ⟨x0, hx0, hxe⟩ := List.mem_map.mp hx
    rw [← hxe, isSchemeChar_lowerChar]
    exact List.all_eq_true.mp h3 x0 hx0

/-- A netloc delimiter is `/`, `?` or `#`. -/
theorem notDelim_false_elim (c : Char) (h : notNetlocDelim c = false) :
    c = '/' ∨ c = '?' ∨ c = '#' := by
  unfold notNetlocDelim at h
  simp only [Bool.and_eq_false_iff, decide_eq_false_iff_not,
    not_not] at h
  tauto

/-- A netloc delimiter is neither whitespace nor alphabetic. -/
theorem notDelim_head_facts (c : Char) (h : notNetlocDelim c = false) :
    isC0OrSpace c = false ∧ isAsciiAlpha c = false := by
  rcases notDelim_false_elim c h with rfl | rfl | rfl <;>
    exact ⟨by decide, by decide⟩

theorem pyUrlsplit_inv (u : Str) (sr : SplitRes)
    (hp : pyUrlsplit u [] = Except.ok sr) :
    (sr.scheme = [] ∨ (sr.scheme ≠ [] ∧
        isAsciiAlpha (sr.scheme.headD ' ') = true ∧
        sr.scheme.all isSchemeChar = true ∧ lower sr.scheme = sr.scheme)) ∧
    sr.netloc.all notNetlocDelim = true ∧
    hasChar '[' sr.netloc = false ∧ hasChar ']' sr.netloc = false ∧
    '\x09' ∉ sr.netloc ∧ '\x0d' ∉ sr.netloc ∧ '\x0a' ∉ sr.netloc ∧
    hasChar '#' sr.path = false ∧ hasChar '?' sr.path = false ∧
    '\x09' ∉ sr.path ∧ '\x0d' ∉ sr.path ∧ '\x0a' ∉ sr.path ∧
    (sr.scheme = [] → sr.netloc = [] →
      (sr.path = [] ∨ isC0OrSpace (sr.path.headD '?') = false)) ∧
    (sr.scheme = [] → sr.netloc = [] →
      (hasChar ':' sr.path = false ∨
        isAsciiAlpha (sr.path.headD ' ') = false ∨
        schemeBlocked sr.path)) := by
  unfold pyUrlsplit at hp
  simp only [bind, Except.bind] at hp
  simp only [show scrubUnsafe (stripC0Both []) = ([] : Str) from rfl] at hp
  generalize hu1 : scrubUnsafe (lstripC0 u) = url1 at hp
  have hu1unsafe : '\x09' ∉ url1 ∧ '\x0d' ∉ url1 ∧ '\x0a' ∉ url1 := by
    rw [← hu1]
    exact scrubUnsafe_not_mem (lstripC0 u)
  have hu1head : url1 = [] ∨ isC0OrSpace (url1.headD '?') = false := by
    cases hl : lstripC0 u with
    | nil =>
      left
      rw [← hu1, hl]
      rfl
    | cons a t =>
      have hd := dropWhile_head isC0OrSpace u
      rw [show List.dropWhile isC0OrSpace u = lstripC0 u from rfl, hl] at hd
      rcases hd with hd | hd
      · exact absurd hd (by simp)
      · simp only [List.headD_cons] at hd
        right
        rw [← hu1, hl, scrubUnsafe_cons_keep a t hd]
        exact hd
  cases hsp : splitFirst ':' url1 with
  | none =>
    rw [hsp] at hp
    dsimp only at hp
    have hσ : ([] : Str) = [] ∨ (([] : Str) ≠ [] ∧
        isAsciiAlpha (([] : Str).headD ' ') = true ∧
        ([] : Str).all isSchemeChar = true ∧
        lower ([] : Str) = ([] : Str)) := Or.inl rfl
    by_cases htk : List.take 2 url1 = ['/', '/']
    · rw [if_pos htk] at hp
      have hbase := hu1unsafe
      split at hp
      · exact absurd hp (by simp)
      · rename_i hbr
        dsimp only [pure, Except.pure] at hp
        generalize hnle : List.takeWhile notNetlocDelim
          (List.drop 2 url1) = nl at hp hbr
        generalize hreste : List.dropWhile notNetlocDelim
          (List.drop 2 url1) = rest at hp
        have hnl1 : nl.all notNetlocDelim = true := by
          rw [← hnle]
          exact List.all_eq_true.mpr (fun x hx => List.mem_takeWhile_imp hx)
        have hsubnl : ∀ c : Char, c ∈ nl → c ∈ url1 := by
          intro c hc
          rw [← hnle] at hc
          exact List.mem_of_mem_drop ((List.takeWhile_sublist _).subset hc)
        have hnl4 : '\x09' ∉ nl ∧ '\x0d' ∉ nl ∧ '\x0a' ∉ nl :=
          ⟨fun hm => hbase.1 (hsubnl _ hm),
           fun hm => hbase.2.1 (hsubnl _ hm),
           fun hm => hbase.2.2 (hsubnl _ hm)⟩
        simp only [Bool.or_eq_true, not_or] at hbr
        have hnl2 : hasChar '[' nl = false := by
          cases hx : hasChar '[' nl with
          | false => rfl
          | true => exact absurd hx hbr.1
        have hnl3 : hasChar ']' nl = false := by
          cases hx : hasChar ']' nl with
          | false => rfl
          | true => exact absurd hx hbr.2
        have hsubrest : ∀ c : Char, c ∈ rest → c ∈ url1 := by
          intro c hc
          rw [← hreste] at hc
          exact List.mem_of_mem_drop ((List.dropWhile_sublist _).subset hc)
        have hu3 : '\x09' ∉ rest ∧ '\x0d' ∉ rest ∧ '\x0a' ∉ rest :=
          ⟨fun hm => hbase.1 (hsubrest _ hm),
           fun hm => hbase.2.1 (hsubrest _ hm),
           fun hm => hbase.2.2 (hsubrest _ hm)⟩
        have hreststruct := dropWhile_head notNetlocDelim (List.drop 2 url1)
        rw [hreste] at hreststruct
        have hhead : ([] : Str) = [] → nl = [] →
            (rest = [] ∨ isC0OrSpace (rest.headD '?') = false) := by
          intro _ _
          cases rest with
          | nil => exact Or.inl rfl
          | cons r0 rt =>
            rcases hreststruct with h | h
            · exact absurd h (by simp)
            · right
              simp only [List.headD_cons] at h ⊢
              exact (notDelim_head_facts r0 h).1
        have hguard : ([] : Str) = [] → nl = [] →
            (hasChar ':' rest = false ∨
              isAsciiAlpha (rest.headD ' ') = false ∨
              schemeBlocked rest) := by
          intro _ _
          cases rest with
          | nil => exact Or.inl rfl
          | cons r0 rt =>
            rcases hreststruct with h | h
            · exact absurd h (by simp)
            · simp only [List.headD_cons] at h ⊢
              exact Or.inr (Or.inl (notDelim_head_facts r0 h).2)
        cases hfr : splitFirst '#' rest with
        | none =>
          rw [hfr] at hp
          dsimp only at hp
          cases hq : splitFirst '?' rest with
          | none =>
            rw [hq] at hp
            dsimp only at hp
            simp only [pure, Except.pure, Except.ok.injEq] at hp
            subst hp
            obtain ⟨hdec, hph, hpq⟩ := splitTwo rest rest rest
              (Or.inl ⟨hfr, rfl⟩) (Or.inl ⟨hq, rfl⟩)
            exact srFacts_close ([] : Str) nl rest rest hσ hnl1 hnl2
              hnl3 hnl4 hu3 hdec hph hpq hhead hguard
          | some pq =>
            obtain ⟨z, w⟩ := pq
            rw [hq] at hp
            dsimp only at hp
            simp only [pure, Except.pure, Except.ok.injEq] at hp
            subst hp
            obtain ⟨hdec, hph, hpq⟩ := splitTwo rest rest z
              (Or.inl ⟨hfr, rfl⟩) (Or.inr ⟨w, hq⟩)
            exact srFacts_close ([] : Str) nl rest z hσ hnl1 hnl2
              hnl3 hnl4 hu3 hdec hph hpq hhead hguard
        | some pf =>
          obtain ⟨x4, f4⟩ := pf
          rw [hfr] at hp
          dsimp only at hp
          cases hq : splitFirst '?' x4 with
          | none =>
            rw [hq] at hp
            dsimp only at hp
            simp only [pure, Except.pure, Except.ok.injEq] at hp
            subst hp
            obtain ⟨hdec, hph, hpq⟩ := splitTwo rest x4 x4
              (Or.inr ⟨f4, hfr⟩) (Or.inl ⟨hq, rfl⟩)
            exact srFacts_close ([] : Str) nl rest x4 hσ hnl1 hnl2
              hnl3 hnl4 hu3 hdec hph hpq hhead hguard
          | some pq =>
            obtain ⟨z, w⟩ := pq
            rw [hq] at hp
            dsimp only at hp
            simp only [pure, Except.pure, Except.ok.injEq] at hp
            subst hp
            obtain ⟨hdec, hph, hpq⟩ := splitTwo rest x4 z
              (Or.inr ⟨f4, hfr⟩) (Or.inr ⟨w, hq⟩)
            exact srFacts_close ([] : Str) nl rest z hσ hnl1 hnl2
              hnl3 hnl4 hu3 hdec hph hpq hhead hguard

    · rw [if_neg htk] at hp
      dsimp only [pure, Except.pure] at hp
      have hnl1 : ([] : Str).all notNetlocDelim = true := rfl
      have hnl2 : hasChar '[' ([] : Str) = false := rfl
      have hnl3 : hasChar ']' ([] : Str) = false := rfl
      have hnl4 : '\x09' ∉ ([] : Str) ∧ '\x0d' ∉ ([] : Str) ∧
          '\x0a' ∉ ([] : Str) := ⟨by simp, by simp, by simp⟩

      have hu3 := hu1unsafe
      have hhead : ([] : Str) = [] → ([] : Str) = [] →
          (url1 = [] ∨ isC0OrSpace (url1.headD '?') = false) :=
        fun _ _ => hu1head
      have hguard : ([] : Str) = [] → ([] : Str) = [] →
          (hasChar ':' url1 = false ∨
            isAsciiAlpha (url1.headD ' ') = false ∨
            schemeBlocked url1) :=
        fun _ _ => Or.inl ((hasChar_eq_false_iff ..).mpr
          (splitFirst_none_not_mem ':' url1 hsp))
      cases hfr : splitFirst '#' url1 with
      | none =>
        rw [hfr] at hp
        dsimp only at hp
        cases hq : splitFirst '?' url1 with
        | none =>
          rw [hq] at hp
          dsimp only at hp
          simp only [pure, Except.pure, Except.ok.injEq] at hp
          subst hp
          obtain ⟨hdec, hph, hpq⟩ := splitTwo url1 url1 url1
            (Or.inl ⟨hfr, rfl⟩) (Or.inl ⟨hq, rfl⟩)
          exact srFacts_close ([] : Str) ([] : Str) url1 url1 hσ hnl1 hnl2
            hnl3 hnl4 hu3 hdec hph hpq hhead hguard
        | some pq =>
          obtain ⟨z, w⟩ := pq
          rw [hq] at hp
          dsimp only at hp
          simp only [pure, Except.pure, Except.ok.injEq] at hp
          subst hp
          obtain ⟨hdec, hph, hpq⟩ := splitTwo url1 url1 z
            (Or.inl ⟨hfr, rfl⟩) (Or.inr ⟨w, hq⟩)
          exact srFacts_close ([] : Str) ([] : Str) url1 z hσ hnl1 hnl2
            hnl3 hnl4 hu3 hdec hph hpq hhead hguard
      | some pf =>
        obtain ⟨x4, f4⟩ := pf
        rw [hfr] at hp
        dsimp only at hp
        cases hq : splitFirst '?' x4 with
        | none =>
          rw [hq] at hp
          dsimp only at hp
          simp only [pure, Except.pure, Except.ok.injEq] at hp
          subst hp
          obtain ⟨hdec, hph, hpq⟩ := splitTwo url1 x4 x4
            (Or.inr ⟨f4, hfr⟩) (Or.inl ⟨hq, rfl⟩)
          exact srFacts_close ([] : Str) ([] : Str) url1 x4 hσ hnl1 hnl2
            hnl3 hnl4 hu3 hdec hph hpq hhead hguard
        | some pq =>
          obtain ⟨z, w⟩ := pq
          rw [hq] at hp
          dsimp only at hp
          simp only [pure, Except.pure, Except.ok.injEq] at hp
          subst hp
          obtain ⟨hdec, hph, hpq⟩ := splitTwo url1 x4 z
            (Or.inr ⟨f4, hfr⟩) (Or.inr ⟨w, hq⟩)
          exact srFacts_close ([] : Str) ([] : Str) url1 z hσ hnl1 hnl2
            hnl3 hnl4 hu3 hdec hph hpq hhead hguard

  | some pr =>
    obtain ⟨before, after⟩ := pr
    rw [hsp] at hp
    dsimp only at hp
    obtain ⟨hdu, hnb⟩ := splitFirst_eq_of ':' url1 before after hsp
    by_cases hdet : (decide (before ≠ []) &&
        isAsciiAlpha (List.headD before ' ') &&
        List.all before isSchemeChar) = true
    · rw [if_pos hdet] at hp
      dsimp only at hp
      simp only [Bool.and_eq_true, decide_eq_true_eq] at hdet
      obtain ⟨⟨hbne, hbalpha⟩, hball⟩ := hdet
      have hcls := lower_scheme_class before hbne hbalpha hball
      have hσ : lower before = [] ∨ (lower before ≠ [] ∧
          isAsciiAlpha ((lower before).headD ' ') = true ∧
          (lower before).all isSchemeChar = true ∧
          lower (lower before) = lower before) := Or.inr hcls
      have hsubafter : ∀ c : Char, c ∈ after → c ∈ url1 := by
        intro c hc
        rw [hdu]
        exact List.mem_append.mpr (Or.inr (List.mem_cons_of_mem _ hc))
      have hafterunsafe : '\x09' ∉ after ∧ '\x0d' ∉ after ∧
          '\x0a' ∉ after :=
        ⟨fun hm => hu1unsafe.1 (hsubafter _ hm),
         fun hm => hu1unsafe.2.1 (hsubafter _ hm),
         fun hm => hu1unsafe.2.2 (hsubafter _ hm)⟩
      by_cases htk : List.take 2 after = ['/', '/']
      · rw [if_pos htk] at hp
        have hbase := hafterunsafe
        split at hp
        · exact absurd hp (by simp)
        · rename_i hbr
          dsimp only [pure, Except.pure] at hp
          generalize hnle : List.takeWhile notNetlocDelim
            (List.drop 2 after) = nl at hp hbr
          generalize hreste : List.dropWhile notNetlocDelim
            (List.drop 2 after) = rest at hp
          have hnl1 : nl.all notNetlocDelim = true := by
            rw [← hnle]
            exact List.all_eq_true.mpr (fun x hx => List.mem_takeWhile_imp hx)
          have hsubnl : ∀ c : Char, c ∈ nl → c ∈ after := by
            intro c hc
            rw [← hnle] at hc
            exact List.mem_of_mem_drop ((List.takeWhile_sublist _).subset hc)
          have hnl4 : '\x09' ∉ nl ∧ '\x0d' ∉ nl ∧ '\x0a' ∉ nl :=
            ⟨fun hm => hbase.1 (hsubnl _ hm),
             fun hm => hbase.2.1 (hsubnl _ hm),
             fun hm => hbase.2.2 (hsubnl _ hm)⟩
          simp only [Bool.or_eq_true, not_or] at hbr
          have hnl2 : hasChar '[' nl = false := by
            cases hx : hasChar '[' nl with
            | false => rfl
            | true => exact absurd hx hbr.1
          have hnl3 : hasChar ']' nl = false := by
            cases hx : hasChar ']' nl with
            | false => rfl
            | true => exact absurd hx hbr.2
          have hsubrest : ∀ c : Char, c ∈ rest → c ∈ after := by
            intro c hc
            rw [← hreste] at hc
            exact List.mem_of_mem_drop ((List.dropWhile_sublist _).subset hc)
          have hu3 : '\x09' ∉ rest ∧ '\x0d' ∉ rest ∧ '\x0a' ∉ rest :=
            ⟨fun hm => hbase.1 (hsubrest _ hm),
             fun hm => hbase.2.1 (hsubrest _ hm),
             fun hm => hbase.2.2 (hsubrest _ hm)⟩
          have hreststruct := dropWhile_head notNetlocDelim (List.drop 2 after)
          rw [hreste] at hreststruct
          have hhead : (lower before) = [] → nl = [] →
              (rest = [] ∨ isC0OrSpace (rest.headD '?') = false) := by
            intro _ _
            cases rest with
            | nil => exact Or.inl rfl
            | cons r0 rt =>
              rcases hreststruct with h | h
              · exact absurd h (by simp)
              · right
                simp only [List.headD_cons] at h ⊢
                exact (notDelim_head_facts r0 h).1
          have hguard : (lower before) = [] → nl = [] →
              (hasChar ':' rest = false ∨
                isAsciiAlpha (rest.headD ' ') = false ∨
                schemeBlocked rest) := by
            intro _ _
            cases rest with
            | nil => exact Or.inl rfl
            | cons r0 rt =>
              rcases hreststruct with h | h
              · exact absurd h (by simp)
              · simp only [List.headD_cons] at h ⊢
                exact Or.inr (Or.inl (notDelim_head_facts r0 h).2)
          cases hfr : splitFirst '#' rest with
          | none =>
            rw [hfr] at hp
            dsimp only at hp
            cases hq : splitFirst '?' rest with
            | none =>
              rw [hq] at hp
              dsimp only at hp
              simp only [pure, Except.pure, Except.ok.injEq] at hp
              subst hp
              obtain ⟨hdec, hph, hpq⟩ := splitTwo rest rest rest
                (Or.inl ⟨hfr, rfl⟩) (Or.inl ⟨hq, rfl⟩)
              exact srFacts_close (lower before) nl rest rest hσ hnl1 hnl2
                hnl3 hnl4 hu3 hdec hph hpq hhead hguard
            | some pq =>
              obtain ⟨z, w⟩ := pq
              rw [hq] at hp
              dsimp only at hp
              simp only [pure, Except.pure, Except.ok.injEq] at hp
              subst hp
              obtain ⟨hdec, hph, hpq⟩ := splitTwo rest rest z
                (Or.inl ⟨hfr, rfl⟩) (Or.inr ⟨w, hq⟩)
              exact srFacts_close (lower before) nl rest z hσ hnl1 hnl2
                hnl3 hnl4 hu3 hdec hph hpq hhead hguard
          | some pf =>
            obtain ⟨x4, f4⟩ := pf
            rw [hfr] at hp
            dsimp only at hp
            cases hq : splitFirst '?' x4 with
            | none =>
              rw [hq] at hp
              dsimp only at hp
              simp only [pure, Except.pure, Except.ok.injEq] at hp
              subst hp
              obtain ⟨hdec, hph, hpq⟩ := splitTwo rest x4 x4
                (Or.inr ⟨f4, hfr⟩) (Or.inl ⟨hq, rfl⟩)
              exact srFacts_close (lower before) nl rest x4 hσ hnl1 hnl2
                hnl3 hnl4 hu3 hdec hph hpq hhead hguard
            | some pq =>
              obtain ⟨z, w⟩ := pq
              rw [hq] at hp
              dsimp only at hp
              simp only [pure, Except.pure, Except.ok.injEq] at hp
              subst hp
              obtain ⟨hdec, hph, hpq⟩ := splitTwo rest x4 z
                (Or.inr ⟨f4, hfr⟩) (Or.inr ⟨w, hq⟩)
              exact srFacts_close (lower before) nl rest z hσ hnl1 hnl2
                hnl3 hnl4 hu3 hdec hph hpq hhead hguard

      · rw [if_neg htk] at hp
        dsimp only [pure, Except.pure] at hp
        have hnl1 : ([] : Str).all notNetlocDelim = true := rfl
        have hnl2 : hasChar '[' ([] : Str) = false := rfl
        have hnl3 : hasChar ']' ([] : Str) = false := rfl
        have hnl4 : '\x09' ∉ ([] : Str) ∧ '\x0d' ∉ ([] : Str) ∧
            '\x0a' ∉ ([] : Str) := ⟨by simp, by simp, by simp⟩

        have hu3 := hafterunsafe
        have hhead : lower before = [] → ([] : Str) = [] →
            (after = [] ∨ isC0OrSpace (after.headD '?') = false) :=
          fun hs _ => absurd hs hcls.1
        have hguard : lower before = [] → ([] : Str) = [] →
            (hasChar ':' after = false ∨
              isAsciiAlpha (after.headD ' ') = false ∨
              schemeBlocked after) :=
          fun hs _ => absurd hs hcls.1
        cases hfr : splitFirst '#' after with
        | none =>
          rw [hfr] at hp
          dsimp only at hp
          cases hq : splitFirst '?' after with
          | none =>
            rw [hq] at hp
            dsimp only at hp
            simp only [pure, Except.pure, Except.ok.injEq] at hp
            subst hp
            obtain ⟨hdec, hph, hpq⟩ := splitTwo after after after
              (Or.inl ⟨hfr, rfl⟩) (Or.inl ⟨hq, rfl⟩)
            exact srFacts_close (lower before) ([] : Str) after after hσ hnl1 hnl2
              hnl3 hnl4 hu3 hdec hph hpq hhead hguard
          | some pq =>
            obtain ⟨z, w⟩ := pq
            rw [hq] at hp
            dsimp only at hp
            simp only [pure, Except.pure, Except.ok.injEq] at hp
            subst hp
            obtain ⟨hdec, hph, hpq⟩ := splitTwo after after z
              (Or.inl ⟨hfr, rfl⟩) (Or.inr ⟨w, hq⟩)
            exact srFacts_close (lower before) ([] : Str) after z hσ hnl1 hnl2
              hnl3 hnl4 hu3 hdec hph hpq hhead hguard
        | some pf =>
          obtain ⟨x4, f4⟩ := pf
          rw [hfr] at hp
          dsimp only at hp
          cases hq : splitFirst '?' x4 with
          | none =>
            rw [hq] at hp
            dsimp only at hp
            simp only [pure, Except.pure, Except.ok.injEq] at hp
            subst hp
            obtain ⟨hdec, hph, hpq⟩ := splitTwo after x4 x4
              (Or.inr ⟨f4, hfr⟩) (Or.inl ⟨hq, rfl⟩)
            exact srFacts_close (lower before) ([] : Str) after x4 hσ hnl1 hnl2
              hnl3 hnl4 hu3 hdec hph hpq hhead hguard
          | some pq =>
            obtain ⟨z, w⟩ := pq
            rw [hq] at hp
            dsimp only at hp
            simp only [pure, Except.pure, Except.ok.injEq] at hp
            subst hp
            obtain ⟨hdec, hph, hpq⟩ := splitTwo after x4 z
              (Or.inr ⟨f4, hfr⟩) (Or.inr ⟨w, hq⟩)
            exact srFacts_close (lower before) ([] : Str) after z hσ hnl1 hnl2
              hnl3 hnl4 hu3 hdec hph hpq hhead hguard

    · rw [if_neg hdet] at hp
      dsimp only at hp
      have hσ : ([] : Str) = [] ∨ (([] : Str) ≠ [] ∧
          isAsciiAlpha (([] : Str).headD ' ') = true ∧
          ([] : Str).all isSchemeChar = true ∧
          lower ([] : Str) = ([] : Str)) := Or.inl rfl
      by_cases htk : List.take 2 url1 = ['/', '/']
      · rw [if_pos htk] at hp
        have hbase := hu1unsafe
        split at hp
        · exact absurd hp (by simp)
        · rename_i hbr
          dsimp only [pure, Except.pure] at hp
          generalize hnle : List.takeWhile notNetlocDelim
            (List.drop 2 url1) = nl at hp hbr
          generalize hreste : List.dropWhile notNetlocDelim
            (List.drop 2 url1) = rest at hp
          have hnl1 : nl.all notNetlocDelim = true := by
            rw [← hnle]
            exact List.all_eq_true.mpr (fun x hx => List.mem_takeWhile_imp hx)
          have hsubnl : ∀ c : Char, c ∈ nl → c ∈ url1 := by
            intro c hc
            rw [← hnle] at hc
            exact List.mem_of_mem_drop ((List.takeWhile_sublist _).subset hc)
          have hnl4 : '\x09' ∉ nl ∧ '\x0d' ∉ nl ∧ '\x0a' ∉ nl :=
            ⟨fun hm => hbase.1 (hsubnl _ hm),
             fun hm => hbase.2.1 (hsubnl _ hm),
             fun hm => hbase.2.2 (hsubnl _ hm)⟩
          simp only [Bool.or_eq_true, not_or] at hbr
          have hnl2 : hasChar '[' nl = false := by
            cases hx : hasChar '[' nl with
            | false => rfl
            | true => exact absurd hx hbr.1
          have hnl3 : hasChar ']' nl = false := by
            cases hx : hasChar ']' nl with
            | false => rfl
            | true => exact absurd hx hbr.2
          have hsubrest : ∀ c : Char, c ∈ rest → c ∈ url1 := by
            intro c hc
            rw [← hreste] at hc
            exact List.mem_of_mem_drop ((List.dropWhile_sublist _).subset hc)
          have hu3 : '\x09' ∉ rest ∧ '\x0d' ∉ rest ∧ '\x0a' ∉ rest :=
            ⟨fun hm => hbase.1 (hsubrest _ hm),
             fun hm => hbase.2.1 (hsubrest _ hm),
             fun hm => hbase.2.2 (hsubrest _ hm)⟩
          have hreststruct := dropWhile_head notNetlocDelim (List.drop 2 url1)
          rw [hreste] at hreststruct
          have hhead : ([] : Str) = [] → nl = [] →
              (rest = [] ∨ isC0OrSpace (rest.headD '?') = false) := by
            intro _ _
            cases rest with
            | nil => exact Or.inl rfl
            | cons r0 rt =>
              rcases hreststruct with h | h
              · exact absurd h (by simp)
              · right
                simp only [List.headD_cons] at h ⊢
                exact (notDelim_head_facts r0 h).1
          have hguard : ([] : Str) = [] → nl = [] →
              (hasChar ':' rest = false ∨
                isAsciiAlpha (rest.headD ' ') = false ∨
                schemeBlocked rest) := by
            intro _ _
            cases rest with
            | nil => exact Or.inl rfl
            | cons r0 rt =>
              rcases hreststruct with h | h
              · exact absurd h (by simp)
              · simp only [List.headD_cons] at h ⊢
                exact Or.inr (Or.inl (notDelim_head_facts r0 h).2)
          cases hfr : splitFirst '#' rest with
          | none =>
            rw [hfr] at hp
            dsimp only at hp
            cases hq : splitFirst '?' rest with
            | none =>
              rw [hq] at hp
              dsimp only at hp
              simp only [pure, Except.pure, Except.ok.injEq] at hp
              subst hp
              obtain ⟨hdec, hph, hpq⟩ := splitTwo rest rest rest
                (Or.inl ⟨hfr, rfl⟩) (Or.inl ⟨hq, rfl⟩)
              exact srFacts_close ([] : Str) nl rest rest hσ hnl1 hnl2
                hnl3 hnl4 hu3 hdec hph hpq hhead hguard
            | some pq =>
              obtain ⟨z, w⟩ := pq
              rw [hq] at hp
              dsimp only at hp
              simp only [pure, Except.pure, Except.ok.injEq] at hp
              subst hp
              obtain ⟨hdec, hph, hpq⟩ := splitTwo rest rest z
                (Or.inl ⟨hfr, rfl⟩) (Or.inr ⟨w, hq⟩)
              exact srFacts_close ([] : Str) nl rest z hσ hnl1 hnl2
                hnl3 hnl4 hu3 hdec hph hpq hhead hguard
          | some pf =>
            obtain ⟨x4, f4⟩ := pf
            rw [hfr] at hp
            dsimp only at hp
            cases hq : splitFirst '?' x4 with
            | none =>
              rw [hq] at hp
              dsimp only at hp
              simp only [pure, Except.pure, Except.ok.injEq] at hp
              subst hp
              obtain ⟨hdec, hph, hpq⟩ := splitTwo rest x4 x4
                (Or.inr ⟨f4, hfr⟩) (Or.inl ⟨hq, rfl⟩)
              exact srFacts_close ([] : Str) nl rest x4 hσ hnl1 hnl2
                hnl3 hnl4 hu3 hdec hph hpq hhead hguard
            | some pq =>
              obtain ⟨z, w⟩ := pq
              rw [hq] at hp
              dsimp only at hp
              simp only [pure, Except.pure, Except.ok.injEq] at hp
              subst hp
              obtain ⟨hdec, hph, hpq⟩ := splitTwo rest x4 z
                (Or.inr ⟨f4, hfr⟩) (Or.inr ⟨w, hq⟩)
              exact srFacts_close ([] : Str) nl rest z hσ hnl1 hnl2
                hnl3 hnl4 hu3 hdec hph hpq hhead hguard

      · rw [if_neg htk] at hp
        dsimp only [pure, Except.pure] at hp
        have hnl1 : ([] : Str).all notNetlocDelim = true := rfl
        have hnl2 : hasChar '[' ([] : Str) = false := rfl
        have hnl3 : hasChar ']' ([] : Str) = false := rfl
        have hnl4 : '\x09' ∉ ([] : Str) ∧ '\x0d' ∉ ([] : Str) ∧
            '\x0a' ∉ ([] : Str) := ⟨by simp, by simp, by simp⟩

        have hu3 := hu1unsafe
        have hhead : ([] : Str) = [] → ([] : Str) = [] →
            (url1 = [] ∨ isC0OrSpace (url1.headD '?') = false) :=
          fun _ _ => hu1head
        have hguard : ([] : Str) = [] → ([] : Str) = [] →
            (hasChar ':' url1 = false ∨
              isAsciiAlpha (url1.headD ' ') = false ∨
              schemeBlocked url1) := by
          intro _ _
          by_cases hbnil : before = []
          · right; left
            rw [hdu, hbnil]
            rfl
          · cases hb : before with
            | nil => exact absurd hb hbnil
            | cons b0 bt =>
              by_cases hal : isAsciiAlpha b0 = true
              · by_cases hallb : before.all isSchemeChar = true
                · exfalso
                  apply hdet
                  simp only [Bool.and_eq_true, decide_eq_true_eq]
                  exact ⟨⟨hbnil, by rw [hb]; exact hal⟩, hallb⟩
                · have hex : ∃ c ∈ before, ¬ isSchemeChar c = true := by
                    by_contra hcon
                    push_neg at hcon
                    exact hallb (List.all_eq_true.mpr hcon)
                  obtain ⟨c, hc, hcs⟩ := hex
                  exact Or.inr (Or.inr (schemeBlocked_of_splitFirst url1
                    before after hsp ⟨c, hc, by simpa using hcs⟩))
              · right; left
                rw [hdu, hb]
                simp only [List.cons_append, List.headD_cons]
                cases hx : isAsciiAlpha b0 with
                | false => rfl
                | true => exact absurd hx hal
        cases hfr : splitFirst '#' url1 with
        | none =>
          rw [hfr] at hp
          dsimp only at hp
          cases hq : splitFirst '?' url1 with
          | none =>
            rw [hq] at hp
            dsimp only at hp
            simp only [pure, Except.pure, Except.ok.injEq] at hp
            subst hp
            obtain ⟨hdec, hph, hpq⟩ := splitTwo url1 url1 url1
              (Or.inl ⟨hfr, rfl⟩) (Or.inl ⟨hq, rfl⟩)
            exact srFacts_close ([] : Str) ([] : Str) url1 url1 hσ hnl1 hnl2
              hnl3 hnl4 hu3 hdec hph hpq hhead hguard
          | some pq =>
            obtain ⟨z, w⟩ := pq
            rw [hq] at hp
            dsimp only at hp
            simp only [pure, Except.pure, Except.ok.injEq] at hp
            subst hp
            obtain ⟨hdec, hph, hpq⟩ := splitTwo url1 url1 z
              (Or.inl ⟨hfr, rfl⟩) (Or.inr ⟨w, hq⟩)
            exact srFacts_close ([] : Str) ([] : Str) url1 z hσ hnl1 hnl2
              hnl3 hnl4 hu3 hdec hph hpq hhead hguard
        | some pf =>
          obtain ⟨x4, f4⟩ := pf
          rw [hfr] at hp
          dsimp only at hp
          cases hq : splitFirst '?' x4 with
          | none =>
            rw [hq] at hp
            dsimp only at hp
            simp only [pure, Except.pure, Except.ok.injEq] at hp
            subst hp
            obtain ⟨hdec, hph, hpq⟩ := splitTwo url1 x4 x4
              (Or.inr ⟨f4, hfr⟩) (Or.inl ⟨hq, rfl⟩)
            exact srFacts_close ([] : Str) ([] : Str) url1 x4 hσ hnl1 hnl2
              hnl3 hnl4 hu3 hdec hph hpq hhead hguard
          | some pq =>
            obtain ⟨z, w⟩ := pq
            rw [hq] at hp
            dsimp only at hp
            simp only [pure, Except.pure, Except.ok.injEq] at hp
            subst hp
            obtain ⟨hdec, hph, hpq⟩ := splitTwo url1 x4 z
              (Or.inr ⟨f4, hfr⟩) (Or.inr ⟨w, hq⟩)
            exact srFacts_close ([] : Str) ([] : Str) url1 z hσ hnl1 hnl2
              hnl3 hnl4 hu3 hdec hph hpq hhead hguard


/-- Scheme characters are printable: not a colon, not whitespace. -/
theorem schemeChar_ne (c : Char) (h : isSchemeChar c = true) :
    c ≠ ':' ∧ c ≠ '\x09' ∧ c ≠ '\x0d' ∧ c ≠ '\x0a' := by
  unfold isSchemeChar isAsciiAlpha isAsciiDigit at h
  simp only [Bool.or_eq_true, Bool.and_eq_true, decide_eq_true_eq,
    charLe_iff, charEq_iff] at h
  have ha : ('a' : Char).val.toNat = 97 := rfl
  have hz : ('z' : Char).val.toNat = 122 := rfl
  have hA : ('A' : Char).val.toNat = 65 := rfl
  have hZ : ('Z' : Char).val.toNat = 90 := rfl
  have h0 : ('0' : Char).val.toNat = 48 := rfl
  have h9 : ('9' : Char).val.toNat = 57 := rfl
  have hpl : ('+' : Char).val.toNat = 43 := rfl
  have hmn : ('-' : Char).val.toNat = 45 := rfl
  have hdt : ('.' : Char).val.toNat = 46 := rfl
  rw [ha, hz, hA, hZ, h0, h9, hpl, hmn, hdt] at h
  have hcl : (':' : Char).val.toNat = 58 := rfl
  have htb : ('\x09' : Char).val.toNat = 9 := rfl
  have hcr : ('\x0d' : Char).val.toNat = 13 := rfl
  have hlf : ('\x0a' : Char).val.toNat = 10 := rfl
  refine ⟨?_, ?_, ?_, ?_⟩
  · intro he
    rw [charEq_iff, hcl] at he
    omega
  · intro he
    rw [charEq_iff, htb] at he
    omega
  · intro he
    rw [charEq_iff, hcr] at he
    omega
  · intro he
    rw [charEq_iff, hlf] at he
    omega

/-- An ASCII letter is not C0 whitespace. -/
theorem alpha_not_c0 (c : Char) (h : isAsciiAlpha c = true) :
    isC0OrSpace c = false := by
  unfold isAsciiAlpha at h
  simp only [Bool.or_eq_true, Bool.and_eq_true, decide_eq_true_eq,
    charLe_iff] at h
  have ha : ('a' : Char).val.toNat = 97 := rfl
  have hA : ('A' : Char).val.toNat = 65 := rfl
  rw [ha, hA] at h
  unfold isC0OrSpace
  simp only [decide_eq_false_iff_not]
  intro hle
  rw [UInt32.le_def, BitVec.le_def] at hle
  have hle' : c.val.toNat ≤ 32 := hle
  omega

/-- The query-encoding character class avoids a given character. -/
theorem qencChar_ne (c : Char)
    (hc : isAlwaysSafeByte c.val.toNat = true ∨ c = '%' ∨ c = '+' ∨
      c = '=' ∨ c = '&')
    (d : Char) (hd : isAlwaysSafeByte d.val.toNat = false)
    (h1 : d ≠ '%') (h2 : d ≠ '+') (h3 : d ≠ '=') (h4 : d ≠ '&') :
    c ≠ d := by
  intro he
  subst he
  rcases hc with h | h | h | h | h
  · rw [h] at hd
    exact absurd hd (by simp)
  · exact h1 h
  · exact h2 h
  · exact h3 h
  · exact h4 h

/-- Characters of `urlencode` output: always-safe, `%`, `+`, `=` or
`&`. -/
theorem urlencode_chars (items : List (Str × List Str)) :
    ∀ c ∈ urlencode items,
      isAlwaysSafeByte c.val.toNat = true ∨ c = '%' ∨ c = '+' ∨
        c = '=' ∨ c = '&' := by
  intro c hc
  unfold urlencode at hc
  generalize hps : items.flatMap (fun kv =>
    kv.2.map (fun v => quote_plus kv.1 ++ '=' :: quote_plus v)) =
    pieces at hc
  have hpieces : ∀ p ∈ pieces, ∀ x ∈ p,
      isAlwaysSafeByte x.val.toNat = true ∨ x = '%' ∨ x = '+' ∨
        x = '=' ∨ x = '&' := by
    intro p hp x hx
    rw [← hps] at hp
    obtain ⟨kv, _, hm⟩ := List.mem_flatMap.mp hp
    obtain ⟨v, _, hveq⟩ := List.mem_map.mp hm
    rw [← hveq] at hx
    rcases List.mem_append.mp hx with h | h
    · rcases quote_plus_chars kv.1 x h with h | h | h
      · exact Or.inl h
      · exact Or.inr (Or.inl h)
      · exact Or.inr (Or.inr (Or.inl h))
    · rcases List.mem_cons.mp h with h | h
      · exact Or.inr (Or.inr (Or.inr (Or.inl h)))
      · rcases quote_plus_chars v x h with h | h | h
        · exact Or.inl h
        · exact Or.inr (Or.inl h)
        · exact Or.inr (Or.inr (Or.inl h))
  clear hps
  induction pieces with
  | nil => simp [List.intercalate] at hc
  | cons p rest ih =>
    cases rest with
    | nil =>
      rw [show List.intercalate ['&'] [p] = p from by
        simp [List.intercalate, List.intersperse]] at hc
      exact hpieces p (List.mem_cons_self ..) c hc
    | cons p2 rest2 =>
      rw [show List.intercalate ['&'] (p :: p2 :: rest2) =
          p ++ ['&'] ++ List.intercalate ['&'] (p2 :: rest2) from by
        simp [List.intercalate, List.intersperse]] at hc
      rcases List.mem_append.mp hc with h | h
      · rcases List.mem_append.mp h with h | h
        · exact hpieces p (List.mem_cons_self ..) c h
        · rcases List.mem_singleton.mp h with rfl
          exact Or.inr (Or.inr (Or.inr (Or.inr rfl)))
      · exact ih h (fun q hq => hpieces q (List.mem_cons_of_mem _ hq))

/-- Appending a query tail cannot create a `//` two-character
start. -/
theorem take2_ne (P tailQ : Str) (hP : P.take 2 ≠ "//".data)
    (htq : tailQ = [] ∨ tailQ.headD '?' = '?') :
    (P ++ tailQ).take 2 ≠ "//".data := by
  intro hcon
  apply hP
  cases P with
  | nil =>
    exfalso
    rcases htq with h | h
    · rw [h] at hcon
      simp at hcon
    · cases tailQ with
      | nil => simp at hcon
      | cons t0 tt =>
        simp only [List.headD_cons] at h
        subst h
        simp only [List.nil_append] at hcon
        have h1 := congrArg (fun l => l.headD ' ') hcon
        simp [List.take] at h1
  | cons p0 pt =>
    cases pt with
    | nil =>
      exfalso
      rcases htq with h | h
      · rw [h, List.append_nil] at hcon
        simp [List.take] at hcon
      · cases tailQ with
        | nil =>
          rw [List.append_nil] at hcon
          simp [List.take] at hcon
        | cons t0 tt =>
          simp only [List.headD_cons] at h
          subst h
          simp only [List.cons_append, List.nil_append] at hcon
          simp [List.take] at hcon
    | cons p1 pt2 =>
      simp only [List.cons_append] at hcon
      simpa using hcon

/-- A scheme-blocked path stays blocked after appending a query. -/
theorem schemeBlocked_append_query (P Q : Str) (h : schemeBlocked P) :
    schemeBlocked (P ++ '?' :: Q) := by
  intro x y hxy
  rcases List.append_eq_append_iff.mp hxy.symm with ⟨a', ha1, ha2⟩ |
    ⟨c', hc1, hc2⟩
  · cases a' with
    | nil =>
      exfalso
      rw [List.append_nil] at ha1
      have := congrArg (fun l => l.headD ' ') ha2
      simp at this
    | cons a0 a2 =>
      have ha0 : a0 = ':' := by
        have := congrArg (fun l => l.headD ' ') ha2
        simpa using this.symm
      subst ha0
      obtain ⟨c, hc, hcs⟩ := h x a2 (by rw [ha1])
      exact ⟨c, hc, hcs⟩
  · cases c' with
    | nil =>
      exfalso
      rw [List.append_nil] at hc1
      have := congrArg (fun l => l.headD ' ') hc2
      simp at this
    | cons c0 c2 =>
      have hc0 : '?' = c0 := by
        have := congrArg (fun l => l.headD ' ') hc2
        simpa using this
      subst hc0
      refine ⟨'?', ?_, by decide⟩
      rw [hc1]
      exact List.mem_append.mpr (Or.inr (List.mem_cons_self ..))

/-- Scheme detection fails on a rejected candidate. -/
theorem detect_fails (b : Str)
    (h : b = [] ∨ isAsciiAlpha (b.headD ' ') = false ∨
      ∃ c ∈ b, isSchemeChar c = false) :
    ¬ ((decide (b ≠ []) && isAsciiAlpha (List.headD b ' ') &&
      List.all b isSchemeChar) = true) := by
  intro hc
  simp only [Bool.and_eq_true, decide_eq_true_eq] at hc
  obtain ⟨⟨h1, h2⟩, h3⟩ := hc
  rcases h with h | h | ⟨c, hc1, hc2⟩
  · exact h1 h
  · rw [h2] at h
    exact absurd h (by simp)
  · rw [List.all_eq_true] at h3
    rw [h3 c hc1] at hc2
    exact absurd hc2 (by simp)

/-- Decomposition given by a successful `splitLast`. -/
theorem splitLast_eq_of (c : Char) (s x y : Str)
    (h : splitLast c s = some (x, y)) : s = x ++ c :: y ∧ c ∉ y := by
  unfold splitLast at h
  cases hsp : splitFirst c s.reverse with
  | none => rw [hsp] at h; exact absurd h (by simp)
  | some p =>
    obtain ⟨a, b⟩ := p
    rw [hsp] at h
    simp only [Option.some.injEq, Prod.mk.injEq] at h
    obtain ⟨hx, hy⟩ := h
    obtain ⟨hdec, hna⟩ := splitFirst_eq_of c s.reverse a b hsp
    constructor
    · have := congrArg List.reverse hdec
      rw [List.reverse_reverse] at this
      rw [this, ← hx, ← hy]
      simp
    · rw [← hy]
      simp only [List.mem_reverse]
      exact hna

/-- The path part of `splitparams` is a prefix of the input. -/
theorem splitparams_fst_prefix (p : Str) : (splitparams p).1 <+: p := by
  unfold splitparams
  split
  · cases hsl : splitLast '/' p with
    | none => exact List.prefix_refl p
    | some pr =>
      obtain ⟨before, after⟩ := pr
      obtain ⟨hdec, _⟩ := splitLast_eq_of '/' p before after hsl
      dsimp only
      cases hsf : splitFirst ';' after with
      | none => exact List.prefix_refl p
      | some pr2 =>
        obtain ⟨a, b⟩ := pr2
        obtain ⟨hdec2, _⟩ := splitFirst_eq_of ';' after a b hsf
        dsimp only
        refine ⟨';' :: b, ?_⟩
        rw [hdec, hdec2, List.append_assoc]
        rfl
  · cases hsf : splitFirst ';' p with
    | none => exact List.prefix_refl p
    | some pr =>
      obtain ⟨a, b⟩ := pr
      obtain ⟨hdec, _⟩ := splitFirst_eq_of ';' p a b hsf
      exact ⟨';' :: b, hdec.symm⟩

/-- A successful `pyUrlparse` comes from a successful `pyUrlsplit`
with the same scheme, netloc and query, and a path that is a prefix of
the split path. -/
theorem pyUrlparse_of_split (u : Str) (pr : ParseRes)
    (hp : pyUrlparse u [] = Except.ok pr) :
    ∃ sr : SplitRes, pyUrlsplit u [] = Except.ok sr ∧
      pr.scheme = sr.scheme ∧ pr.netloc = sr.netloc ∧
      pr.path <+: sr.path ∧ pr.query = sr.query := by
  unfold pyUrlparse at hp
  simp only [bind, Except.bind] at hp
  cases hs : pyUrlsplit u [] with
  | error e => rw [hs] at hp; exact absurd hp (by simp)
  | ok sr =>
    rw [hs] at hp
    dsimp only at hp
    refine ⟨sr, rfl, ?_⟩
    split at hp
    · simp only [pure, Except.pure, Except.ok.injEq] at hp
      subst hp
      exact ⟨rfl, rfl, splitparams_fst_prefix sr.path, rfl⟩
    · simp only [pure, Except.pure, Except.ok.injEq] at hp
      subst hp
      exact ⟨rfl, rfl, List.prefix_refl sr.path, rfl⟩

/-- Heads of a nonempty prefix agree. -/
theorem headD_of_prefix {l m : Str} (h : l <+: m) (hne : l ≠ [])
    (d : Char) : l.headD d = m.headD d := by
  obtain ⟨t, ht⟩ := h
  cases l with
  | nil => exact absurd rfl hne
  | cons a u => rw [← ht]; rfl

/-- Non-membership in a concatenation from both parts. -/
theorem nmemAppend {c : Char} {x y : Str} (hx : c ∉ x) (hy : c ∉ y) :
    c ∉ x ++ y := by
  intro h
  rcases List.mem_append.mp h with h | h
  · exact hx h
  · exact hy h

/-- Non-membership in a cons from head and tail. -/
theorem nmemCons {c a : Char} {t : Str} (h1 : c ≠ a) (h2 : c ∉ t) :
    c ∉ a :: t := by
  intro h
  rcases List.mem_cons.mp h with h | h
  · exact h1 h
  · exact h2 h

/-- For a target outside the lowercase-letter range, `lowerChar c`
hits it only when `c` does. -/
theorem lowerChar_eq_nonlower {d : Char}
    (hd : d.val.toNat < 97 ∨ 122 < d.val.toNat) (c : Char)
    (h : lowerChar c = d) : c = d := by
  rcases lowerChar_spec c with ⟨_, hf⟩ | ⟨h1, h2, h3⟩
  · rw [← hf]; exact h
  · exfalso
    rw [charEq_iff, h3] at h
    rcases hd with hd | hd <;> omega

/-- Lowercasing keeps a character clear of the netloc delimiters. -/
theorem notDelim_lowerChar (c : Char) (h : notNetlocDelim c = true) :
    notNetlocDelim (lowerChar c) = true := by
  unfold notNetlocDelim at h ⊢
  simp only [Bool.and_eq_true, decide_eq_true_eq] at h ⊢
  refine ⟨⟨?_, ?_⟩, ?_⟩
  · intro he
    exact h.1.1 (lowerChar_eq_nonlower (Or.inl (by decide)) c he)
  · intro he
    exact h.1.2 (lowerChar_eq_nonlower (Or.inl (by decide)) c he)
  · intro he
    exact h.2 (lowerChar_eq_nonlower (Or.inl (by decide)) c he)

/-- Characters of a successful `netlocProcessE` output are lowercased
characters of the input netloc. -/
theorem netlocProcess_chars (scheme nl N : Str)
    (h : netlocProcessE scheme nl = Except.ok N) :
    ∀ c ∈ N, ∃ c0 ∈ nl, c = lowerChar c0 := by
  have hlow : ∀ c ∈ lower nl, ∃ c0 ∈ nl, c = lowerChar c0 := by
    intro c hc
    obtain ⟨c0, hc0, he⟩ := List.mem_map.mp hc
    exact ⟨c0, hc0, he.symm⟩
  have hrep : ∀ pat : Str, ∀ c ∈ replaceAll pat [] (lower nl),
      ∃ c0 ∈ nl, c = lowerChar c0 := by
    intro pat c hc
    rcases mem_replaceAll pat [] (lower nl) c hc with h1 | h1
    · exact hlow c h1
    · exact absurd h1 (List.not_mem_nil c)
  unfold netlocProcessE at h
  simp only [bind, Except.bind] at h
  split at h
  · cases hp : pyPort nl with
    | error e => rw [hp] at h; exact absurd h (by simp)
    | ok p =>
      rw [hp] at h
      dsimp only at h
      split at h
      · simp only [pure, Except.pure, Except.ok.injEq] at h
        rw [← h]
        exact hrep _
      · simp only [pure, Except.pure, Except.ok.injEq] at h
        rw [← h]
        exact hlow
  · split at h
    · cases hp : pyPort nl with
      | error e => rw [hp] at h; exact absurd h (by simp)
      | ok p =>
        rw [hp] at h
        dsimp only at h
        split at h
        · simp only [pure, Except.pure, Except.ok.injEq] at h
          rw [← h]
          exact hrep _
        · simp only [pure, Except.pure, Except.ok.injEq] at h
          rw [← h]
          exact hlow
    · simp only [pure, Except.pure, Except.ok.injEq] at h
      rw [← h]
      exact hlow

/-- The query-encoding character class keeps a string clear of a
character outside the class. -/
theorem qenc_not_mem (Q : Str)
    (hQ : ∀ c ∈ Q, isAlwaysSafeByte c.val.toNat = true ∨ c = '%' ∨
      c = '+' ∨ c = '=' ∨ c = '&')
    (d : Char) (hd : isAlwaysSafeByte d.val.toNat = false)
    (h1 : d ≠ '%') (h2 : d ≠ '+') (h3 : d ≠ '=') (h4 : d ≠ '&') :
    d ∉ Q := by
  intro hm
  exact qencChar_ne d (hQ d hm) d hd h1 h2 h3 h4 rfl

/-- A scheme character is none of the URL delimiters handled by
`pyUrlsplit`. -/
theorem schemeChar_not_special (c : Char) (h : isSchemeChar c = true) :
    c ≠ ':' ∧ c ≠ '#' ∧ c ≠ '?' ∧ c ≠ '/' ∧
      c ≠ '\x09' ∧ c ≠ '\x0d' ∧ c ≠ '\x0a' := by
  unfold isSchemeChar isAsciiAlpha isAsciiDigit at h
  simp only [Bool.or_eq_true, Bool.and_eq_true, decide_eq_true_eq,
    charLe_iff, charEq_iff] at h
  have ha : ('a' : Char).val.toNat = 97 := rfl
  have hz : ('z' : Char).val.toNat = 122 := rfl
  have hA : ('A' : Char).val.toNat = 65 := rfl
  have hZ : ('Z' : Char).val.toNat = 90 := rfl
  have h0 : ('0' : Char).val.toNat = 48 := rfl
  have h9 : ('9' : Char).val.toNat = 57 := rfl
  have hpl : ('+' : Char).val.toNat = 43 := rfl
  have hmn : ('-' : Char).val.toNat = 45 := rfl
  have hdt : ('.' : Char).val.toNat = 46 := rfl
  rw [ha, hz, hA, hZ, h0, h9, hpl, hmn, hdt] at h
  have hcl : (':' : Char).val.toNat = 58 := rfl
  have hsh : ('#' : Char).val.toNat = 35 := rfl
  have hqm : ('?' : Char).val.toNat = 63 := rfl
  have hsl : ('/' : Char).val.toNat = 47 := rfl
  have htb : ('\x09' : Char).val.toNat = 9 := rfl
  have hcr : ('\x0d' : Char).val.toNat = 13 := rfl
  have hlf : ('\x0a' : Char).val.toNat = 10 := rfl
  refine ⟨?_, ?_, ?_, ?_, ?_, ?_, ?_⟩
  · intro he; rw [charEq_iff, hcl] at he; omega
  · intro he; rw [charEq_iff, hsh] at he; omega
  · intro he; rw [charEq_iff, hqm] at he; omega
  · intro he; rw [charEq_iff, hsl] at he; omega
  · intro he; rw [charEq_iff, htb] at he; omega
  · intro he; rw [charEq_iff, hcr] at he; omega
  · intro he; rw [charEq_iff, hlf] at he; omega

/-- Delimiters never occur in an all-scheme-character string. -/
theorem scheme_not_mem (S : Str) (h : S.all isSchemeChar = true) :
    ':' ∉ S ∧ '#' ∉ S ∧ '?' ∉ S ∧ '/' ∉ S ∧
      '\x09' ∉ S ∧ '\x0d' ∉ S ∧ '\x0a' ∉ S := by
  have hall := List.all_eq_true.mp h
  refine ⟨?_, ?_, ?_, ?_, ?_, ?_, ?_⟩ <;>
    · intro hm
      have hsp := schemeChar_not_special _ (hall _ hm)
      simp at hsp

/-- The netloc delimiters never occur in an all-`notNetlocDelim`
string. -/
theorem notDelim_not_mem (N : Str) (h : N.all notNetlocDelim = true) :
    '/' ∉ N ∧ '?' ∉ N ∧ '#' ∉ N := by
  have hall := List.all_eq_true.mp h
  refine ⟨?_, ?_, ?_⟩ <;>
    · intro hm
      have hd := hall _ hm
      unfold notNetlocDelim at hd
      simp at hd

/-- `pyUrlsplit` factored as scheme detection followed by
`splitRest`. -/
theorem pyUrlsplit_decomp (u : Str) :
    pyUrlsplit u [] =
      splitRest (schemeStep (scrubUnsafe (lstripC0 u))).1
        (schemeStep (scrubUnsafe (lstripC0 u))).2 := by
  unfold pyUrlsplit schemeStep
  simp only [show scrubUnsafe (stripC0Both []) = ([] : Str) from rfl]
  generalize scrubUnsafe (lstripC0 u) = url1
  cases hsp : splitFirst ':' url1 with
  | none => rfl
  | some p =>
    obtain ⟨before, after⟩ := p
    dsimp only
    split
    · rfl
    · rfl

/-- Scheme detection leaves a rejected URL alone. -/
theorem schemeStep_skip (url1 : Str)
    (h : ':' ∉ url1 ∨ isAsciiAlpha (url1.headD ' ') = false ∨
      schemeBlocked url1) :
    schemeStep url1 = ([], url1) := by
  unfold schemeStep
  cases hsp : splitFirst ':' url1 with
  | none => rfl
  | some p =>
    obtain ⟨before, after⟩ := p
    dsimp only
    obtain ⟨hdec, hnb⟩ := splitFirst_eq_of ':' url1 before after hsp
    rw [if_neg (detect_fails before ?_)]
    rcases h with h | h | h
    · exfalso
      apply h
      rw [hdec]
      exact List.mem_append.mpr (Or.inr (List.mem_cons_self ..))
    · by_cases hb : before = []
      · exact Or.inl hb
      · right; left
        cases before with
        | nil => exact absurd rfl hb
        | cons b0 bt =>
          rw [hdec] at h
          simpa using h
    · right; right
      exact h before after hdec

/-- Scheme detection accepts a valid lowercase-stable scheme prefix. -/
theorem schemeStep_hit (S rest : Str) (h1 : S ≠ [])
    (h2 : isAsciiAlpha (S.headD ' ') = true)
    (h3 : S.all isSchemeChar = true) (h4 : lower S = S) :
    schemeStep (S ++ ':' :: rest) = (S, rest) := by
  unfold schemeStep
  rw [splitFirst_append_cons ':' S rest (scheme_not_mem S h3).1]
  dsimp only
  rw [if_pos (by
    rw [Bool.and_eq_true, Bool.and_eq_true]
    exact ⟨⟨decide_eq_true h1, h2⟩, h3⟩), h4]

/-- `splitRest` on an authority-form remainder. -/
theorem splitRest_auth (S N u Q tailQ : Str)
    (hN1 : N.all notNetlocDelim = true)
    (hN2 : hasChar '[' N = false) (hN3 : hasChar ']' N = false)
    (hu : u = [] ∨ u.headD '?' = '/')
    (huh : '#' ∉ u) (huq : '?' ∉ u)
    (hQh : '#' ∉ Q)
    (htq : (tailQ = [] ∧ Q = []) ∨ tailQ = '?' :: Q) :
    splitRest S ('/' :: '/' :: (N ++ (u ++ tailQ))) =
      Except.ok ⟨S, N, u, Q, []⟩ := by
  have htnh : '#' ∉ tailQ := by
    rcases htq with ⟨h1, _⟩ | h1
    · rw [h1]; exact List.not_mem_nil '#'
    · rw [h1]; exact nmemCons (by decide) hQh
  have hswitch : (u ++ tailQ) = [] ∨
      notNetlocDelim ((u ++ tailQ).headD '?') = false := by
    rcases hu with hu | hu
    · subst hu
      rcases htq with ⟨h1, _⟩ | h1
      · left; rw [h1]; rfl
      · right
        rw [h1]
        simp only [List.nil_append, List.headD_cons]
        decide
    · right
      cases u with
      | nil => simp at hu
      | cons u0 ut =>
        simp only [List.headD_cons] at hu
        subst hu
        simp only [List.cons_append, List.headD_cons]
        decide
  unfold splitRest
  simp only [bind, Except.bind]
  rw [if_pos (show List.take 2 ('/' :: '/' :: (N ++ (u ++ tailQ))) =
    ['/', '/'] from by simp)]
  rw [show List.drop 2 ('/' :: '/' :: (N ++ (u ++ tailQ))) =
    N ++ (u ++ tailQ) from by simp]
  obtain ⟨htw, hdw⟩ := takeWhile_dropWhile_append notNetlocDelim
    N (u ++ tailQ) hN1 hswitch
  rw [htw, hdw, hN2, hN3]
  rw [if_neg (by simp)]
  dsimp only [pure, Except.pure]
  rw [splitFirst_eq_none '#' _ (nmemAppend huh htnh)]
  dsimp only
  rcases htq with ⟨h1, h2⟩ | h1
  · subst h1
    subst h2
    rw [List.append_nil, splitFirst_eq_none '?' u huq]
  · subst h1
    rw [splitFirst_append_cons '?' u Q huq]

/-- `splitRest` on a netloc-less remainder. -/
theorem splitRest_noauth (S P Q tailQ : Str)
    (htk : (P ++ tailQ).take 2 ≠ ['/', '/'])
    (hPh : '#' ∉ P) (hPq : '?' ∉ P)
    (hQh : '#' ∉ Q)
    (htq : (tailQ = [] ∧ Q = []) ∨ tailQ = '?' :: Q) :
    splitRest S (P ++ tailQ) = Except.ok ⟨S, [], P, Q, []⟩ := by
  have htnh : '#' ∉ tailQ := by
    rcases htq with ⟨h1, _⟩ | h1
    · rw [h1]; exact List.not_mem_nil '#'
    · rw [h1]; exact nmemCons (by decide) hQh
  unfold splitRest
  simp only [bind, Except.bind]
  rw [if_neg htk]
  dsimp only [pure, Except.pure]
  rw [splitFirst_eq_none '#' _ (nmemAppend hPh htnh)]
  dsimp only
  rcases htq with ⟨h1, h2⟩ | h1
  · subst h1
    subst h2
    rw [List.append_nil, splitFirst_eq_none '?' P hPq]
  · subst h1
    rw [splitFirst_append_cons '?' P Q hPq]

/-- `pyUrlsplit` on a URL rebuilt by `urlunsplit` from well-formed
components recovers those components (with the slash the builder may
prepend to the path). -/
theorem pyUrlsplit_built (S N P Q : Str)
    (hS : S = [] ∨ (S ≠ [] ∧ isAsciiAlpha (S.headD ' ') = true ∧
      S.all isSchemeChar = true ∧ lower S = S))
    (hN1 : N.all notNetlocDelim = true)
    (hN2 : hasChar '[' N = false) (hN3 : hasChar ']' N = false)
    (hNt : '\x09' ∉ N) (hNr : '\x0d' ∉ N) (hNl : '\x0a' ∉ N)
    (hPh : '#' ∉ P) (hPq : '?' ∉ P)
    (hPt : '\x09' ∉ P) (hPr : '\x0d' ∉ P) (hPl : '\x0a' ∉ P)
    (hQ : ∀ c ∈ Q, isAlwaysSafeByte c.val.toNat = true ∨ c = '%' ∨
      c = '+' ∨ c = '=' ∨ c = '&')
    (hP2 : N = [] → P.take 2 ≠ "//".data)
    (hhead : S = [] → N = [] → (P = [] ∨ isC0OrSpace (P.headD '?') = false))
    (hguard : S = [] → N = [] → (':' ∉ P ∨
      isAsciiAlpha (P.headD ' ') = false ∨ schemeBlocked P)) :
    pyUrlsplit (urlunsplit S N P Q []) [] =
      Except.ok ⟨S, N,
        if N ≠ [] ∨ (S ≠ [] ∧ usesNetloc.contains S = true ∧
            P.take 2 ≠ "//".data) then
          (if P ≠ [] ∧ P.take 1 ≠ "/".data then '/' :: P else P)
        else P,
        Q, []⟩ := by
  have hQh : '#' ∉ Q :=
    qenc_not_mem Q hQ '#' (by decide) (by decide) (by decide) (by decide)
      (by decide)
  have hQq : '?' ∉ Q :=
    qenc_not_mem Q hQ '?' (by decide) (by decide) (by decide) (by decide)
      (by decide)
  have hQc : ':' ∉ Q :=
    qenc_not_mem Q hQ ':' (by decide) (by decide) (by decide) (by decide)
      (by decide)
  have hQt : '\x09' ∉ Q :=
    qenc_not_mem Q hQ '\x09' (by decide) (by decide) (by decide) (by decide)
      (by decide)
  have hQr : '\x0d' ∉ Q :=
    qenc_not_mem Q hQ '\x0d' (by decide) (by decide) (by decide) (by decide)
      (by decide)
  have hQl : '\x0a' ∉ Q :=
    qenc_not_mem Q hQ '\x0a' (by decide) (by decide) (by decide) (by decide)
      (by decide)
  rw [pyUrlsplit_decomp]
  by_cases hauth : N ≠ [] ∨ (S ≠ [] ∧ usesNetloc.contains S = true ∧
      P.take 2 ≠ "//".data)
  · rw [if_pos hauth]
    generalize hup : (if P ≠ [] ∧ P.take 1 ≠ "/".data then '/' :: P else P) = u
    have hufacts : (u = [] ∨ u.headD '?' = '/') ∧ '#' ∉ u ∧ '?' ∉ u ∧
        '\x09' ∉ u ∧ '\x0d' ∉ u ∧ '\x0a' ∉ u := by
      rw [← hup]
      split
      · exact ⟨Or.inr rfl, nmemCons (by decide) hPh,
          nmemCons (by decide) hPq, nmemCons (by decide) hPt,
          nmemCons (by decide) hPr, nmemCons (by decide) hPl⟩
      · rename_i hc
        refine ⟨?_, hPh, hPq, hPt, hPr, hPl⟩
        by_cases hp0 : P = []
        · exact Or.inl hp0
        · right
          have h1 : P.take 1 = "/".data := by
            by_contra hcc
            exact hc ⟨hp0, hcc⟩
          cases P with
          | nil => exact absurd rfl hp0
          | cons p0 pt =>
            simp only [List.take_succ_cons, List.take_zero] at h1
            have hp0e : p0 = '/' := by
              have := congrArg (fun l => List.headD l ' ') h1
              simpa using this
            rw [List.headD_cons, hp0e]
    obtain ⟨huhead, huh, huq, hut, hur, hul⟩ := hufacts
    rcases hS with rfl | ⟨hS1, hS2, hS3, hS4⟩
    · -- no scheme, authority present
      by_cases hq : Q ≠ []
      · have hU : urlunsplit [] N P Q [] =
            '/' :: '/' :: (N ++ (u ++ '?' :: Q)) := by
          simp only [urlunsplit]
          rw [if_neg (fun hc : ([] : Str) ≠ [] => hc rfl),
            if_pos hq, if_neg (fun hc : ([] : Str) ≠ [] => hc rfl),
            if_pos hauth, hup]
          simp [List.append_assoc]
        rw [hU]
        have hnm : ∀ d : Char, d ≠ '/' → d ∉ N → d ∉ u → d ≠ '?' →
            d ∉ Q → d ∉ '/' :: '/' :: (N ++ (u ++ '?' :: Q)) :=
          fun d h1 h2 h3 h4 h5 =>
            nmemCons h1 (nmemCons h1 (nmemAppend h2 (nmemAppend h3
              (nmemCons h4 h5))))
        rw [lstripC0_eq_self _ (Or.inr (by
          simp only [List.headD_cons]; decide))]
        rw [scrubUnsafe_eq_self _
          (hnm '\x09' (by decide) hNt hut (by decide) hQt)
          (hnm '\x0d' (by decide) hNr hur (by decide) hQr)
          (hnm '\x0a' (by decide) hNl hul (by decide) hQl)]
        rw [schemeStep_skip _ (Or.inr (Or.inl (by
          simp only [List.headD_cons]; decide)))]
        dsimp only
        exact splitRest_auth [] N u Q ('?' :: Q) hN1 hN2 hN3 huhead huh huq
          hQh (Or.inr rfl)
      · have hQnil : Q = [] := not_not.mp hq
        subst hQnil
        have hU : urlunsplit [] N P [] [] =
            '/' :: '/' :: (N ++ u) := by
          simp only [urlunsplit]
          rw [if_neg (fun hc : ([] : Str) ≠ [] => hc rfl),
            if_neg (fun hc : ([] : Str) ≠ [] => hc rfl),
            if_neg (fun hc : ([] : Str) ≠ [] => hc rfl),
            if_pos hauth, hup]
        rw [hU]
        have hnm : ∀ d : Char, d ≠ '/' → d ∉ N → d ∉ u →
            d ∉ '/' :: '/' :: (N ++ u) :=
          fun d h1 h2 h3 =>
            nmemCons h1 (nmemCons h1 (nmemAppend h2 h3))
        rw [lstripC0_eq_self _ (Or.inr (by
          simp only [List.headD_cons]; decide))]
        rw [scrubUnsafe_eq_self _
          (hnm '\x09' (by decide) hNt hut)
          (hnm '\x0d' (by decide) hNr hur)
          (hnm '\x0a' (by decide) hNl hul)]
        rw [schemeStep_skip _ (Or.inr (Or.inl (by
          simp only [List.headD_cons]; decide)))]
        dsimp only
        have := splitRest_auth [] N u [] [] hN1 hN2 hN3 huhead huh huq
          (List.not_mem_nil '#') (Or.inl ⟨rfl, rfl⟩)
        rw [List.append_nil] at this
        exact this
    · -- scheme present, authority present
      obtain ⟨hSc, hSh, hSq, hSsl, hSt, hSr, hSl⟩ := scheme_not_mem S hS3
      have hVhead : ∀ X : Str, (S ++ X) = [] ∨
          isC0OrSpace ((S ++ X).headD '?') = false := by
        intro X
        right
        cases S with
        | nil => exact absurd rfl hS1
        | cons s0 st =>
          simp only [List.cons_append, List.headD_cons]
          exact alpha_not_c0 s0 (by simpa using hS2)
      by_cases hq : Q ≠ []
      · have hU : urlunsplit S N P Q [] =
            S ++ ':' :: ('/' :: '/' :: (N ++ (u ++ '?' :: Q))) := by
          simp only [urlunsplit]
          rw [if_neg (fun hc : ([] : Str) ≠ [] => hc rfl),
            if_pos hq, if_pos hS1, if_pos hauth, hup]
          simp [List.append_assoc]
        rw [hU]
        have hnm : ∀ d : Char, d ∉ S → d ≠ ':' → d ≠ '/' → d ∉ N →
            d ∉ u → d ≠ '?' → d ∉ Q →
            d ∉ S ++ ':' :: ('/' :: '/' :: (N ++ (u ++ '?' :: Q))) :=
          fun d h1 h2 h3 h4 h5 h6 h7 =>
            nmemAppend h1 (nmemCons h2 (nmemCons h3 (nmemCons h3
              (nmemAppend h4 (nmemAppend h5 (nmemCons h6 h7))))))
        rw [lstripC0_eq_self _ (hVhead _)]
        rw [scrubUnsafe_eq_self _
          (hnm '\x09' hSt (by decide) (by decide) hNt hut (by decide) hQt)
          (hnm '\x0d' hSr (by decide) (by decide) hNr hur (by decide) hQr)
          (hnm '\x0a' hSl (by decide) (by decide) hNl hul (by decide) hQl)]
        rw [schemeStep_hit S _ hS1 hS2 hS3 hS4]
        dsimp only
        exact splitRest_auth S N u Q ('?' :: Q) hN1 hN2 hN3 huhead huh huq
          hQh (Or.inr rfl)
      · have hQnil : Q = [] := not_not.mp hq
        subst hQnil
        have hU : urlunsplit S N P [] [] =
            S ++ ':' :: ('/' :: '/' :: (N ++ u)) := by
          simp only [urlunsplit]
          rw [if_neg (fun hc : ([] : Str) ≠ [] => hc rfl),
            if_neg (fun hc : ([] : Str) ≠ [] => hc rfl),
            if_pos hS1, if_pos hauth, hup]
        rw [hU]
        have hnm : ∀ d : Char, d ∉ S → d ≠ ':' → d ≠ '/' → d ∉ N →
            d ∉ u → d ∉ S ++ ':' :: ('/' :: '/' :: (N ++ u)) :=
          fun d h1 h2 h3 h4 h5 =>
            nmemAppend h1 (nmemCons h2 (nmemCons h3 (nmemCons h3
              (nmemAppend h4 h5))))
        rw [lstripC0_eq_self _ (hVhead _)]
        rw [scrubUnsafe_eq_self _
          (hnm '\x09' hSt (by decide) (by decide) hNt hut)
          (hnm '\x0d' hSr (by decide) (by decide) hNr hur)
          (hnm '\x0a' hSl (by decide) (by decide) hNl hul)]
        rw [schemeStep_hit S _ hS1 hS2 hS3 hS4]
        dsimp only
        have := splitRest_auth S N u [] [] hN1 hN2 hN3 huhead huh huq
          (List.not_mem_nil '#') (Or.inl ⟨rfl, rfl⟩)
        rw [List.append_nil] at this
        exact this
  · -- no authority
    rw [if_neg hauth]
    have hN0 : N = [] := by
      by_contra hc
      exact hauth (Or.inl hc)
    subst hN0
    have hPtk : P.take 2 ≠ ['/', '/'] := by
      have h := hP2 rfl
      rw [show ("//".data : Str) = ['/', '/'] from rfl] at h
      exact h
    rcases hS with rfl | ⟨hS1, hS2, hS3, hS4⟩
    · -- no scheme, no authority
      by_cases hq : Q ≠ []
      · have hU : urlunsplit [] [] P Q [] = P ++ '?' :: Q := by
          simp only [urlunsplit]
          rw [if_neg (fun hc : ([] : Str) ≠ [] => hc rfl),
            if_pos hq, if_neg (fun hc : ([] : Str) ≠ [] => hc rfl),
            if_neg hauth]
        rw [hU]
        rw [lstripC0_eq_self _ (by
          right
          rcases hhead rfl rfl with hp | hp
          · subst hp
            simp only [List.nil_append, List.headD_cons]
            decide
          · cases P with
            | nil =>
              simp only [List.nil_append, List.headD_cons]
              decide
            | cons p0 pt => simpa using hp)]
        rw [scrubUnsafe_eq_self _
          (nmemAppend hPt (nmemCons (by decide) hQt))
          (nmemAppend hPr (nmemCons (by decide) hQr))
          (nmemAppend hPl (nmemCons (by decide) hQl))]
        rw [schemeStep_skip _ (by
          rcases hguard rfl rfl with hg | hg | hg
          · exact Or.inl (nmemAppend hg (nmemCons (by decide) hQc))
          · cases P with
            | nil =>
              right; left
              simp only [List.nil_append, List.headD_cons]
              decide
            | cons p0 pt =>
              right; left
              simpa using hg
          · exact Or.inr (Or.inr (schemeBlocked_append_query P Q hg)))]
        dsimp only
        have htk : (P ++ '?' :: Q).take 2 ≠ ['/', '/'] := by
          have h := take2_ne P ('?' :: Q) (hP2 rfl) (Or.inr rfl)
          rw [show ("//".data : Str) = ['/', '/'] from rfl] at h
          exact h
        exact splitRest_noauth [] P Q ('?' :: Q) htk hPh hPq hQh
          (Or.inr rfl)
      · have hQnil : Q = [] := not_not.mp hq
        subst hQnil
        have hU : urlunsplit [] [] P [] [] = P := by
          simp only [urlunsplit]
          rw [if_neg (fun hc : ([] : Str) ≠ [] => hc rfl),
            if_neg (fun hc : ([] : Str) ≠ [] => hc rfl),
            if_neg (fun hc : ([] : Str) ≠ [] => hc rfl),
            if_neg hauth]
        rw [hU]
        rw [lstripC0_eq_self _ (hhead rfl rfl)]
        rw [scrubUnsafe_eq_self _ hPt hPr hPl]
        rw [schemeStep_skip _ (hguard rfl rfl)]
        dsimp only
        have htk : (P ++ []).take 2 ≠ ['/', '/'] := by
          rw [List.append_nil]
          exact hPtk
        have := splitRest_noauth [] P [] [] htk hPh hPq
          (List.not_mem_nil '#') (Or.inl ⟨rfl, rfl⟩)
        rw [List.append_nil] at this
        exact this
    · -- scheme, no authority
      obtain ⟨hSc, hSh, hSq, hSsl, hSt, hSr, hSl⟩ := scheme_not_mem S hS3
      have hVhead : ∀ X : Str, (S ++ X) = [] ∨
          isC0OrSpace ((S ++ X).headD '?') = false := by
        intro X
        right
        cases S with
        | nil => exact absurd rfl hS1
        | cons s0 st =>
          simp only [List.cons_append, List.headD_cons]
          exact alpha_not_c0 s0 (by simpa using hS2)
      by_cases hq : Q ≠ []
      · have hU : urlunsplit S [] P Q [] = S ++ ':' :: (P ++ '?' :: Q) := by
          simp only [urlunsplit]
          rw [if_neg (fun hc : ([] : Str) ≠ [] => hc rfl),
            if_pos hq, if_pos hS1, if_neg hauth]
          simp [List.append_assoc]
        rw [hU]
        rw [lstripC0_eq_self _ (hVhead _)]
        rw [scrubUnsafe_eq_self _
          (nmemAppend hSt (nmemCons (by decide)
            (nmemAppend hPt (nmemCons (by decide) hQt))))
          (nmemAppend hSr (nmemCons (by decide)
            (nmemAppend hPr (nmemCons (by decide) hQr))))
          (nmemAppend hSl (nmemCons (by decide)
            (nmemAppend hPl (nmemCons (by decide) hQl))))]
        rw [schemeStep_hit S _ hS1 hS2 hS3 hS4]
        dsimp only
        have htk : (P ++ '?' :: Q).take 2 ≠ ['/', '/'] := by
          have h := take2_ne P ('?' :: Q) (hP2 rfl) (Or.inr rfl)
          rw [show ("//".data : Str) = ['/', '/'] from rfl] at h
          exact h
        exact splitRest_noauth S P Q ('?' :: Q) htk hPh hPq hQh
          (Or.inr rfl)
      · have hQnil : Q = [] := not_not.mp hq
        subst hQnil
        have hU : urlunsplit S [] P [] [] = S ++ ':' :: P := by
          simp only [urlunsplit]
          rw [if_neg (fun hc : ([] : Str) ≠ [] => hc rfl),
            if_neg (fun hc : ([] : Str) ≠ [] => hc rfl),
            if_pos hS1, if_neg hauth]
        rw [hU]
        rw [lstripC0_eq_self _ (hVhead _)]
        rw [scrubUnsafe_eq_self _
          (nmemAppend hSt (nmemCons (by decide) hPt))
          (nmemAppend hSr (nmemCons (by decide) hPr))
          (nmemAppend hSl (nmemCons (by decide) hPl))]
        rw [schemeStep_hit S _ hS1 hS2 hS3 hS4]
        dsimp only
        have htk : (P ++ []).take 2 ≠ ['/', '/'] := by
          rw [List.append_nil]
          exact hPtk
        have := splitRest_noauth S P [] [] htk hPh hPq
          (List.not_mem_nil '#') (Or.inl ⟨rfl, rfl⟩)
        rw [List.append_nil] at this
        exact this

/-- C5 (amended): `normalize_url` is idempotent on every URL in the
stable class characterised by `normalizeStable`: URLs whose parse or
netloc processing raises (returned unchanged), and otherwise URLs
whose parse yields no params and a `;`-free path, whose dot-collapsed
path does not end in `//`, which do not pair an empty processed netloc
with a `//`-headed processed path, whose processed path does not start
with `./` or `../` when the rebuilder would prepend a slash, and whose
processed netloc is a fixpoint of a second default-port strip.  The
general claim is false (`C5_counterexample`). -/
theorem C5_normalize_idempotent_on_stable (important : List Str) (u : Str)
    (h : normalizeStable u = true) :
    normalize_urlL important (normalize_urlL important u) =
      normalize_urlL important u := by
  unfold normalizeStable at h
  cases hpar : pyUrlparse u [] with
  | error e =>
    have hnu : normalize_urlL important u = u := by
      unfold normalize_urlL
      rw [normalizeE_as_netlocProcess, hpar]
    rw [hnu]
    exact hnu
  | ok pr =>
    rw [hpar] at h
    dsimp only at h
    cases hnp : netlocProcessE (lower pr.scheme) pr.netloc with
    | error e =>
      have hnu : normalize_urlL important u = u := by
        unfold normalize_urlL
        rw [normalizeE_as_netlocProcess, hpar]
        dsimp only
        rw [hnp]
      rw [hnu]
      exact hnu
    | ok N =>
      rw [hnp] at h
      dsimp only at h
      simp only [Bool.and_eq_true] at h
      obtain ⟨⟨⟨⟨⟨hA, hB⟩, hC⟩, hD⟩, hE⟩, hF⟩ := h
      have hA' : pr.params = [] := of_decide_eq_true hA
      have hB' : hasChar ';' pr.path = false := by simpa using hB
      have hC' : List.isSuffixOf "//".data (collapseDots pr.path) = false := by
        simpa using hC
      obtain ⟨sr, hsr, hsc, hsn, hspre, hsq⟩ := pyUrlparse_of_split u pr hpar
      obtain ⟨ischeme, inl1, inl2, inl3, inl4a, inl4b, inl4c, iph, ipq,
        ipt, ipr, ipl, ihead, iguard⟩ := pyUrlsplit_inv u sr hsr
      rw [← hsc] at ischeme
      rw [← hsn] at inl1 inl2 inl3 inl4a inl4b inl4c
      have hSeq : lower pr.scheme = pr.scheme := by
        rcases ischeme with h0 | ⟨_, _, _, h4⟩
        · rw [h0]; rfl
        · exact h4
      rw [hSeq] at hnp hE hF
      obtain ⟨ptail, hptail⟩ := hspre
      have hsub : ∀ c : Char, c ∈ pr.path → c ∈ sr.path := by
        intro c hc
        rw [← hptail]
        exact List.mem_append.mpr (Or.inl hc)
      have hPmem : ∀ c : Char, c ∈ processPath pr.path →
          c ∈ pr.path ∨ c = '/' :=
        fun c hc => mem_processPath pr.path c hc
      have hPh' : '#' ∉ processPath pr.path := by
        intro hm
        rcases hPmem '#' hm with h1 | h1
        · exact (hasChar_eq_false_iff ..).mp iph (hsub '#' h1)
        · exact absurd h1 (by decide)
      have hPq' : '?' ∉ processPath pr.path := by
        intro hm
        rcases hPmem '?' hm with h1 | h1
        · exact (hasChar_eq_false_iff ..).mp ipq (hsub '?' h1)
        · exact absurd h1 (by decide)
      have hPt' : '\x09' ∉ processPath pr.path := by
        intro hm
        rcases hPmem _ hm with h1 | h1
        · exact ipt (hsub _ h1)
        · exact absurd h1 (by decide)
      have hPr' : '\x0d' ∉ processPath pr.path := by
        intro hm
        rcases hPmem _ hm with h1 | h1
        · exact ipr (hsub _ h1)
        · exact absurd h1 (by decide)
      have hPl' : '\x0a' ∉ processPath pr.path := by
        intro hm
        rcases hPmem _ hm with h1 | h1
        · exact ipl (hsub _ h1)
        · exact absurd h1 (by decide)
      have hNchar := netlocProcess_chars pr.scheme pr.netloc N hnp
      have hN1' : N.all notNetlocDelim = true := by
        apply List.all_eq_true.mpr
        intro c hc
        obtain ⟨c0, hc0, he⟩ := hNchar c hc
        rw [he]
        exact notDelim_lowerChar c0 (List.all_eq_true.mp inl1 c0 hc0)
      have hN2' : hasChar '[' N = false := by
        apply (hasChar_eq_false_iff ..).mpr
        intro hm
        obtain ⟨c0, hc0, he⟩ := hNchar _ hm
        have hce : c0 = '[' :=
          lowerChar_eq_nonlower (Or.inl (by decide)) c0 he.symm
        rw [hce] at hc0
        exact (hasChar_eq_false_iff ..).mp inl2 hc0
      have hN3' : hasChar ']' N = false := by
        apply (hasChar_eq_false_iff ..).mpr
        intro hm
        obtain ⟨c0, hc0, he⟩ := hNchar _ hm
        have hce : c0 = ']' :=
          lowerChar_eq_nonlower (Or.inl (by decide)) c0 he.symm
        rw [hce] at hc0
        exact (hasChar_eq_false_iff ..).mp inl3 hc0
      have hNt' : '\x09' ∉ N := by
        intro hm
        obtain ⟨c0, hc0, he⟩ := hNchar _ hm
        have hce : c0 = '\x09' :=
          lowerChar_eq_nonlower (Or.inl (by decide)) c0 he.symm
        rw [hce] at hc0
        exact inl4a hc0
      have hNr' : '\x0d' ∉ N := by
        intro hm
        obtain ⟨c0, hc0, he⟩ := hNchar _ hm
        have hce : c0 = '\x0d' :=
          lowerChar_eq_nonlower (Or.inl (by decide)) c0 he.symm
        rw [hce] at hc0
        exact inl4b hc0
      have hNl' : '\x0a' ∉ N := by
        intro hm
        obtain ⟨c0, hc0, he⟩ := hNchar _ hm
        have hce : c0 = '\x0a' :=
          lowerChar_eq_nonlower (Or.inl (by decide)) c0 he.symm
        rw [hce] at hc0
        exact inl4c hc0
      have hP2' : N = [] → (processPath pr.path).take 2 ≠ "//".data := by
        intro hN0 hcon
        have hcc : (decide (N = []) &&
            decide ((processPath pr.path).take 2 = "//".data)) = true := by
          rw [decide_eq_true hN0, decide_eq_true hcon]
          rfl
        rw [hcc] at hD
        exact absurd hD (by decide)
      have hPne : processPath pr.path ≠ [] → pr.path ≠ [] := by
        intro h1 h2
        exact h1 ((processPath_eq_nil_iff pr.path).mpr h2)
      have hPheadD : ∀ d : Char,
          (processPath pr.path).headD d = pr.path.headD d := by
        intro d
        have hh := processPath_head pr.path
        cases hP : processPath pr.path with
        | nil =>
          have hpn : pr.path = [] := (processPath_eq_nil_iff pr.path).mp hP
          rw [hpn]
        | cons c t =>
          rw [hP] at hh
          cases hq2 : pr.path with
          | nil => rw [hq2] at hh; exact absurd hh (by simp)
          | cons d0 s =>
            rw [hq2] at hh
            simp only [List.head?_cons, Option.some.injEq] at hh
            simp [hh]
      have hnetlocEmpty : pr.scheme = [] → N = [] → sr.netloc = [] := by
        intro hs0 hn0
        have hnp3 := hnp
        rw [hs0] at hnp3
        unfold netlocProcessE at hnp3
        rw [if_neg (by decide), if_neg (by decide)] at hnp3
        simp only [pure, Except.pure, Except.ok.injEq] at hnp3
        rw [← hnp3] at hn0
        have hmap : pr.netloc = [] := List.map_eq_nil_iff.mp hn0
        rw [← hsn]
        exact hmap
      have hhead2 : pr.scheme = [] → N = [] →
          (processPath pr.path = [] ∨
            isC0OrSpace ((processPath pr.path).headD '?') = false) := by
        intro hs0 hn0
        by_cases hP0 : processPath pr.path = []
        · exact Or.inl hP0
        · right
          have hprne : pr.path ≠ [] := hPne hP0
          have hsrne : sr.path ≠ [] := by
            intro hcon
            apply hprne
            apply List.prefix_nil.mp
            rw [← hcon]
            exact ⟨ptail, hptail⟩
          rcases ihead (by rw [← hsc]; exact hs0) (hnetlocEmpty hs0 hn0)
              with h1 | h1
          · exact absurd h1 hsrne
          · rw [hPheadD '?', headD_of_prefix ⟨ptail, hptail⟩ hprne '?']
            exact h1
      have hguard2 : pr.scheme = [] → N = [] →
          (':' ∉ processPath pr.path ∨
            isAsciiAlpha ((processPath pr.path).headD ' ') = false ∨
            schemeBlocked (processPath pr.path)) := by
        intro hs0 hn0
        by_cases hP0 : processPath pr.path = []
        · left; rw [hP0]; exact List.not_mem_nil ':'
        · have hprne : pr.path ≠ [] := hPne hP0
          rcases iguard (by rw [← hsc]; exact hs0) (hnetlocEmpty hs0 hn0)
              with h1 | h1 | h1
          · left
            intro hm
            rcases hPmem ':' hm with h2 | h2
            · exact (hasChar_eq_false_iff ..).mp h1 (hsub ':' h2)
            · exact absurd h2 (by decide)
          · right; left
            rw [hPheadD ' ', headD_of_prefix ⟨ptail, hptail⟩ hprne ' ']
            exact h1
          · right; right
            exact schemeBlocked_processPath pr.path
              (schemeBlocked_of_isPrefix ⟨ptail, hptail⟩ h1)
      -- first-pass normalisation result
      have hmain := normalizeE_as_netlocProcess important u
      rw [hpar] at hmain
      dsimp only at hmain
      rw [hSeq] at hmain
      rw [hnp] at hmain
      dsimp only at hmain
      rw [hA'] at hmain
      have hparamsEq : urlunparse pr.scheme N (processPath pr.path) []
          (urlencode (List.insertionSort itemLt
            ((parse_qs pr.query).filter
              (fun kv => important.contains kv.1)))) [] =
          urlunsplit pr.scheme N (processPath pr.path)
            (urlencode (List.insertionSort itemLt
              ((parse_qs pr.query).filter
                (fun kv => important.contains kv.1)))) [] := by
        unfold urlunparse
        rw [if_neg (fun hc => hc rfl)]
      rw [hparamsEq] at hmain
      have hnu : normalize_urlL important u =
          urlunsplit pr.scheme N (processPath pr.path)
            (urlencode (List.insertionSort itemLt
              ((parse_qs pr.query).filter
                (fun kv => important.contains kv.1)))) [] := by
        unfold normalize_urlL
        rw [hmain]
      rw [hnu]
      -- second pass
      have hsplit2 := pyUrlsplit_built pr.scheme N (processPath pr.path)
        (urlencode (List.insertionSort itemLt
          ((parse_qs pr.query).filter (fun kv => important.contains kv.1))))
        ischeme hN1' hN2' hN3' hNt' hNr' hNl' hPh' hPq' hPt' hPr' hPl'
        (urlencode_chars _) hP2' hhead2 hguard2
      have hPs : ';' ∉ processPath pr.path := by
        intro hm
        rcases hPmem ';' hm with h1 | h1
        · exact (hasChar_eq_false_iff ..).mp hB' h1
        · exact absurd h1 (by decide)
      have hPsF : ';' ∉ (if N ≠ [] ∨ (pr.scheme ≠ [] ∧
          usesNetloc.contains pr.scheme = true ∧
          (processPath pr.path).take 2 ≠ "//".data) then
            (if processPath pr.path ≠ [] ∧
                (processPath pr.path).take 1 ≠ "/".data then
              '/' :: processPath pr.path
            else processPath pr.path)
          else processPath pr.path) := by
        split
        · split
          · exact nmemCons (by decide) hPs
          · exact hPs
        · exact hPs
      have hparse2 : pyUrlparse (urlunsplit pr.scheme N
          (processPath pr.path)
          (urlencode (List.insertionSort itemLt
            ((parse_qs pr.query).filter
              (fun kv => important.contains kv.1)))) []) [] =
          Except.ok ⟨pr.scheme, N,
            (if N ≠ [] ∨ (pr.scheme ≠ [] ∧
                usesNetloc.contains pr.scheme = true ∧
                (processPath pr.path).take 2 ≠ "//".data) then
              (if processPath pr.path ≠ [] ∧
                  (processPath pr.path).take 1 ≠ "/".data then
                '/' :: processPath pr.path
              else processPath pr.path)
            else processPath pr.path),
            [],
            (urlencode (List.insertionSort itemLt
              ((parse_qs pr.query).filter
                (fun kv => important.contains kv.1)))), []⟩ := by
        unfold pyUrlparse
        simp only [bind, Except.bind]
        rw [hsplit2]
        dsimp only
        rw [if_neg (fun hc => by
          rw [Bool.and_eq_true] at hc
          have hfc := (hasChar_eq_false_iff ..).mpr hPsF
          rw [hc.2] at hfc
          exact absurd hfc (by decide))]
        rfl
      have hmain2 := normalizeE_as_netlocProcess important
        (urlunsplit pr.scheme N (processPath pr.path)
          (urlencode (List.insertionSort itemLt
            ((parse_qs pr.query).filter
              (fun kv => important.contains kv.1)))) [])
      rw [hparse2] at hmain2
      dsimp only at hmain2
      rw [hSeq] at hmain2
      cases hnp2 : netlocProcessE pr.scheme N with
      | error e2 =>
        rw [hnp2] at hmain2
        dsimp only at hmain2
        unfold normalize_urlL
        rw [hmain2]
      | ok n2 =>
        rw [hnp2] at hF
        dsimp only at hF
        have hn2 : n2 = N := of_decide_eq_true hF
        rw [hnp2] at hmain2
        dsimp only at hmain2
        rw [hn2] at hmain2
        rw [queryPipe_stable important pr.query] at hmain2
        have hnodots := processPath_no_dots pr.path
        have hlast := processPath_getLast pr.path hC'
        have hPfix : processPath (processPath pr.path) =
            processPath pr.path :=
          processPath_fix _ hnodots.1 hnodots.2 hlast
        by_cases hbig : N ≠ [] ∨ (pr.scheme ≠ [] ∧
            usesNetloc.contains pr.scheme = true ∧
            (processPath pr.path).take 2 ≠ "//".data)
        · rw [if_pos hbig] at hmain2
          by_cases hpre : processPath pr.path ≠ [] ∧
              (processPath pr.path).take 1 ≠ "/".data
          · rw [if_pos hpre] at hmain2
            have hEbool : ((decide (N ≠ []) ||
                (decide (pr.scheme ≠ []) &&
                 usesNetloc.contains pr.scheme &&
                 decide ((processPath pr.path).take 2 ≠ "//".data))) &&
                decide (processPath pr.path ≠ []) &&
                decide ((processPath pr.path).take 1 ≠ "/".data)) = true := by
              rw [decide_eq_true hpre.1, decide_eq_true hpre.2]
              rcases hbig with hb | ⟨b1, b2, b3⟩
              · rw [decide_eq_true hb]
                simp
              · rw [decide_eq_true b1, b2, decide_eq_true b3]
                simp
            rw [hEbool] at hE
            simp only [Bool.not_true, Bool.false_or, Bool.and_eq_true] at hE
            have hpf1 : List.isPrefixOf "./".data (processPath pr.path) =
                false := by simpa using hE.1
            have hpf2 : List.isPrefixOf "../".data (processPath pr.path) =
                false := by simpa using hE.2
            have hPfix2 : processPath ('/' :: processPath pr.path) =
                '/' :: processPath pr.path := by
              apply processPath_fix
              · apply hasSub_slash_cons _ _ hnodots.1
                show (('/' == '/') &&
                  List.isPrefixOf "./".data (processPath pr.path)) = false
                rw [beq_self_eq_true, Bool.true_and]
                exact hpf1
              · apply hasSub_slash_cons _ _ hnodots.2
                show (('/' == '/') &&
                  List.isPrefixOf "../".data (processPath pr.path)) = false
                rw [beq_self_eq_true, Bool.true_and]
                exact hpf2
              · right
                cases hPc : processPath pr.path with
                | nil => exact absurd hPc hpre.1
                | cons p0 pt =>
                  rw [List.getLast?_cons_cons]
                  rw [hPc] at hlast
                  rcases hlast with h1 | h1
                  · exfalso
                    apply hpre.2
                    rw [hPc, h1]
                    rfl
                  · exact h1
            rw [hPfix2] at hmain2
            have hUeq : urlunparse pr.scheme N ('/' :: processPath pr.path)
                [] (urlencode (List.insertionSort itemLt
                  ((parse_qs pr.query).filter
                    (fun kv => important.contains kv.1)))) [] =
                urlunsplit pr.scheme N (processPath pr.path)
                  (urlencode (List.insertionSort itemLt
                    ((parse_qs pr.query).filter
                      (fun kv => important.contains kv.1)))) [] := by
              unfold urlunparse
              rw [if_neg (fun hc => hc rfl)]
              have hbig' : N ≠ [] ∨ (pr.scheme ≠ [] ∧
                  usesNetloc.contains pr.scheme = true ∧
                  ('/' :: processPath pr.path).take 2 ≠ "//".data) := by
                rcases hbig with hb | ⟨b1, b2, b3⟩
                · exact Or.inl hb
                · refine Or.inr ⟨b1, b2, ?_⟩
                  intro hcon
                  apply hpre.2
                  have h3 : '/' :: List.take 1 (processPath pr.path) =
                      ['/', '/'] := hcon
                  simp only [List.cons.injEq, true_and] at h3
                  exact h3
              simp only [urlunsplit]
              rw [if_pos hbig', if_pos hbig]
              rw [if_neg (show ¬(('/' :: processPath pr.path) ≠ [] ∧
                  ('/' :: processPath pr.path).take 1 ≠ "/".data) from
                fun hc => hc.2 rfl)]
              rw [if_pos hpre]
            unfold normalize_urlL
            rw [hmain2]
            exact hUeq
          · rw [if_neg hpre] at hmain2
            rw [hPfix] at hmain2
            unfold normalize_urlL
            rw [hmain2]
            unfold urlunparse
            rw [if_neg (fun hc => hc rfl)]
        · rw [if_neg hbig] at hmain2
          rw [hPfix] at hmain2
          unfold normalize_urlL
          rw [hmain2]
          unfold urlunparse
          rw [if_neg (fun hc => hc rfl)]

/-- Witness for C5: a concrete stable URL, with the hypothesis
discharged by evaluation. -/
theorem C5_normalize_idempotent_witness :
    normalizeStable "HTTP://Host:80/a/../b/?id=1".data = true ∧
    normalize_urlL IMPORTANT_URL_PARAMS (normalize_urlL IMPORTANT_URL_PARAMS
      "HTTP://Host:80/a/../b/?id=1".data) =
    normalize_urlL IMPORTANT_URL_PARAMS "HTTP://Host:80/a/../b/?id=1".data :=
  ⟨by decide, C5_normalize_idempotent_on_stable IMPORTANT_URL_PARAMS _ (by decide)⟩
